import Mathlib

/-!
# nulib: byte cursor buffer, bit buffer, little-endian codec and SJIS transcoder

A shallow embedding of `include/nulib/little_endian.h`, `include/nulib/buffer.h`,
`src/buffer.c` and `src/utfsjis.c`.

* A byte (`uint8_t`) is a `Fin 256`; a store converts its operand modulo 256.
* `size_t` is taken to be 64 bits wide and `int` 32 bits wide.  `size_t` values
  are natural numbers; every `size_t` addition, subtraction and doubling of the
  source is written with an explicit `% 2 ^ 64`.
* `le_get16` and `le_get32` are the functions of a little-endian host (the
  first branch of `little_endian.h`); the portable branch is embedded as
  `le_get16_portable` and `le_get32_portable` and proved to agree with them.
* The storage behind `buf` is a list of bytes.  A load or store outside the
  storage is undefined behaviour in C and is reported as `Fault.bad_access`.
* A call of the fatal `ERROR` primitive ends the operation with the matching
  fault; an operation that returns yields `Except.ok`.
-/

namespace Nulib

deriving instance DecidableEq for Except

/-- One byte of storage. -/
abbrev uint8_t := Fin 256

/-- Conversion of an integer value to `uint8_t` (what a store into a byte does). -/
def to_u8 (x : Nat) : uint8_t := ⟨x % 256, Nat.mod_lt x (by decide)⟩

/-- Modelled from the spec: the `ERROR` primitive of `nulib.h` is process-fatal;
each constructor is one way an operation can end without returning.
`out_of_bounds`, `invalid_length` and `bitbuffer_overflow` are the three `ERROR`
calls of the source, `bad_access` is a memory access outside the storage and
`hang` is a loop that never exits. -/
inductive Fault where
  | out_of_bounds
  | invalid_length
  | bitbuffer_overflow
  | bad_access
  | hang
deriving DecidableEq, Repr

/-- Load of the byte `mem[i]`. -/
def load (mem : List uint8_t) (i : Nat) : Except Fault Nat :=
  match mem[i]? with
  | some c => .ok c.val
  | none => .error .bad_access

/-! ## little_endian.h -/

/-- Value of an `int16_t` whose object representation has the bit pattern `x`. -/
def int16_of_bits (x : Nat) : Int := if x < 2 ^ 15 then (x : Int) else (x : Int) - 2 ^ 16

/-- Value of an `int32_t` whose object representation has the bit pattern `x`. -/
def int32_of_bits (x : Nat) : Int := if x < 2 ^ 31 then (x : Int) else (x : Int) - 2 ^ 32

/-- The function `le_get32` of a little-endian host: four bytes are copied into
an `int32_t t`, and `return t` converts it to `uint32_t`. -/
def le_get32 (b : List uint8_t) (i : Nat) : Except Fault Nat := do
  let c0 ← load b i
  let c1 ← load b (i + 1)
  let c2 ← load b (i + 2)
  let c3 ← load b (i + 3)
  let t : Int := int32_of_bits (c0 + 256 * c1 + 65536 * c2 + 16777216 * c3)
  pure (t % 2 ^ 32).toNat

/-- The function `le_get16` of a little-endian host. -/
def le_get16 (b : List uint8_t) (i : Nat) : Except Fault Nat := do
  let c0 ← load b i
  let c1 ← load b (i + 1)
  let t : Int := int16_of_bits (c0 + 256 * c1)
  pure (t % 2 ^ 16).toNat

/-- The portable `le_get32` (the `#else` branch): `int` arithmetic on the four
bytes, converted to `uint32_t` by the return. -/
def le_get32_portable (b : List uint8_t) (i : Nat) : Except Fault Nat := do
  let c0 ← load b i
  let c1 ← load b (i + 1)
  let c2 ← load b (i + 2)
  let c3 ← load b (i + 3)
  let d0 := c0 + (c1 <<< 8)
  let d1 := c2 + (c3 <<< 8)
  pure ((d0 + (d1 <<< 16)) % 2 ^ 32)

/-- The portable `le_get16` (the `#else` branch). -/
def le_get16_portable (b : List uint8_t) (i : Nat) : Except Fault Nat := do
  let c0 ← load b i
  let c1 ← load b (i + 1)
  pure ((c0 + (c1 <<< 8)) % 2 ^ 16)

/-! ## buffer.h: the read side -/

/-- The `struct buffer`: storage, `size` and the cursor `index`. -/
structure buffer where
  buf : List uint8_t
  size : Nat
  index : Nat
deriving DecidableEq, Repr

def buffer_peek_u8_uc (r : buffer) : Except Fault Nat :=
  load r.buf r.index

def buffer_peek_u8 (r : buffer) : Except Fault Nat :=
  if (r.index + 1) % 2 ^ 64 > r.size then .error .out_of_bounds
  else buffer_peek_u8_uc r

def buffer_read_u8 (r : buffer) : Except Fault (Nat × buffer) := do
  let v ← buffer_peek_u8 r
  pure (v, { r with index := (r.index + 1) % 2 ^ 64 })

def buffer_peek_u16_uc (r : buffer) : Except Fault Nat :=
  le_get16 r.buf r.index

def buffer_peek_u16 (r : buffer) : Except Fault Nat :=
  if (r.index + 2) % 2 ^ 64 > r.size then .error .out_of_bounds
  else buffer_peek_u16_uc r

def buffer_read_u16 (r : buffer) : Except Fault (Nat × buffer) := do
  let v ← buffer_peek_u16 r
  pure (v, { r with index := (r.index + 2) % 2 ^ 64 })

def buffer_peek_u32_uc (r : buffer) : Except Fault Nat :=
  le_get32 r.buf r.index

def buffer_peek_u32 (r : buffer) : Except Fault Nat :=
  if (r.index + 4) % 2 ^ 64 > r.size then .error .out_of_bounds
  else buffer_peek_u32_uc r

def buffer_read_u32 (r : buffer) : Except Fault (Nat × buffer) := do
  let v ← buffer_peek_u32 r
  pure (v, { r with index := (r.index + 4) % 2 ^ 64 })

def buffer_end (b : buffer) : Bool := decide (b.index ≥ b.size)

def buffer_remaining (b : buffer) : Nat :=
  if buffer_end b then 0 else b.size - b.index

def buffer_seek (r : buffer) (off : Nat) : buffer := { r with index := off }

/-- The pointer `buffer_strdata(r)`: the storage from the cursor on. -/
def buffer_strdata (r : buffer) : List uint8_t := r.buf.drop r.index

/-! ## buffer.h and buffer.c: the write side -/

/-- Modelled from the spec: `xrealloc` is the reallocation primitive, which
returns storage of the requested size holding the old contents (up to the
smaller of the two sizes).  The bytes past the old contents are indeterminate in
C; they are zero here and no theorem depends on their value. -/
def xrealloc (buf : List uint8_t) (n : Nat) : List uint8_t :=
  buf.take n ++ List.replicate (n - buf.length) 0

/-- The loop `while (b->size <= new_size) b->size *= 2;`.  Every doubling is a
`size_t` multiplication, so after 64 doublings the size is 0 and the loop can no
longer exit: 65 tests decide whether it exits, and `none` is the loop that runs
forever. -/
def _buffer_reserve_loop : Nat → Nat → Nat → Option Nat
  | 0, _, _ => none
  | fuel + 1, size, new_size =>
    if size ≤ new_size then _buffer_reserve_loop fuel (size * 2 % 2 ^ 64) new_size
    else some size

def _buffer_reserve (b : buffer) (size : Nat) : Except Fault buffer :=
  let new_size := (b.index + size) % 2 ^ 64
  let size0 := if b.size = 0 then 64 else b.size
  match _buffer_reserve_loop 65 size0 new_size with
  | none => .error .hang
  | some s => .ok { b with size := s, buf := xrealloc b.buf s }

def buffer_reserve (b : buffer) (size : Nat) : Except Fault buffer :=
  if (b.index + size) % 2 ^ 64 ≥ b.size then _buffer_reserve b size
  else .ok b

/-- The statement `b->buf[b->index++] = v;`. -/
def buffer_store (b : buffer) (v : Nat) : Except Fault buffer :=
  if b.index < b.buf.length then
    .ok { b with buf := b.buf.set b.index (to_u8 v), index := (b.index + 1) % 2 ^ 64 }
  else .error .bad_access

def buffer_write_u32_uc (b : buffer) (v : Nat) : Except Fault buffer := do
  let b ← buffer_store b (v &&& 0x000000FF)
  let b ← buffer_store b ((v &&& 0x0000FF00) >>> 8)
  let b ← buffer_store b ((v &&& 0x00FF0000) >>> 16)
  buffer_store b ((v &&& 0xFF000000) >>> 24)

def buffer_write_u32 (b : buffer) (v : Nat) : Except Fault buffer := do
  let b ← buffer_reserve b 4
  buffer_write_u32_uc b v

def buffer_write_u16_uc (b : buffer) (v : Nat) : Except Fault buffer := do
  let b ← buffer_store b (v &&& 0x00FF)
  buffer_store b ((v &&& 0xFF00) >>> 8)

def buffer_write_u16 (b : buffer) (v : Nat) : Except Fault buffer := do
  let b ← buffer_reserve b 2
  buffer_write_u16_uc b v

def buffer_write_u8_uc (b : buffer) (v : Nat) : Except Fault buffer :=
  buffer_store b v

def buffer_write_u8 (b : buffer) (v : Nat) : Except Fault buffer := do
  let b ← buffer_reserve b 1
  buffer_write_u8_uc b v

/-- A fresh growable buffer: no storage, size 0, cursor 0. -/
def buffer_fresh : buffer := { buf := [], size := 0, index := 0 }

/-! ## buffer.c -/

/-- The C function `strlen` on the storage from a pointer on: the offset of the
first NUL byte; `none` when the scan leaves the storage. -/
def strlen : List uint8_t → Option Nat
  | [] => none
  | c :: cs => if c = 0 then some 0 else (strlen cs).map (· + 1)

/-- The C function `strncmp` on the storage from two pointers on: at most `n`
bytes are compared as `unsigned char`, and the comparison stops after a NUL
byte.  The result is the difference of the first differing bytes (only its sign
is specified by C); `none` when a load leaves the storage. -/
def strncmp : List uint8_t → List uint8_t → Nat → Option Int
  | _, _, 0 => some 0
  | a :: as, b :: bs, n + 1 =>
    if a ≠ b then some ((a.val : Int) - (b.val : Int))
    else if a = 0 then some 0
    else strncmp as bs n
  | _, _, _ + 1 => none

/-- The `n` bytes read by `memcpy(dst, p, n)` from the storage from `p` on;
`none` when the copy leaves the storage. -/
def memcpy_read (p : List uint8_t) (n : Nat) : Option (List uint8_t) :=
  if n ≤ p.length then some (p.take n) else none

/-- Modelled from the spec: `string_new_len(p, n)` of `nulib/string.h` allocates
a nulib string and copies into it the `n` bytes at `p`.  A nulib string is
modelled by the list of its bytes. -/
def string_new_len (p : List uint8_t) (n : Nat) : Option (List uint8_t) :=
  memcpy_read p n

/-- Conversion of a `size_t` value to `int`. -/
def int_of_size (n : Nat) : Int := int32_of_bits (n % 2 ^ 32)

/-- Conversion of an `int` value to `size_t`. -/
def size_of_int (x : Int) : Nat := (x % 2 ^ 64).toNat

def buffer_skip (r : buffer) (off : Nat) : buffer :=
  { r with index := min ((r.index + off) % 2 ^ 64) r.size }

/-- The function `buffer_read_string`.  The source passes the function
`buffer_strdata` itself (not the call `buffer_strdata(r)`) to `string_new_len`,
so the bytes copied are those stored at the address of that function:
`fn_image` is the storage from that address on. -/
def buffer_read_string (fn_image : List uint8_t) (r : buffer) :
    Except Fault (List uint8_t × buffer) :=
  match strlen (buffer_strdata r) with
  | none => .error .bad_access
  | some n =>
    let len : Int := int_of_size n
    match string_new_len fn_image (size_of_int len) with
    | none => .error .bad_access
    | some s => .ok (s, buffer_skip r (size_of_int (len + 1)))

/-- The function `buffer_skip_string`: the pointer returned is the storage from
the old cursor on. -/
def buffer_skip_string (r : buffer) : Except Fault (List uint8_t × buffer) :=
  let s := buffer_strdata r
  match strlen s with
  | none => .error .bad_access
  | some n => .ok (s, buffer_skip r ((n + 1) % 2 ^ 64))

/-- The bytes of the C string at a pointer: those before the first NUL. -/
def cstring_bytes (s : List uint8_t) : List uint8_t := s.takeWhile (· ≠ 0)

def buffer_read_pascal_string (r : buffer) : Except Fault (List uint8_t × buffer) := do
  let (len, r) ← buffer_read_u32 r
  if len > (r.size + 2 ^ 64 - (r.index + 4) % 2 ^ 64) % 2 ^ 64 then
    throw .invalid_length
  match string_new_len (r.buf.drop r.index) len with
  | none => throw .bad_access
  | some s => pure (s, { r with index := (r.index + len) % 2 ^ 64 })

def buffer_read_bytes (r : buffer) (n : Nat) : Except Fault (List uint8_t × buffer) :=
  if buffer_remaining r < n then .error .out_of_bounds
  else
    match memcpy_read (r.buf.drop r.index) n with
    | none => .error .bad_access
    | some dst => .ok (dst, { r with index := (r.index + n) % 2 ^ 64 })

def buffer_check_bytes (r : buffer) (data : List uint8_t) (n : Nat) :
    Except Fault (Bool × buffer) :=
  if buffer_remaining r ≥ n then
    match strncmp (buffer_strdata r) data n with
    | none => .error .bad_access
    | some c => .ok (decide (c = 0), buffer_skip r n)
  else .ok (false, buffer_skip r n)

def buffer_write_bytes (b : buffer) (bytes : List uint8_t) (len : Nat) :
    Except Fault buffer := do
  let b ← buffer_reserve b len
  if len ≤ bytes.length ∧ b.index + len ≤ b.buf.length then
    pure { b with
      buf := b.buf.take b.index ++ bytes.take len ++ b.buf.drop (b.index + len),
      index := (b.index + len) % 2 ^ 64 }
  else throw .bad_access

/-- The function `buffer_write_cstring`; `s` is the storage from the pointer on. -/
def buffer_write_cstring (b : buffer) (s : List uint8_t) : Except Fault buffer :=
  match strlen s with
  | none => .error .bad_access
  | some n => buffer_write_bytes b s n

/-- The function `buffer_write_pascal_string`; `string_length(s)` is the number
of bytes of the nulib string `s`. -/
def buffer_write_pascal_string (b : buffer) (s : List uint8_t) : Except Fault buffer := do
  let b ← buffer_write_u32 b s.length
  buffer_write_bytes b s s.length

def buffer_write_u32_at (buf : buffer) (index : Nat) (v : Nat) : Except Fault buffer := do
  let tmp := buf.index
  let buf ← buffer_write_u32 { buf with index := index } v
  pure { buf with index := tmp }

/-- The function `buffer_align`: `p` is an `int`, and both `p-1` and `~(p-1)`
are converted to `size_t` by the arithmetic with `r->index`. -/
def buffer_align (r : buffer) (p : Int) : buffer :=
  { r with index :=
      ((r.index + size_of_int (p - 1)) % 2 ^ 64) &&& size_of_int (Int.not (p - 1)) }

/-! ## Sequences of writes -/

/-- One write operation on a growable buffer. -/
inductive write_op where
  | u8 (v : Nat)
  | u16 (v : Nat)
  | u32 (v : Nat)
  | bytes (src : List uint8_t)
  | cstring (s : List uint8_t)
  | pascal_string (s : List uint8_t)
deriving DecidableEq, Repr

/-- The call a write operation stands for. -/
def write_op.run (b : buffer) : write_op → Except Fault buffer
  | .u8 v => buffer_write_u8 b v
  | .u16 v => buffer_write_u16 b v
  | .u32 v => buffer_write_u32 b v
  | .bytes src => buffer_write_bytes b src src.length
  | .cstring s => buffer_write_cstring b s
  | .pascal_string s => buffer_write_pascal_string b s

/-- The calls of a list of write operations, in order. -/
def write_ops (b : buffer) : List write_op → Except Fault buffer
  | [] => .ok b
  | op :: ops =>
    match op.run b with
    | .error e => .error e
    | .ok b1 => write_ops b1 ops

/-- The number of bytes a write operation appends. -/
def write_op.width : write_op → Nat
  | .u8 _ => 1
  | .u16 _ => 2
  | .u32 _ => 4
  | .bytes src => src.length
  | .cstring s => (strlen s).getD 0
  | .pascal_string s => 4 + s.length

/-- The precondition of a write operation: a C string argument is
NUL-terminated. -/
def write_op.valid : write_op → Prop
  | .cstring s => (strlen s).isSome = true
  | _ => True

/-- The little-endian value of the `w` bytes of `data` from offset `c` on:
the sum of `data[c+i] * 256^i` for `i < w`. -/
def le_value (data : List uint8_t) (c : Nat) : Nat → Nat
  | 0 => 0
  | w + 1 => (data.getD c 0).val + 256 * le_value data (c + 1) w

/-- The little-endian encoding of `v` in `w` bytes. -/
def le_bytes (v : Nat) : Nat → List uint8_t
  | 0 => []
  | w + 1 => to_u8 v :: le_bytes (v / 256) w

/-- What a write of the bytes `ws` at the cursor of `b` leaves in `b1`: the
cursor moved by the width, the storage as long as the capacity and longer than
the cursor, the bytes before the old cursor kept, the bytes `ws` from the old
cursor on, and a capacity that is the old one or a doubling of it (of 64 for an
empty buffer). -/
def write_post (b b1 : buffer) (ws : List uint8_t) : Prop :=
  b1.index = b.index + ws.length ∧
  b1.buf.length = b1.size ∧
  b1.index < b1.size ∧
  b1.buf.take b.index = b.buf.take b.index ∧
  (b1.buf.drop b.index).take ws.length = ws ∧
  (b1.size = b.size ∨ ∃ k, b1.size = (if b.size = 0 then 64 else b.size) * 2 ^ k)

/-! ## buffer.h: the bit buffer -/

/-- The `struct bitbuffer`.  The fields `current` and `mask` are `int`s that
only ever hold a byte and a power of two up to `0x80` (or 0); `index` is an
`int` whose increment wraps at 32 bits. -/
structure bitbuffer where
  buf : List uint8_t
  buf_size : Nat
  index : Int
  current : Nat
  mask : Nat
deriving DecidableEq, Repr

def bitbuffer_init (data : List uint8_t) (data_size : Nat) : bitbuffer :=
  { buf := data, buf_size := data_size, index := 0, current := 0, mask := 0 }

/-- The block `if (b->mask == 0) { ... }` of `bitbuffer_read_bit`: the fetch of
the next byte.  The comparison `b->index >= b->buf_size` converts the `int` to
`size_t`. -/
def bitbuffer_fetch (b : bitbuffer) : Except Fault bitbuffer :=
  if b.mask = 0 then
    if size_of_int b.index ≥ b.buf_size then .error .bitbuffer_overflow
    else if b.index < 0 then .error .bad_access
    else
      match load b.buf b.index.toNat with
      | .error e => .error e
      | .ok c =>
        .ok { b with
          current := c,
          index := int32_of_bits ((b.index + 1) % 2 ^ 32).toNat,
          mask := 0x80 }
  else .ok b

def bitbuffer_read_bit (b : bitbuffer) : Except Fault (Bool × bitbuffer) :=
  match bitbuffer_fetch b with
  | .error e => .error e
  | .ok b =>
    let bit := decide (b.current &&& b.mask ≠ 0)
    .ok (bit, { b with mask := b.mask >>> 1 })

/-- The loop of `bitbuffer_read_number`, with the number of iterations left;
`r` is an `unsigned`, so the shift is modulo 2^32. -/
def bitbuffer_read_number_loop : Nat → bitbuffer → Nat → Except Fault (Nat × bitbuffer)
  | 0, b, r => .ok (r, b)
  | n + 1, b, r =>
    match bitbuffer_read_bit b with
    | .error e => .error e
    | .ok (bit, b1) => bitbuffer_read_number_loop n b1 (((r <<< 1) % 2 ^ 32) ||| bit.toNat)

def bitbuffer_read_number (b : bitbuffer) (nr_bits : Int) : Except Fault (Nat × bitbuffer) :=
  bitbuffer_read_number_loop nr_bits.toNat b 0

/-- The loop of `bitbuffer_read_zeros`, with the number of iterations left
before `i < limit` fails; `zeros` is an `unsigned`. -/
def bitbuffer_read_zeros_loop : Nat → bitbuffer → Nat → Except Fault (Nat × bitbuffer)
  | 0, b, zeros => .ok (zeros, b)
  | n + 1, b, zeros =>
    match bitbuffer_read_bit b with
    | .error e => .error e
    | .ok (true, b1) => .ok (zeros, b1)
    | .ok (false, b1) => bitbuffer_read_zeros_loop n b1 ((zeros + 1) % 2 ^ 32)

def bitbuffer_read_zeros (b : bitbuffer) (limit : Int) : Except Fault (Nat × bitbuffer) :=
  bitbuffer_read_zeros_loop limit.toNat b 0

/-- The results and the final state of `k` successive calls of
`bitbuffer_read_bit`. -/
def bitbuffer_read_bits : Nat → bitbuffer → Except Fault (List Bool × bitbuffer)
  | 0, b => .ok ([], b)
  | k + 1, b =>
    match bitbuffer_read_bit b with
    | .error e => .error e
    | .ok (bit, b1) =>
      match bitbuffer_read_bits k b1 with
      | .error e => .error e
      | .ok (bits, b2) => .ok (bit :: bits, b2)

/-- Bit `k` of the bit stream of `data`: bit `7 - k mod 8` of `data[k div 8]`. -/
def data_bit (data : List uint8_t) (k : Nat) : Bool :=
  (data.getD (k / 8) 0).val.testBit (7 - k % 8)

/-- The number whose `n`-digit binary representation is the bits `p`, ...,
`p + n - 1` of the bit stream of `data`, most significant first. -/
def bits_number (data : List uint8_t) (p : Nat) : Nat → Nat
  | 0 => 0
  | n + 1 => 2 * bits_number data p n + (data_bit data (p + n)).toNat

/-- The number of consecutive zero bits of the bit stream of `data` from bit
`p` on, among the next `n` bits. -/
def zero_run (data : List uint8_t) (p : Nat) : Nat → Nat
  | 0 => 0
  | n + 1 => if data_bit data p then 0 else zero_run data (p + 1) n + 1

/-- The state of a bit buffer over `data` after `k` bits have been read. -/
def bitbuffer_at (data : List uint8_t) (k : Nat) : bitbuffer :=
  { buf := data,
    buf_size := data.length,
    index := ((k + 7) / 8 : Nat),
    current := if k = 0 then 0 else (data.getD ((k - 1) / 8) 0).val,
    mask := if k % 8 = 0 then 0 else 0x80 >>> (k % 8) }

/-! ## utfsjis.c

A `const char *` is the storage from the pointer on, so `src + k` is
`src.drop k`.  The table `s2u`, the constant `BAD_CH` (both of `s2utbl.h`) and
the macro `SJIS_2BYTE` (of `nulib/utfsjis.h`) are parameters. -/

/-- The table access `s2u[row][col]`.  The source reads rows `b1 - 0x80` for
bytes `b1` up to `0xff` and columns `b2 - 0x40` for bytes `b2` up to `0xff`
(the reverse scan of `unicode_to_sjis` visits all of them), so the table has
0x80 rows of 0xc0 entries; an index outside it is an access outside its
storage. -/
def s2u_at (s2u : Nat → Nat → Nat) (row col : Int) : Except Fault Nat :=
  if 0 ≤ row ∧ row < 0x80 ∧ 0 ≤ col ∧ col < 0xc0 then .ok (s2u row.toNat col.toNat)
  else .error .bad_access

/-- Modelled from the spec: the macro `SJIS_2BYTE` holds of the lead bytes of
double-byte characters, the ranges `[0x81,0x9f]` and `[0xe0,0xfc]`. -/
def SJIS_2BYTE_spec (b : Nat) : Bool :=
  decide ((0x81 ≤ b ∧ b ≤ 0x9f) ∨ (0xe0 ≤ b ∧ b ≤ 0xfc))

def sjis_char_is_valid (s2u : Nat → Nat → Nat) (BAD_CH : Nat) (src : List uint8_t) :
    Except Fault Bool :=
  match load src 0 with
  | .error e => .error e
  | .ok b1 =>
    if b1 < 0x7f then .ok true
    else
      match load src 1 with
      | .error e => .error e
      | .ok b2 =>
        if b2 < 0x40 then .ok false
        else
          match s2u_at s2u ((b1 : Int) - 0x80) ((b2 : Int) - 0x40) with
          | .error e => .error e
          | .ok entry =>
            if entry = BAD_CH then .ok (decide (b1 = 0x81 ∧ b2 = 0x45))
            else .ok true

/-- Load of `src[i]` for an `int` index. -/
def load_at (src : List uint8_t) (i : Int) : Except Fault Nat :=
  if i < 0 then .error .bad_access else load src i.toNat

/-- The increment `i++` of an `int`, wrapping at 32 bits. -/
def int_succ (i : Int) : Int := int32_of_bits ((i + 1) % 2 ^ 32).toNat

/-- The statement `return src[i] ? i : -1;` of `sjis_index`. -/
def sjis_index_result (src : List uint8_t) (i : Int) : Except Fault Int :=
  match load_at src i with
  | .error e => .error e
  | .ok b => .ok (if b ≠ 0 then i else -1)

/-- The loop of `sjis_index`, with the number of iterations left before
`c < index` fails. -/
def sjis_index_loop (SJIS_2BYTE : Nat → Bool) (src : List uint8_t) :
    Nat → Int → Except Fault Int
  | 0, i => sjis_index_result src i
  | n + 1, i =>
    match load_at src i with
    | .error e => .error e
    | .ok b =>
      if b = 0 then sjis_index_result src i
      else if SJIS_2BYTE b then
        match load_at src (int_succ i) with
        | .error e => .error e
        | .ok b2 =>
          if b2 = 0 then .ok (-1)
          else sjis_index_loop SJIS_2BYTE src n (int_succ (int_succ i))
      else sjis_index_loop SJIS_2BYTE src n (int_succ i)

def sjis_index (SJIS_2BYTE : Nat → Bool) (src : List uint8_t) (index : Int) :
    Except Fault Int :=
  sjis_index_loop SJIS_2BYTE src index.toNat 0

/-- The function `sjis_char2unicode`: the codepoint stored in `*dst` and the
pointer returned. -/
def sjis_char2unicode (s2u : Nat → Nat → Nat) (src : List uint8_t) :
    Except Fault (Nat × List uint8_t) :=
  match load src 0 with
  | .error e => .error e
  | .ok b =>
    if b ≤ 0x7f then .ok (b, src.drop 1)
    else if b ≥ 0xa0 ∧ b ≤ 0xdf then .ok (0xff60 + b - 0xa0, src.drop 1)
    else
      match load src 1 with
      | .error e => .error e
      | .ok c =>
        if c < 0x40 ∨ c = 0x7f ∨ c > 0xfc then .ok (0x3f, src.drop 1)
        else
          match s2u_at s2u ((b : Int) - 0x80) ((c : Int) - 0x40) with
          | .error e => .error e
          | .ok entry => .ok (entry, src.drop 2)

/-- The bytes `sjis_to_utf8_internal` stores for the codepoint `c`. -/
def utf8_put (c : Nat) : List uint8_t :=
  if c ≤ 0x7f then [to_u8 c]
  else if c ≤ 0x7ff then [to_u8 (0xc0 ||| (c >>> 6)), to_u8 (0x80 ||| (c &&& 0x3f))]
  else
    [to_u8 (0xe0 ||| (c >>> 12)), to_u8 (0x80 ||| ((c >>> 6) &&& 0x3f)),
      to_u8 (0x80 ||| (c &&& 0x3f))]

/-- The loop of `sjis_to_utf8_internal`: `dst` holds the bytes stored so far and
`cap` is the capacity of the output string, which has room for `cap` bytes and
the final NUL.  Every iteration moves `src` forward, so `src.length + 1`
iterations suffice; `fuel` counts them. -/
def sjis_to_utf8_loop (s2u : Nat → Nat → Nat) (cap : Nat) :
    Nat → List uint8_t → List uint8_t → Except Fault (List uint8_t)
  | 0, _, _ => .error .hang
  | fuel + 1, src, dst =>
    match load src 0 with
    | .error e => .error e
    | .ok b =>
      if b = 0 then .ok dst
      else
        match sjis_char2unicode s2u src with
        | .error e => .error e
        | .ok (c, src1) =>
          if (dst ++ utf8_put c).length > cap then .error .bad_access
          else sjis_to_utf8_loop s2u cap fuel src1 (dst ++ utf8_put c)

def sjis_to_utf8_internal (s2u : Nat → Nat → Nat) (src : List uint8_t) (len : Nat) :
    Except Fault (List uint8_t) :=
  sjis_to_utf8_loop s2u (len * 3 % 2 ^ 64) (src.length + 1) src []

/-- The function `sjis_to_utf8` on the nulib string with bytes `s`: its storage
is `s` followed by a NUL and `string_length` is the number of its bytes. -/
def sjis_to_utf8 (s2u : Nat → Nat → Nat) (s : List uint8_t) : Except Fault (List uint8_t) :=
  sjis_to_utf8_internal s2u (s ++ [0]) s.length

/-- The inner loop of `unicode_to_sjis` over `b2`, with `0x100 - b2` iterations
left; `none` when the row holds no match. -/
def unicode_to_sjis_row (s2u : Nat → Nat → Nat) (u : Nat) (b1 : Nat) :
    Nat → Except Fault (Option Nat)
  | 0 => .ok none
  | n + 1 =>
    match s2u_at s2u ((b1 : Int) - 0x80) (((0x100 - (n + 1) : Nat) : Int) - 0x40) with
    | .error e => .error e
    | .ok entry =>
      if u = entry then .ok (some ((b1 <<< 8) ||| (0x100 - (n + 1))))
      else unicode_to_sjis_row s2u u b1 n

/-- The outer loop of `unicode_to_sjis` over `b1`, with `0x100 - b1` iterations
left. -/
def unicode_to_sjis_rows (s2u : Nat → Nat → Nat) (u : Nat) : Nat → Except Fault Nat
  | 0 => .ok 0
  | n + 1 =>
    if 0x100 - (n + 1) ≥ 0xa0 ∧ 0x100 - (n + 1) ≤ 0xdf then unicode_to_sjis_rows s2u u n
    else
      match unicode_to_sjis_row s2u u (0x100 - (n + 1)) (0x100 - 0x40) with
      | .error e => .error e
      | .ok (some c) => .ok c
      | .ok none => unicode_to_sjis_rows s2u u n

def unicode_to_sjis (s2u : Nat → Nat → Nat) (u : Nat) : Except Fault Nat :=
  unicode_to_sjis_rows s2u u (0x100 - 0x81)

/-- The loop `do src++; while ((*src & 0xc0) == 0x80);` after its first
increment. -/
def utf8_skip_continuation : List uint8_t → Except Fault (List uint8_t)
  | [] => .error .bad_access
  | b :: rest =>
    if (b.val &&& 0xc0) = 0x80 then utf8_skip_continuation rest else .ok (b :: rest)

/-- The part of `utf8_char_to_sjis` after the codepoint `u` is decoded and the
pointer `out` is set: the halfwidth range, the reverse scan of the table, and
the substitution of `?`. -/
def utf8_char_to_sjis_tail (s2u : Nat → Nat → Nat) (u : Nat) (out : List uint8_t) :
    Except Fault (Nat × List uint8_t × List uint8_t) :=
  if u > 0xff60 ∧ u ≤ 0xff9f then .ok (1, [to_u8 (u - 0xff60 + 0xa0)], out)
  else
    match unicode_to_sjis s2u u with
    | .error e => .error e
    | .ok c =>
      if c ≠ 0 then .ok (2, [to_u8 (c >>> 8), to_u8 (c &&& 0xff)], out)
      else .ok (1, [0x3f], out)

/-- The function `utf8_char_to_sjis`: the value returned, the bytes stored at
`dst` and the pointer stored in `*out`. -/
def utf8_char_to_sjis (s2u : Nat → Nat → Nat) (src : List uint8_t) :
    Except Fault (Nat × List uint8_t × List uint8_t) :=
  match load src 0 with
  | .error e => .error e
  | .ok b0 =>
    if b0 ≤ 0x7f then .ok (1, [to_u8 b0], src.drop 1)
    else if b0 ≤ 0xdf then
      match load src 1 with
      | .error e => .error e
      | .ok b1 =>
        utf8_char_to_sjis_tail s2u (((b0 &&& 0x1f) <<< 6) ||| (b1 &&& 0x3f)) (src.drop 2)
    else if b0 ≤ 0xef then
      match load src 1 with
      | .error e => .error e
      | .ok b1 =>
        match load src 2 with
        | .error e => .error e
        | .ok b2 =>
          utf8_char_to_sjis_tail s2u
            (((b0 &&& 0xf) <<< 12) ||| ((b1 &&& 0x3f) <<< 6) ||| (b2 &&& 0x3f)) (src.drop 3)
    else
      match utf8_skip_continuation (src.drop 1) with
      | .error e => .error e
      | .ok out => .ok (1, [0x3f], out)

def utf8_sjis_char_length (s2u : Nat → Nat → Nat) (src : List uint8_t) :
    Except Fault (Nat × List uint8_t) :=
  match utf8_char_to_sjis s2u src with
  | .error e => .error e
  | .ok (n, _, out) => .ok (n, out)

/-- The loop of `utf8_sjis_length`; `fuel` counts the iterations, and
`src.length + 1` of them suffice. -/
def utf8_sjis_length_loop (s2u : Nat → Nat → Nat) :
    Nat → List uint8_t → Nat → Except Fault Nat
  | 0, _, _ => .error .hang
  | fuel + 1, src, len =>
    match load src 0 with
    | .error e => .error e
    | .ok b =>
      if b = 0 then .ok len
      else
        match utf8_sjis_char_length s2u src with
        | .error e => .error e
        | .ok (n, src1) => utf8_sjis_length_loop s2u fuel src1 ((len + n) % 2 ^ 64)

def utf8_sjis_length (s2u : Nat → Nat → Nat) (src : List uint8_t) : Except Fault Nat :=
  utf8_sjis_length_loop s2u (src.length + 1) src 0

/-- The loop of `utf8_to_sjis_internal`, with the bytes stored so far and the
capacity of the output string. -/
def utf8_to_sjis_loop (s2u : Nat → Nat → Nat) (cap : Nat) :
    Nat → List uint8_t → List uint8_t → Except Fault (List uint8_t)
  | 0, _, _ => .error .hang
  | fuel + 1, src, dst =>
    match load src 0 with
    | .error e => .error e
    | .ok b =>
      if b = 0 then .ok dst
      else
        match utf8_char_to_sjis s2u src with
        | .error e => .error e
        | .ok (_, bytes, src1) =>
          if (dst ++ bytes).length > cap then .error .bad_access
          else utf8_to_sjis_loop s2u cap fuel src1 (dst ++ bytes)

def utf8_to_sjis_internal (s2u : Nat → Nat → Nat) (src : List uint8_t) (len : Nat) :
    Except Fault (List uint8_t) :=
  utf8_to_sjis_loop s2u len (src.length + 1) src []

/-- The function `utf8_to_sjis` on the nulib string with bytes `s`. -/
def utf8_to_sjis (s2u : Nat → Nat → Nat) (s : List uint8_t) : Except Fault (List uint8_t) :=
  utf8_to_sjis_internal s2u (s ++ [0]) s.length

/-- The function `sjis_toupper`: the storage from `src` on after the call.  The
second byte of a double-byte character is stepped over without being read. -/
def sjis_toupper (SJIS_2BYTE : Nat → Bool) : List uint8_t → Except Fault (List uint8_t)
  | [] => .error .bad_access
  | b :: rest =>
    if b = 0 then .ok (b :: rest)
    else if SJIS_2BYTE b.val then
      match rest with
      | [] => .error .bad_access
      | t :: rest2 =>
        match sjis_toupper SJIS_2BYTE rest2 with
        | .error e => .error e
        | .ok r => .ok (b :: t :: r)
    else
      let b1 : uint8_t := if b.val ≥ 0x60 ∧ b.val ≤ 0x7a then to_u8 (b.val &&& 0xdf) else b
      match sjis_toupper SJIS_2BYTE rest with
      | .error e => .error e
      | .ok r => .ok (b1 :: r)

/-- A table with the single entry U+3042 for the pair `(0x82, 0xa0)`; every
other entry is `0xfffd`. -/
def s2u_example (row col : Nat) : Nat :=
  if row = 0x02 ∧ col = 0x60 then 0x3042 else 0xfffd

/-- One character of an SJIS string: a single byte, or a lead and a trail
byte. -/
inductive sjis_char where
  | single (b : uint8_t)
  | double (lead trail : uint8_t)
deriving DecidableEq, Repr

/-- The bytes of a character. -/
def sjis_char.bytes : sjis_char → List uint8_t
  | .single b => [b]
  | .double lead trail => [lead, trail]

/-- The byte width of a character. -/
def sjis_char.width : sjis_char → Nat
  | .single _ => 1
  | .double _ _ => 2

/-- A well-formed character for the macro `SJIS_2BYTE`: a non-NUL byte that is
not a lead byte, or a lead byte followed by a non-NUL trail byte. -/
def sjis_char.wf (SJIS_2BYTE : Nat → Bool) : sjis_char → Prop
  | .single b => b ≠ 0 ∧ SJIS_2BYTE b.val = false
  | .double lead trail => lead ≠ 0 ∧ SJIS_2BYTE lead.val = true ∧ trail ≠ 0

/-- The bytes of the characters `cs`, without a terminator. -/
def sjis_bytes : List sjis_char → List uint8_t
  | [] => []
  | c :: cs => c.bytes ++ sjis_bytes cs

/-- The sum of the byte widths of the characters `cs`. -/
def sjis_width : List sjis_char → Nat
  | [] => 0
  | c :: cs => c.width + sjis_width cs

/-- The UTF-8 encoding of a codepoint up to U+FFFF, in 1, 2 or 3 bytes. -/
def utf8_encode (c : Nat) : List uint8_t :=
  if c < 0x80 then [to_u8 c]
  else if c < 0x800 then [to_u8 (0xc0 + c / 64), to_u8 (0x80 + c % 64)]
  else [to_u8 (0xe0 + c / 4096), to_u8 (0x80 + c / 64 % 64), to_u8 (0x80 + c % 64)]

/-- The codepoints returned by the successive calls of `sjis_char2unicode` from
`src` up to the NUL, each call starting where the one before ended; `fuel`
counts the calls. -/
def sjis_codepoints (s2u : Nat → Nat → Nat) : Nat → List uint8_t → Except Fault (List Nat)
  | 0, _ => .error .hang
  | fuel + 1, src =>
    match load src 0 with
    | .error e => .error e
    | .ok b =>
      if b = 0 then .ok []
      else
        match sjis_char2unicode s2u src with
        | .error e => .error e
        | .ok (c, src1) =>
          match sjis_codepoints s2u fuel src1 with
          | .error e => .error e
          | .ok cs => .ok (c :: cs)

/-- The table has no entry `u` among those the reverse scan of
`unicode_to_sjis` visits. -/
def s2u_unmapped (s2u : Nat → Nat → Nat) (u : Nat) : Prop :=
  ∀ b1 b2, 0x81 ≤ b1 → b1 ≤ 0xff → ¬ (0xa0 ≤ b1 ∧ b1 ≤ 0xdf) → 0x40 ≤ b2 → b2 ≤ 0xff →
    s2u (b1 - 0x80) (b2 - 0x40) ≠ u

/-- A UTF-8 continuation byte, `0x80` to `0xbf`. -/
def utf8_continuation (b : uint8_t) : Prop := 0x80 ≤ b.val ∧ b.val ≤ 0xbf

/-- One character of a UTF-8 string, by the number of its bytes. -/
inductive utf8_char where
  | one (b0 : uint8_t)
  | two (b0 b1 : uint8_t)
  | three (b0 b1 b2 : uint8_t)
  | four (b0 b1 b2 b3 : uint8_t)
deriving DecidableEq, Repr

/-- The bytes of a character. -/
def utf8_char.bytes : utf8_char → List uint8_t
  | .one b0 => [b0]
  | .two b0 b1 => [b0, b1]
  | .three b0 b1 b2 => [b0, b1, b2]
  | .four b0 b1 b2 b3 => [b0, b1, b2, b3]

/-- A well-formed character: a non-NUL ASCII byte, or a lead byte of the range
of its length followed by continuation bytes. -/
def utf8_char.wf : utf8_char → Prop
  | .one b0 => 1 ≤ b0.val ∧ b0.val ≤ 0x7f
  | .two b0 b1 => 0xc0 ≤ b0.val ∧ b0.val ≤ 0xdf ∧ utf8_continuation b1
  | .three b0 b1 b2 =>
    0xe0 ≤ b0.val ∧ b0.val ≤ 0xef ∧ utf8_continuation b1 ∧ utf8_continuation b2
  | .four b0 b1 b2 b3 =>
    0xf0 ≤ b0.val ∧ utf8_continuation b1 ∧ utf8_continuation b2 ∧ utf8_continuation b3

/-- The bytes of the characters `cs`, without a terminator. -/
def utf8_bytes : List utf8_char → List uint8_t
  | [] => []
  | c :: cs => c.bytes ++ utf8_bytes cs

/-- The value `utf8_char_to_sjis` returns for the character `c` (followed by a
NUL). -/
def utf8_char_sjis_width (s2u : Nat → Nat → Nat) (c : utf8_char) : Nat :=
  match utf8_char_to_sjis s2u (c.bytes ++ [0]) with
  | .ok (n, _, _) => n
  | .error _ => 0

/-- The codepoint `sjis_char2unicode` yields for a character. -/
def sjis_char.codepoint (s2u : Nat → Nat → Nat) : sjis_char → Nat
  | .single b => if b.val ≤ 0x7f then b.val else 0xff60 + (b.val - 0xa0)
  | .double lead trail => s2u (lead.val - 0x80) (trail.val - 0x40)

/-- A character that survives the round trip: a non-NUL ASCII byte, a halfwidth
katakana byte `0xa1` to `0xdf`, or a lead byte (neither ASCII nor halfwidth)
and a trail byte accepted by `sjis_char2unicode` whose table entry `u` is
encoded in 2 or 3 UTF-8 bytes, lies outside the halfwidth range and is mapped
back to the pair by the reverse scan `unicode_to_sjis`. -/
def sjis_char.roundtrips (s2u : Nat → Nat → Nat) : sjis_char → Prop
  | .single b => (1 ≤ b.val ∧ b.val ≤ 0x7f) ∨ (0xa1 ≤ b.val ∧ b.val ≤ 0xdf)
  | .double lead trail =>
    ¬ lead.val ≤ 0x7f ∧ ¬ (0xa0 ≤ lead.val ∧ lead.val ≤ 0xdf) ∧
    0x40 ≤ trail.val ∧ trail.val ≤ 0xfc ∧ trail.val ≠ 0x7f ∧
    0x80 ≤ s2u (lead.val - 0x80) (trail.val - 0x40) ∧
    s2u (lead.val - 0x80) (trail.val - 0x40) ≤ 0xffff ∧
    ¬ (0xff60 < s2u (lead.val - 0x80) (trail.val - 0x40) ∧
      s2u (lead.val - 0x80) (trail.val - 0x40) ≤ 0xff9f) ∧
    unicode_to_sjis s2u (s2u (lead.val - 0x80) (trail.val - 0x40))
      = .ok ((lead.val <<< 8) ||| trail.val)

/-- The bytes `sjis_to_utf8_internal` stores for the characters `cs`: those of
the codepoint of each character, in order. -/
def sjis_chars_utf8 (s2u : Nat → Nat → Nat) : List sjis_char → List uint8_t
  | [] => []
  | c :: cs => utf8_put (c.codepoint s2u) ++ sjis_chars_utf8 s2u cs

/-! ## Lemmas -/

theorem and_mask_shift (v k : Nat) : (v &&& (255 <<< k)) >>> k = (v >>> k) % 256 := by
  apply Nat.eq_of_testBit_eq
  intro j
  have h255 : (255 : Nat) = 2 ^ 8 - 1 := by norm_num
  have h256 : (256 : Nat) = 2 ^ 8 := by norm_num
  rw [h256, Nat.testBit_mod_two_pow, Nat.testBit_shiftRight, Nat.testBit_shiftRight,
    Nat.testBit_and, Nat.testBit_shiftLeft, h255, Nat.testBit_two_pow_sub_one]
  by_cases hj : j < 8 <;> simp [hj]

theorem mask_byte0 (v : Nat) : v &&& 0xFF = v % 256 := by
  have := and_mask_shift v 0
  simpa using this

theorem mask_byte1 (v : Nat) : (v &&& 0xFF00) >>> 8 = v / 256 % 256 := by
  have := and_mask_shift v 8
  simpa [Nat.shiftRight_eq_div_pow] using this

theorem mask_byte2 (v : Nat) : (v &&& 0xFF0000) >>> 16 = v / 65536 % 256 := by
  have := and_mask_shift v 16
  simpa [Nat.shiftRight_eq_div_pow] using this

theorem mask_byte3 (v : Nat) : (v &&& 0xFF000000) >>> 24 = v / 16777216 % 256 := by
  have := and_mask_shift v 24
  simpa [Nat.shiftRight_eq_div_pow] using this


theorem reserve_loop_done (fuel size new_size : Nat) (h : new_size < size) :
    _buffer_reserve_loop (fuel + 1) size new_size = some size := by
  have h1 : ¬ size ≤ new_size := by omega
  rw [_buffer_reserve_loop, if_neg h1]

theorem reserve_loop_spec : ∀ (fuel size new_size : Nat), 0 < size → new_size < 2 ^ 63 →
    new_size < size * 2 ^ fuel →
    ∃ k, _buffer_reserve_loop (fuel + 1) size new_size = some (size * 2 ^ k) ∧
      new_size < size * 2 ^ k := by
  intro fuel
  induction fuel with
  | zero =>
    intro size new_size _ _ h
    exact ⟨0, by rw [reserve_loop_done _ _ _ (by simpa using h)]; simp, by simpa using h⟩
  | succ f ih =>
    intro size new_size hpos hns h
    by_cases hle : size ≤ new_size
    · have hwrap : size * 2 % 2 ^ 64 = size * 2 := by omega
      obtain ⟨k, hk, hlt⟩ := ih (size * 2) new_size (by omega) hns
        (by rw [pow_succ] at h; rw [Nat.mul_assoc, Nat.mul_comm 2]; exact h)
      refine ⟨k + 1, ?_, ?_⟩
      · rw [_buffer_reserve_loop, if_pos hle, hwrap, hk, pow_succ]
        congr 1; ring
      · rw [pow_succ]; rw [Nat.mul_assoc, Nat.mul_comm 2] at hlt; 
        calc new_size < size * (2 ^ k * 2) := hlt
          _ = size * (2 ^ k * 2) := rfl
    · exact ⟨0, by rw [reserve_loop_done _ _ _ (by omega)]; simp, by simp; omega⟩

theorem reserve_fresh (n : Nat) (h : n < 64) :
    buffer_reserve buffer_fresh n = .ok { buf := List.replicate 64 0, size := 64, index := 0 } := by
  have h1 : n % 2 ^ 64 < 64 := by omega
  simp only [buffer_reserve, buffer_fresh, _buffer_reserve, Nat.zero_add, ge_iff_le,
    Nat.zero_le, if_true, reserve_loop_done 64 64 _ h1, xrealloc]
  simp


theorem int16_of_bits_mod (x : Nat) (h : x < 2 ^ 16) : (int16_of_bits x % 2 ^ 16).toNat = x := by
  unfold int16_of_bits
  split <;> omega

theorem int32_of_bits_mod (x : Nat) (h : x < 2 ^ 32) : (int32_of_bits x % 2 ^ 32).toNat = x := by
  unfold int32_of_bits
  split <;> omega

theorem load_eq (b : List uint8_t) (i : Nat) (h : i < b.length) :
    load b i = .ok (b.getD i 0).val := by
  simp [load, List.getD, List.getElem?_eq_getElem h]

theorem load_error (b : List uint8_t) (i : Nat) (h : b.length ≤ i) :
    load b i = .error .bad_access := by
  simp [load, List.getElem?_eq_none h]

theorem le_get16_eq (b : List uint8_t) (i : Nat) (h : i + 2 ≤ b.length) :
    le_get16 b i = .ok (le_value b i 2) := by
  have h0 := (b.getD i 0).isLt
  have h1 := (b.getD (i + 1) 0).isLt
  simp only [le_get16, load_eq b i (by omega), load_eq b (i + 1) (by omega), bind, Except.bind,
    pure, Except.pure, le_value]
  rw [int16_of_bits_mod _ (by omega)]
  simp

theorem le_get32_eq (b : List uint8_t) (i : Nat) (h : i + 4 ≤ b.length) :
    le_get32 b i = .ok (le_value b i 4) := by
  have h0 := (b.getD i 0).isLt
  have h1 := (b.getD (i + 1) 0).isLt
  have h2 := (b.getD (i + 2) 0).isLt
  have h3 := (b.getD (i + 3) 0).isLt
  simp only [le_get32, load_eq b i (by omega), load_eq b (i + 1) (by omega),
    load_eq b (i + 2) (by omega), load_eq b (i + 3) (by omega), bind, Except.bind,
    pure, Except.pure, le_value]
  rw [int32_of_bits_mod _ (by omega)]
  congr 1
  simp only [Nat.add_assoc, Nat.reduceAdd]
  omega

theorem load_lt (b : List uint8_t) (i c : Nat) (h : load b i = .ok c) : c < 256 := by
  unfold load at h
  split at h
  · rename_i x _
    have hx := x.isLt
    simp only [Except.ok.injEq] at h
    omega
  · simp at h

theorem le_get16_portable_eq (b : List uint8_t) (i : Nat) :
    le_get16_portable b i = le_get16 b i := by
  unfold le_get16_portable le_get16
  cases h0 : load b i with
  | error e => simp only [bind, Except.bind]
  | ok c0 =>
    cases h1 : load b (i + 1) with
    | error e => simp only [bind, Except.bind]
    | ok c1 =>
      have hc0 := load_lt _ _ _ h0
      have hc1 := load_lt _ _ _ h1
      simp only [bind, Except.bind, pure, Except.pure, Nat.shiftLeft_eq]
      rw [int16_of_bits_mod _ (by omega)]
      congr 1
      omega

theorem le_get32_portable_eq (b : List uint8_t) (i : Nat) :
    le_get32_portable b i = le_get32 b i := by
  unfold le_get32_portable le_get32
  cases h0 : load b i with
  | error e => simp only [bind, Except.bind]
  | ok c0 =>
    cases h1 : load b (i + 1) with
    | error e => simp only [bind, Except.bind]
    | ok c1 =>
      cases h2 : load b (i + 2) with
      | error e => simp only [bind, Except.bind]
      | ok c2 =>
        cases h3 : load b (i + 3) with
        | error e => simp only [bind, Except.bind]
        | ok c3 =>
          have hc0 := load_lt _ _ _ h0
          have hc1 := load_lt _ _ _ h1
          have hc2 := load_lt _ _ _ h2
          have hc3 := load_lt _ _ _ h3
          simp only [bind, Except.bind, pure, Except.pure, Nat.shiftLeft_eq]
          rw [int32_of_bits_mod _ (by omega)]
          congr 1
          omega

theorem reserve_loop_zero (new_size : Nat) : ∀ fuel, _buffer_reserve_loop fuel 0 new_size = none := by
  intro fuel
  induction fuel with
  | zero => rfl
  | succ f ih => rw [_buffer_reserve_loop, if_pos (Nat.zero_le _)]; simpa using ih

theorem reserve_loop_fuel_aux (new_size : Nat) : ∀ (j : Nat), j ≤ 64 → ∀ (size : Nat),
    size < 2 ^ 64 → 2 ^ (64 - j) ∣ size → ∀ d,
    _buffer_reserve_loop (j + 1 + d) size new_size = _buffer_reserve_loop (j + 1) size new_size := by
  intro j
  induction j with
  | zero =>
    intro _ size hlt hdvd d
    have h0 : size = 0 := Nat.eq_zero_of_dvd_of_lt hdvd hlt
    rw [h0, reserve_loop_zero, reserve_loop_zero]
  | succ j ih =>
    intro hj size hlt hdvd d
    have hstep : 2 ^ (64 - j) ∣ size * 2 % 2 ^ 64 := by
      have h1 : 2 ^ (64 - j) ∣ size * 2 := by
        have : 64 - j = (64 - (j + 1)) + 1 := by omega
        rw [this, pow_succ]
        exact Nat.mul_dvd_mul_right hdvd 2
      have h2 : 2 ^ (64 - j) ∣ 2 ^ 64 := Nat.pow_dvd_pow 2 (by omega)
      exact (Nat.dvd_mod_iff h2).mpr h1
    have hrec := ih (by omega) (size * 2 % 2 ^ 64) (Nat.mod_lt _ (by positivity)) hstep d
    have e1 : j + 1 + 1 + d = (j + 1 + d) + 1 := by omega
    rw [e1, _buffer_reserve_loop, _buffer_reserve_loop, hrec]

/-- More than 65 tests never change the outcome of the doubling loop: when 65
tests do not exit it, the size has become 0 and the loop runs forever. -/
theorem reserve_loop_fuel (size new_size : Nat) (h : size < 2 ^ 64) (d : Nat) :
    _buffer_reserve_loop (65 + d) size new_size = _buffer_reserve_loop 65 size new_size :=
  reserve_loop_fuel_aux new_size 64 (Nat.le_refl _) size h (by simp) d

theorem buffer_reserve_cases (b : buffer) (n : Nat) (hn : b.index + n < 2 ^ 63) :
    (b.index + n < b.size ∧ buffer_reserve b n = .ok b) ∨
    (b.size ≤ b.index + n ∧ ∃ s k, s = (if b.size = 0 then 64 else b.size) * 2 ^ k ∧
      b.index + n < s ∧
      buffer_reserve b n = .ok { b with size := s, buf := xrealloc b.buf s }) := by
  have hmod : (b.index + n) % 2 ^ 64 = b.index + n := by omega
  by_cases h : b.index + n < b.size
  · left
    refine ⟨h, ?_⟩
    have h1 : ¬ (b.index + n) % 2 ^ 64 ≥ b.size := by omega
    simp only [buffer_reserve, if_neg h1]
  · right
    refine ⟨by omega, ?_⟩
    have hpos : 0 < (if b.size = 0 then 64 else b.size) := by split <;> omega
    have hbig : b.index + n < (if b.size = 0 then 64 else b.size) * 2 ^ 64 := by
      have : (2:Nat) ^ 63 ≤ 1 * 2 ^ 64 := by norm_num
      calc b.index + n < 2 ^ 63 := hn
        _ ≤ 1 * 2 ^ 64 := this
        _ ≤ (if b.size = 0 then 64 else b.size) * 2 ^ 64 := Nat.mul_le_mul_right _ hpos
    obtain ⟨k, hk, hlt⟩ := reserve_loop_spec 64 _ (b.index + n) hpos hn hbig
    refine ⟨_, k, rfl, hlt, ?_⟩
    have h1 : (b.index + n) % 2 ^ 64 ≥ b.size := by omega
    unfold buffer_reserve
    rw [if_pos h1]
    simp only [_buffer_reserve, hmod, hk]

theorem xrealloc_length (buf : List uint8_t) (n : Nat) : (xrealloc buf n).length = n := by
  simp only [xrealloc, List.length_append, List.length_take, List.length_replicate]
  omega

theorem xrealloc_keeps (buf : List uint8_t) (n : Nat) (h : buf.length ≤ n) :
    xrealloc buf n = buf ++ List.replicate (n - buf.length) 0 := by
  simp only [xrealloc, List.take_of_length_le h]

theorem splice_take (l ws : List uint8_t) (c : Nat) (hc : c ≤ l.length) (r : List uint8_t) :
    (l.take c ++ ws ++ r).take c = l.take c := by
  rw [List.append_assoc, List.take_append_of_le_length (by simp [hc])]
  simp [List.take_take]

theorem splice_drop_take (l ws : List uint8_t) (c : Nat) (hc : c ≤ l.length) (r : List uint8_t) :
    ((l.take c ++ ws ++ r).drop c).take ws.length = ws := by
  have hlen : (l.take c).length = c := by simp [hc]
  rw [List.append_assoc, List.drop_append_of_le_length (by omega)]
  rw [List.drop_of_length_le (by omega)]
  simp

theorem splice_length (l ws : List uint8_t) (c : Nat) (hc : c + ws.length ≤ l.length) :
    (l.take c ++ ws ++ l.drop (c + ws.length)).length = l.length := by
  simp only [List.length_append, List.length_take, List.length_drop]
  omega

/-- The state after `buffer_reserve` and a splice of `ws` at the cursor. -/
theorem write_post_of_reserve (b : buffer) (ws : List uint8_t)
    (hstore : b.buf.length = b.size) (hc : b.index ≤ b.size)
    (hn : b.index + ws.length < 2 ^ 63) :
    ∃ b1, buffer_reserve b ws.length = .ok b1 ∧ b1.index = b.index ∧
      b.index + ws.length < b1.buf.length ∧
      write_post b { b1 with
        buf := b1.buf.take b.index ++ ws ++ b1.buf.drop (b.index + ws.length),
        index := b.index + ws.length } ws := by
  rcases buffer_reserve_cases b ws.length hn with ⟨hlt, hres⟩ | ⟨_, s, k, hs, hlt, hres⟩
  · refine ⟨b, hres, rfl, by omega, rfl, ?_, by simpa using hlt, ?_, ?_, Or.inl rfl⟩
    · simp only [splice_length b.buf ws b.index (by omega), hstore]
    · exact splice_take _ _ _ (by omega) _
    · exact splice_drop_take _ _ _ (by omega) _
  · refine ⟨_, hres, rfl, ?_, rfl, ?_, by simpa using hlt, ?_, ?_, Or.inr ⟨k, hs⟩⟩
    · simp only [xrealloc_length]; exact hlt
    · rw [splice_length (xrealloc b.buf s) ws b.index (by rw [xrealloc_length]; omega), xrealloc_length]
    · simp only
      rw [splice_take _ _ _ (by rw [xrealloc_length]; omega), xrealloc_keeps _ _ (by omega)]
      rw [List.take_append_of_le_length (by omega)]
    · exact splice_drop_take _ _ _ (by rw [xrealloc_length]; omega) _

theorem le_bytes_length (v w : Nat) : (le_bytes v w).length = w := by
  induction w generalizing v with
  | zero => rfl
  | succ w ih => simp [le_bytes, ih]

theorem set1_eq : ∀ (c : Nat) (l : List uint8_t) (x0 : uint8_t), c + 1 ≤ l.length →
    l.set c x0 = l.take c ++ [x0] ++ l.drop (c + 1) := by
  intro c
  induction c with
  | zero =>
    intro l x0 h
    match l, h with
    | a0 :: t, _ => simp
  | succ c ih =>
    intro l x0 h
    match l, h with
    | a :: t, h =>
      have h1 : c + 1 ≤ t.length := by simpa using h
      have := ih t x0 h1
      simp only [List.set_cons_succ, this, List.take_succ_cons, List.drop_succ_cons,
        List.cons_append]

theorem set2_eq : ∀ (c : Nat) (l : List uint8_t) (x0 x1 : uint8_t), c + 2 ≤ l.length →
    (l.set c x0).set (c + 1) x1 = l.take c ++ [x0, x1] ++ l.drop (c + 2) := by
  intro c
  induction c with
  | zero =>
    intro l x0 x1 h
    match l, h with
    | a0 :: a1 :: t, _ => simp
  | succ c ih =>
    intro l x0 x1 h
    match l, h with
    | a :: t, h =>
      have h1 : c + 2 ≤ t.length := by simpa using h
      have := ih t x0 x1 h1
      simp only [List.set_cons_succ, this, List.take_succ_cons, List.drop_succ_cons,
        List.cons_append]

theorem set4_eq : ∀ (c : Nat) (l : List uint8_t) (x0 x1 x2 x3 : uint8_t), c + 4 ≤ l.length →
    (((l.set c x0).set (c + 1) x1).set (c + 2) x2).set (c + 3) x3 =
      l.take c ++ [x0, x1, x2, x3] ++ l.drop (c + 4) := by
  intro c
  induction c with
  | zero =>
    intro l x0 x1 x2 x3 h
    match l, h with
    | a0 :: a1 :: a2 :: a3 :: t, _ => simp
  | succ c ih =>
    intro l x0 x1 x2 x3 h
    match l, h with
    | a :: t, h =>
      have h1 : c + 4 ≤ t.length := by simpa using h
      have := ih t x0 x1 x2 x3 h1
      simp only [List.set_cons_succ, this, List.take_succ_cons, List.drop_succ_cons,
        List.cons_append]

theorem to_u8_mod (x : Nat) : to_u8 (x % 256) = to_u8 x := by
  simp [to_u8]

theorem buffer_store_eq (b : buffer) (v : Nat) (h : b.index < b.buf.length)
    (hi : b.index + 1 < 2 ^ 64) :
    buffer_store b v = .ok { b with buf := b.buf.set b.index (to_u8 v), index := b.index + 1 } := by
  simp only [buffer_store, if_pos h, Nat.mod_eq_of_lt hi]

theorem buffer_write_u8_spec (b : buffer) (v : Nat) (hstore : b.buf.length = b.size)
    (hc : b.index ≤ b.size) (hn : b.index + 1 < 2 ^ 63) :
    ∃ b1, buffer_write_u8 b v = .ok b1 ∧ write_post b b1 (le_bytes v 1) := by
  obtain ⟨b1, hres, hidx, hlen, hpost⟩ :=
    write_post_of_reserve b (le_bytes v 1) hstore hc (by rw [le_bytes_length]; exact hn)
  rw [le_bytes_length] at hres hlen hpost
  refine ⟨_, ?_, hpost⟩
  simp only [buffer_write_u8, hres, bind, Except.bind, buffer_write_u8_uc]
  rw [buffer_store_eq _ _ (by omega) (by omega), hidx, set1_eq _ _ _ (by omega)]
  rfl

theorem buffer_write_u16_spec (b : buffer) (v : Nat) (hstore : b.buf.length = b.size)
    (hc : b.index ≤ b.size) (hn : b.index + 2 < 2 ^ 63) :
    ∃ b1, buffer_write_u16 b v = .ok b1 ∧ write_post b b1 (le_bytes v 2) := by
  obtain ⟨b1, hres, hidx, hlen, hpost⟩ :=
    write_post_of_reserve b (le_bytes v 2) hstore hc (by rw [le_bytes_length]; exact hn)
  rw [le_bytes_length] at hres hlen hpost
  refine ⟨_, ?_, hpost⟩
  simp only [buffer_write_u16, hres, bind, Except.bind, buffer_write_u16_uc]
  rw [buffer_store_eq _ _ (by omega) (by omega)]
  simp only
  rw [buffer_store_eq _ _ (by simp only [List.length_set]; omega) (by simp only; omega)]
  simp only [hidx]
  rw [set2_eq _ _ _ _ (by omega)]
  simp only [le_bytes, mask_byte0, mask_byte1, to_u8_mod]

theorem buffer_write_u32_spec (b : buffer) (v : Nat) (hstore : b.buf.length = b.size)
    (hc : b.index ≤ b.size) (hn : b.index + 4 < 2 ^ 63) :
    ∃ b1, buffer_write_u32 b v = .ok b1 ∧ write_post b b1 (le_bytes v 4) := by
  obtain ⟨b1, hres, hidx, hlen, hpost⟩ :=
    write_post_of_reserve b (le_bytes v 4) hstore hc (by rw [le_bytes_length]; exact hn)
  rw [le_bytes_length] at hres hlen hpost
  refine ⟨_, ?_, hpost⟩
  simp only [buffer_write_u32, hres, bind, Except.bind, buffer_write_u32_uc]
  rw [buffer_store_eq _ _ (by omega) (by omega)]
  simp only
  rw [buffer_store_eq _ _ (by simp only [List.length_set]; omega) (by simp only; omega)]
  simp only
  rw [buffer_store_eq _ _ (by simp only [List.length_set]; omega) (by simp only; omega)]
  simp only
  rw [buffer_store_eq _ _ (by simp only [List.length_set]; omega) (by simp only; omega)]
  simp only [hidx]
  rw [set4_eq _ _ _ _ _ _ (by omega)]
  simp only [le_bytes, mask_byte0, mask_byte1, mask_byte2, mask_byte3, to_u8_mod,
    Nat.div_div_eq_div_mul, Nat.reduceMul, Nat.add_assoc, Nat.reduceAdd]

theorem buffer_write_bytes_spec (b : buffer) (src : List uint8_t) (n : Nat)
    (hstore : b.buf.length = b.size) (hc : b.index ≤ b.size) (hn : b.index + n < 2 ^ 63)
    (hsrc : n ≤ src.length) :
    ∃ b1, buffer_write_bytes b src n = .ok b1 ∧ write_post b b1 (src.take n) := by
  have hl : (src.take n).length = n := by simp [hsrc]
  obtain ⟨b1, hres, hidx, hlen, hpost⟩ :=
    write_post_of_reserve b (src.take n) hstore hc (by rw [hl]; exact hn)
  rw [hl] at hres hlen hpost
  refine ⟨_, ?_, hpost⟩
  have hcond : n ≤ src.length ∧ b1.index + n ≤ b1.buf.length := ⟨hsrc, by omega⟩
  have hmod : (b1.index + n) % 2 ^ 64 = b.index + n := by omega
  rw [hidx] at hcond hmod
  simp only [buffer_write_bytes, hres, bind, Except.bind, hidx, if_pos hcond, pure, Except.pure,
    hmod]

theorem strncmp_returns : ∀ (n : Nat) (a b : List uint8_t), n ≤ a.length → n ≤ b.length →
    ∃ c, strncmp a b n = some c := by
  intro n
  induction n with
  | zero => intro a b _ _; exact ⟨0, by simp [strncmp]⟩
  | succ n ih =>
    intro a b ha hb
    cases a with
    | nil => simp at ha
    | cons x xs =>
      cases b with
      | nil => simp at hb
      | cons y ys =>
        simp only [List.length_cons, Nat.add_le_add_iff_right] at ha hb
        obtain ⟨c, hc⟩ := ih xs ys ha hb
        by_cases hxy : x = y
        · subst hxy
          by_cases hx : x = 0
          · exact ⟨0, by simp [strncmp, hx]⟩
          · exact ⟨c, by simp [strncmp, hx, hc]⟩
        · exact ⟨(x.val : Int) - (y.val : Int), by simp [strncmp, hxy]⟩

theorem strlen_le : ∀ (s : List uint8_t) (n : Nat), strlen s = some n → n ≤ s.length := by
  intro s
  induction s with
  | nil => intro n h; simp [strlen] at h
  | cons c cs ih =>
    intro n h
    unfold strlen at h
    split at h
    · simp only [Option.some.injEq] at h; omega
    · cases hcs : strlen cs with
      | none => simp [hcs] at h
      | some m =>
        have := ih m hcs
        simp only [hcs, Option.map_some', Option.some.injEq] at h
        simp only [List.length_cons]
        omega

theorem capacity_step (s0 s1 : Nat) (h0 : s0 = 0 ∨ ∃ k, s0 = 64 * 2 ^ k)
    (h1 : s1 = s0 ∨ ∃ k, s1 = (if s0 = 0 then 64 else s0) * 2 ^ k) (hpos : 0 < s1) :
    ∃ k, s1 = 64 * 2 ^ k := by
  rcases h1 with h1 | ⟨k, h1⟩
  · rcases h0 with h0 | h0
    · omega
    · rw [h1]; exact h0
  · rcases h0 with h0 | ⟨j, h0⟩
    · exact ⟨k, by rw [h1, if_pos h0]⟩
    · have hne : ¬ s0 = 0 := by
        have : 0 < 64 * 2 ^ j := by positivity
        omega
      exact ⟨j + k, by rw [h1, if_neg hne, h0, pow_add, Nat.mul_assoc]⟩

theorem write_op_spec (b : buffer) (op : write_op) (hstore : b.buf.length = b.size)
    (hc : b.index ≤ b.size) (hcap : b.size = 0 ∨ ∃ k, b.size = 64 * 2 ^ k)
    (hvalid : op.valid) (hn : b.index + op.width < 2 ^ 63) :
    ∃ b1, op.run b = .ok b1 ∧ b1.index = b.index + op.width ∧ b1.buf.length = b1.size ∧
      b1.index < b1.size ∧ ∃ k, b1.size = 64 * 2 ^ k := by
  cases op with
  | u8 v =>
    obtain ⟨b1, hrun, hi, hl, hlt, _, _, hs⟩ := buffer_write_u8_spec b v hstore hc hn
    rw [le_bytes_length] at hi
    exact ⟨b1, hrun, hi, hl, hlt, capacity_step _ _ hcap hs (by omega)⟩
  | u16 v =>
    obtain ⟨b1, hrun, hi, hl, hlt, _, _, hs⟩ := buffer_write_u16_spec b v hstore hc hn
    rw [le_bytes_length] at hi
    exact ⟨b1, hrun, hi, hl, hlt, capacity_step _ _ hcap hs (by omega)⟩
  | u32 v =>
    obtain ⟨b1, hrun, hi, hl, hlt, _, _, hs⟩ := buffer_write_u32_spec b v hstore hc hn
    rw [le_bytes_length] at hi
    exact ⟨b1, hrun, hi, hl, hlt, capacity_step _ _ hcap hs (by omega)⟩
  | bytes src =>
    obtain ⟨b1, hrun, hi, hl, hlt, _, _, hs⟩ :=
      buffer_write_bytes_spec b src src.length hstore hc hn (Nat.le_refl _)
    rw [List.take_length] at hi
    exact ⟨b1, hrun, hi, hl, hlt, capacity_step _ _ hcap hs (by omega)⟩
  | cstring s =>
    simp only [write_op.valid] at hvalid
    obtain ⟨n, hlen⟩ := Option.isSome_iff_exists.mp hvalid
    have hle := strlen_le s n hlen
    simp only [write_op.width, hlen, Option.getD_some] at hn ⊢
    obtain ⟨b1, hrun, hi, hl, hlt, _, _, hs⟩ := buffer_write_bytes_spec b s n hstore hc hn hle
    rw [List.length_take, Nat.min_eq_left hle] at hi
    refine ⟨b1, ?_, hi, hl, hlt, capacity_step _ _ hcap hs (by omega)⟩
    simp only [write_op.run, buffer_write_cstring, hlen, hrun]
  | pascal_string s =>
    simp only [write_op.width] at hn ⊢
    obtain ⟨b1, hrun1, hi1, hl1, hlt1, _, _, hs1⟩ :=
      buffer_write_u32_spec b s.length hstore hc (by omega)
    rw [le_bytes_length] at hi1
    have hcap1 := capacity_step _ _ hcap hs1 (by omega)
    obtain ⟨b2, hrun2, hi2, hl2, hlt2, _, _, hs2⟩ :=
      buffer_write_bytes_spec b1 s s.length hl1 (by omega) (by omega) (Nat.le_refl _)
    rw [List.take_length] at hi2
    refine ⟨b2, ?_, by omega, hl2, hlt2, capacity_step _ _ (Or.inr hcap1) hs2 (by omega)⟩
    simp only [write_op.run, buffer_write_pascal_string, hrun1, bind, Except.bind, hrun2]

theorem write_ops_spec : ∀ (ops : List write_op) (b : buffer), b.buf.length = b.size →
    b.index ≤ b.size → (b.size = 0 ∨ ∃ k, b.size = 64 * 2 ^ k) → (∀ op ∈ ops, op.valid) →
    b.index + (ops.map write_op.width).sum < 2 ^ 63 →
    ∃ b1, write_ops b ops = .ok b1 ∧ b1.index = b.index + (ops.map write_op.width).sum ∧
      b1.index ≤ b1.size ∧ (ops ≠ [] → ∃ k, b1.size = 64 * 2 ^ k) := by
  intro ops
  induction ops with
  | nil =>
    intro b _ hc _ _ _
    exact ⟨b, rfl, by simp, hc, fun h => absurd rfl h⟩
  | cons op ops ih =>
    intro b hstore hc hcap hvalid hn
    simp only [List.map_cons, List.sum_cons] at hn ⊢
    obtain ⟨b1, hrun, hi, hl, hlt, hk⟩ :=
      write_op_spec b op hstore hc hcap (hvalid op (List.mem_cons_self _ _)) (by omega)
    obtain ⟨b2, hrun2, hi2, hle2, hk2⟩ := ih b1 hl (by omega) (Or.inr hk)
      (fun o ho => hvalid o (List.mem_cons_of_mem _ ho)) (by omega)
    refine ⟨b2, ?_, by omega, hle2, fun _ => ?_⟩
    · simp only [write_ops, hrun, hrun2]
    · by_cases hops : ops = []
      · subst hops
        simp only [write_ops, Except.ok.injEq] at hrun2
        rw [← hrun2]; exact hk
      · exact hk2 hops

theorem peek_u8_eq (b : buffer) (hstore : b.size ≤ b.buf.length) (hidx : b.index + 1 < 2 ^ 64) :
    buffer_peek_u8 b =
      if b.index + 1 > b.size then .error .out_of_bounds else .ok (le_value b.buf b.index 1) := by
  unfold buffer_peek_u8
  rw [Nat.mod_eq_of_lt hidx]
  split
  · rfl
  · rw [buffer_peek_u8_uc, load_eq _ _ (by omega)]
    simp [le_value]

theorem peek_u16_eq (b : buffer) (hstore : b.size ≤ b.buf.length) (hidx : b.index + 2 < 2 ^ 64) :
    buffer_peek_u16 b =
      if b.index + 2 > b.size then .error .out_of_bounds else .ok (le_value b.buf b.index 2) := by
  unfold buffer_peek_u16
  rw [Nat.mod_eq_of_lt hidx]
  split
  · rfl
  · rw [buffer_peek_u16_uc, le_get16_eq _ _ (by omega)]

theorem peek_u32_eq (b : buffer) (hstore : b.size ≤ b.buf.length) (hidx : b.index + 4 < 2 ^ 64) :
    buffer_peek_u32 b =
      if b.index + 4 > b.size then .error .out_of_bounds else .ok (le_value b.buf b.index 4) := by
  unfold buffer_peek_u32
  rw [Nat.mod_eq_of_lt hidx]
  split
  · rfl
  · rw [buffer_peek_u32_uc, le_get32_eq _ _ (by omega)]

theorem int_not_eq (x : Int) : Int.not x = -x - 1 := by
  cases x with
  | ofNat n => simp only [Int.not, Int.negSucc_eq, Int.ofNat_eq_coe]; omega
  | negSucc n => simp only [Int.not, Int.negSucc_eq, Int.ofNat_eq_coe]; omega

theorem and_align_mask (x k : Nat) (hx : x < 2 ^ 64) (hk : k ≤ 64) :
    x &&& (2 ^ 64 - 2 ^ k) = x / 2 ^ k * 2 ^ k := by
  have hmask : 2 ^ 64 - 2 ^ k = 2 ^ k * (2 ^ (64 - k) - 1) := by
    have h64 : (2:Nat) ^ 64 = 2 ^ k * 2 ^ (64 - k) := by
      rw [← pow_add]; congr 1; omega
    rw [Nat.mul_sub, Nat.mul_one, ← h64]
  apply Nat.eq_of_testBit_eq
  intro j
  rw [Nat.testBit_and, hmask, Nat.testBit_mul_pow_two, Nat.testBit_two_pow_sub_one,
    Nat.mul_comm, Nat.testBit_mul_pow_two, ← Nat.shiftRight_eq_div_pow, Nat.testBit_shiftRight]
  by_cases hj : j ≥ k
  · have hjk : k + (j - k) = j := by omega
    rw [hjk]
    by_cases hj64 : j < 64
    · have : j - k < 64 - k := by omega
      simp [hj, this]
    · have hlt : x < 2 ^ j :=
        Nat.lt_of_lt_of_le hx (Nat.pow_le_pow_right (by decide) (by omega))
      simp [Nat.testBit_lt_two_pow hlt]
  · simp [hj]

theorem buffer_align_index (r : buffer) (k : Nat) (hk : k ≤ 30)
    (hno : r.index + 2 ^ k ≤ 2 ^ 64) :
    (buffer_align r ((2 : Int) ^ k)).index = (r.index + (2 ^ k - 1)) / 2 ^ k * 2 ^ k := by
  have hpos : 0 < 2 ^ k := by positivity
  have hle : 2 ^ k ≤ 2 ^ 30 := Nat.pow_le_pow_right (by decide) hk
  have hcast : ((2 : Int) ^ k) = ((2 ^ k : Nat) : Int) := by push_cast; rfl
  have h1 : size_of_int ((2 : Int) ^ k - 1) = 2 ^ k - 1 := by
    rw [hcast]; unfold size_of_int; omega
  have h2 : size_of_int (Int.not ((2 : Int) ^ k - 1)) = 2 ^ 64 - 2 ^ k := by
    rw [int_not_eq, hcast]; unfold size_of_int; omega
  have hmod : (r.index + (2 ^ k - 1)) % 2 ^ 64 = r.index + (2 ^ k - 1) := by
    apply Nat.mod_eq_of_lt; omega
  simp only [buffer_align, h1, h2, hmod]
  exact and_align_mask _ k (by omega) (by omega)

theorem buffer_align_le_size (r : buffer) (k : Nat) (hk : k ≤ 30) (hsize : r.size < 2 ^ 64)
    (hc : r.index ≤ r.size) (hdvd : 2 ^ k ∣ r.size) :
    (buffer_align r ((2 : Int) ^ k)).index ≤ r.size := by
  have hpos : 0 < 2 ^ k := by positivity
  obtain ⟨m, hm⟩ := hdvd
  have hno : r.index + 2 ^ k ≤ 2 ^ 64 := by
    have h64 : (2:Nat) ^ 64 = 2 ^ k * 2 ^ (64 - k) := by
      rw [← pow_add]; congr 1; omega
    have hmlt : m < 2 ^ (64 - k) := by
      by_contra hcon
      have : 2 ^ k * 2 ^ (64 - k) ≤ 2 ^ k * m := Nat.mul_le_mul_left _ (by omega)
      omega
    have : 2 ^ k * (m + 1) ≤ 2 ^ k * 2 ^ (64 - k) := Nat.mul_le_mul_left _ (by omega)
    rw [Nat.mul_add, Nat.mul_one] at this
    omega
  rw [buffer_align_index r k hk hno, hm]
  have hdiv : (r.index + (2 ^ k - 1)) / 2 ^ k ≤ m := by
    apply Nat.le_of_lt_succ
    rw [Nat.div_lt_iff_lt_mul hpos, Nat.succ_mul, Nat.mul_comm]
    omega
  calc (r.index + (2 ^ k - 1)) / 2 ^ k * 2 ^ k ≤ m * 2 ^ k := Nat.mul_le_mul_right _ hdiv
    _ = 2 ^ k * m := Nat.mul_comm _ _

theorem strlen_of_first_nul : ∀ (l : List uint8_t) (n : Nat), l[n]? = some 0 →
    (∀ i, i < n → l[i]? ≠ some 0) → strlen l = some n ∧ cstring_bytes l = l.take n := by
  intro l
  induction l with
  | nil => intro n h _; simp at h
  | cons c cs ih =>
    intro n h hnz
    cases n with
    | zero =>
      simp only [List.getElem?_cons_zero, Option.some.injEq] at h
      simp [strlen, cstring_bytes, h]
    | succ n =>
      have hc : c ≠ 0 := by
        have := hnz 0 (by omega)
        simpa using this
      have hrec := ih n (by simpa using h) (fun i hi => by
        have := hnz (i + 1) (by omega)
        simpa using this)
      simp only [strlen, if_neg hc, hrec.1, Option.map_some', cstring_bytes, List.take_succ_cons]
      refine ⟨trivial, ?_⟩
      rw [List.takeWhile_cons_of_pos (by simpa using hc)]
      congr 1
      exact hrec.2

/-- The function `buffer_skip_string` on a buffer with a NUL at offset `z`, the
first from the cursor on: the view returned denotes the bytes from the cursor
to `z`, and the cursor is left at `z + 1`. -/
theorem buffer_skip_string_spec (r : buffer) (z : Nat) (hcz : r.index ≤ z) (hzs : z < r.size)
    (hsize : r.size < 2 ^ 64) (hz : r.buf[z]? = some 0)
    (hnz : ∀ i, r.index ≤ i → i < z → r.buf[i]? ≠ some 0) :
    ∃ view, buffer_skip_string r = .ok (view, { r with index := z + 1 }) ∧
      view = r.buf.drop r.index ∧
      cstring_bytes view = (r.buf.drop r.index).take (z - r.index) := by
  have hspec := strlen_of_first_nul (r.buf.drop r.index) (z - r.index)
    (by rw [List.getElem?_drop]; rw [show r.index + (z - r.index) = z by omega]; exact hz)
    (fun i hi => by rw [List.getElem?_drop]; exact hnz _ (by omega) (by omega))
  refine ⟨r.buf.drop r.index, ?_, rfl, hspec.2⟩
  simp only [buffer_skip_string, buffer_strdata, hspec.1, buffer_skip]
  have h1 : (z - r.index + 1) % 2 ^ 64 = z - r.index + 1 := by omega
  have h2 : (r.index + (z - r.index + 1)) % 2 ^ 64 = z + 1 := by omega
  rw [h1, h2, Nat.min_eq_left (by omega)]

/-! ## The claims -/

/-- C1: for every u8, u16 and u32 value `v`, `buffer_write_u8` / `buffer_write_u16` /
`buffer_write_u32` of `v` on a fresh growable buffer returns, and with the cursor
set back to 0 the matching `buffer_read_u8` / `buffer_read_u16` /
`buffer_read_u32` returns exactly `v` (no out-of-bounds fault). -/
theorem C1_write_read_roundtrip (v8 v16 v32 : Nat)
    (h8 : v8 < 2 ^ 8) (h16 : v16 < 2 ^ 16) (h32 : v32 < 2 ^ 32) :
    (∃ b, buffer_write_u8 buffer_fresh v8 = .ok b ∧
      ∃ b1, buffer_read_u8 (buffer_seek b 0) = .ok (v8, b1)) ∧
    (∃ b, buffer_write_u16 buffer_fresh v16 = .ok b ∧
      ∃ b1, buffer_read_u16 (buffer_seek b 0) = .ok (v16, b1)) ∧
    (∃ b, buffer_write_u32 buffer_fresh v32 = .ok b ∧
      ∃ b1, buffer_read_u32 (buffer_seek b 0) = .ok (v32, b1)) := by
  refine ⟨?_, ?_, ?_⟩
  · simp only [buffer_write_u8, reserve_fresh 1 (by decide), bind, Except.bind]
    simp [buffer_write_u8_uc, buffer_store, List.replicate, buffer_seek,
      buffer_read_u8, buffer_peek_u8, buffer_peek_u8_uc, load, bind, Except.bind, pure,
      Except.pure, to_u8]
    omega
  · simp only [buffer_write_u16, reserve_fresh 2 (by decide), bind, Except.bind]
    simp [buffer_write_u16_uc, buffer_store, bind, Except.bind, List.replicate, buffer_seek,
      buffer_read_u16, buffer_peek_u16, buffer_peek_u16_uc, le_get16_eq, le_value, pure,
      Except.pure, to_u8, mask_byte0, mask_byte1]
    omega
  · simp only [buffer_write_u32, reserve_fresh 4 (by decide), bind, Except.bind]
    simp [buffer_write_u32_uc, buffer_store, bind, Except.bind, List.replicate, buffer_seek,
      buffer_read_u32, buffer_peek_u32, buffer_peek_u32_uc, le_get32_eq, le_value, pure,
      Except.pure, to_u8, mask_byte0, mask_byte1, mask_byte2, mask_byte3]
    omega

/-- C1 at the values 0xAB, 0xABCD and 0xDEADBEEF. -/
theorem C1_write_read_roundtrip_witness :
    ((0xAB : Nat) < 2 ^ 8 ∧ (0xABCD : Nat) < 2 ^ 16 ∧ (0xDEADBEEF : Nat) < 2 ^ 32) ∧
    ((∃ b, buffer_write_u8 buffer_fresh 0xAB = .ok b ∧
      ∃ b1, buffer_read_u8 (buffer_seek b 0) = .ok (0xAB, b1)) ∧
    (∃ b, buffer_write_u16 buffer_fresh 0xABCD = .ok b ∧
      ∃ b1, buffer_read_u16 (buffer_seek b 0) = .ok (0xABCD, b1)) ∧
    (∃ b, buffer_write_u32 buffer_fresh 0xDEADBEEF = .ok b ∧
      ∃ b1, buffer_read_u32 (buffer_seek b 0) = .ok (0xDEADBEEF, b1))) :=
  ⟨by decide, C1_write_read_roundtrip 0xAB 0xABCD 0xDEADBEEF (by decide) (by decide) (by decide)⟩

/-- C2 (code defect): a 57-byte string without NUL written by
`buffer_write_pascal_string` to a fresh growable buffer (capacity 64
afterwards, cursor 61) is not read back: with the cursor moved back to offset 0,
`buffer_read_pascal_string` raises the invalid-length fault, because its test
`len > size - (index + 4)` counts the 4-byte prefix a second time. -/
theorem C2_pascal_string_roundtrip_faults :
    (∀ c ∈ List.replicate 57 (0x61 : uint8_t), c ≠ 0) ∧
    ∃ b, buffer_write_pascal_string buffer_fresh (List.replicate 57 0x61) = .ok b ∧
      b.size = 64 ∧ b.index = 61 ∧
      buffer_read_pascal_string (buffer_seek b 0) = .error .invalid_length := by
  refine ⟨fun c hc => by rw [List.eq_of_mem_replicate hc]; decide, _, rfl, ?_, ?_, ?_⟩ <;> decide

/-- C3 (code defect): the length test of `buffer_read_pascal_string` is
`len > size - (index + 4)` with `index` already past the prefix.  With 8 bytes,
prefix 3 and 4 bytes after the prefix the fault is raised although 3 ≤ 4; with
size 5, prefix 5 and 1 byte after the prefix the subtraction wraps, no fault is
raised, 5 bytes are returned and the cursor is left at 9, past `size`. -/
theorem C3_pascal_string_length_test :
    buffer_read_pascal_string { buf := [3, 0, 0, 0, 0x61, 0x62, 0x63, 0x64], size := 8, index := 0 }
      = .error .invalid_length ∧
    buffer_read_pascal_string { buf := [5, 0, 0, 0, 1, 2, 3, 4, 5, 6], size := 5, index := 0 }
      = .ok ([1, 2, 3, 4, 5], { buf := [5, 0, 0, 0, 1, 2, 3, 4, 5, 6], size := 5, index := 9 }) := by
  constructor <;> decide

/-- C4, as stated, fails: with 2 bytes remaining and `n = 5` the cursor is left
at 2 (the size), not at 0 + 5. -/
theorem C4_counterexample :
    buffer_check_bytes { buf := [1, 2], size := 2, index := 0 } [1, 2, 3, 4, 5] 5
      = .ok (false, { buf := [1, 2], size := 2, index := 2 }) ∧
    (2 : Nat) ≠ 0 + 5 := by
  constructor <;> decide

/-- C4 (amended): for a buffer whose storage holds `size` bytes, a literal of at
least `n` bytes and a cursor with `cursor + n` representable as `size_t`,
`buffer_check_bytes` returns and leaves the cursor at `min (cursor + n) size`,
whatever the result: at `cursor + n` when that is within `size`, at `size`
otherwise. -/
theorem C4_check_bytes_cursor (r : buffer) (data : List uint8_t) (n : Nat)
    (hstore : r.size ≤ r.buf.length) (hdata : n ≤ data.length) (hn : r.index + n < 2 ^ 64) :
    ∃ eq, buffer_check_bytes r data n =
      .ok (eq, { r with index := min (r.index + n) r.size }) := by
  have hskip : buffer_skip r n = { r with index := min (r.index + n) r.size } := by
    simp only [buffer_skip, Nat.mod_eq_of_lt hn]
  unfold buffer_check_bytes
  by_cases hrem : buffer_remaining r ≥ n
  · have hlen : n ≤ (buffer_strdata r).length := by
      simp only [buffer_remaining, buffer_end] at hrem
      simp only [buffer_strdata, List.length_drop]
      split at hrem
      · omega
      · omega
    obtain ⟨c, hc⟩ := strncmp_returns n _ _ hlen hdata
    rw [if_pos hrem, hc, hskip]
    exact ⟨_, rfl⟩
  · rw [if_neg hrem, hskip]
    exact ⟨_, rfl⟩

/-- C4 (amended) at a 2-byte buffer and a 3-byte literal: the cursor stops at 2. -/
theorem C4_check_bytes_cursor_witness :
    ((2 : Nat) ≤ [(1 : uint8_t), 2].length ∧ 3 ≤ [(1 : uint8_t), 9, 3].length ∧
      (0 : Nat) + 3 < 2 ^ 64) ∧
    ∃ eq, buffer_check_bytes { buf := [1, 2], size := 2, index := 0 } [1, 9, 3] 3 =
      .ok (eq, { buf := [1, 2], size := 2, index := min (0 + 3) 2 }) :=
  ⟨by decide,
    C4_check_bytes_cursor { buf := [1, 2], size := 2, index := 0 } [1, 9, 3] 3
      (by decide) (by decide) (by decide)⟩

/-- C5 (code defect): `buffer_check_bytes` compares with `strncmp`, which stops
after a NUL byte.  The 3 bytes `41 00 42` at the cursor differ from the literal
`41 00 43` in the last byte, and the function returns true. -/
theorem C5_check_bytes_stops_at_nul :
    buffer_check_bytes { buf := [0x41, 0, 0x42], size := 3, index := 0 } [0x41, 0, 0x43] 3
      = .ok (true, { buf := [0x41, 0, 0x42], size := 3, index := 3 }) ∧
    ([0x41, 0, 0x42] : List uint8_t).take 3 ≠ ([0x41, 0, 0x43] : List uint8_t).take 3 := by
  constructor <;> decide

/-- C6: from a fresh growable buffer, every non-empty sequence of
`buffer_write_u8/u16/u32`, `buffer_write_bytes`, `buffer_write_cstring` and
`buffer_write_pascal_string` calls (C strings NUL-terminated, fewer than 2^63
bytes in all) returns a buffer whose capacity is `64 * 2^k` for some `k` and at
least the cursor, the cursor being the number of bytes written; and
`buffer_reserve(b, n)` on any buffer with `cursor + n < 2^63` returns with the
cursor unchanged and `cursor + n < capacity`. -/
theorem C6_capacity (ops : List write_op) (b0 : buffer) (n : Nat)
    (hne : ops ≠ []) (hvalid : ∀ op ∈ ops, op.valid)
    (hsum : (ops.map write_op.width).sum < 2 ^ 63) (hn : b0.index + n < 2 ^ 63) :
    (∃ b, write_ops buffer_fresh ops = .ok b ∧
      (∃ k, b.size = 64 * 2 ^ k) ∧ b.index ≤ b.size ∧
      b.index = (ops.map write_op.width).sum) ∧
    (∃ b1, buffer_reserve b0 n = .ok b1 ∧ b1.index = b0.index ∧ b0.index + n < b1.size) := by
  constructor
  · obtain ⟨b, hrun, hi, hle, hk⟩ := write_ops_spec ops buffer_fresh rfl (Nat.le_refl _)
      (Or.inl rfl) hvalid (by simpa [buffer_fresh] using hsum)
    exact ⟨b, hrun, hk hne, hle, by simpa [buffer_fresh] using hi⟩
  · rcases buffer_reserve_cases b0 n hn with ⟨hlt, hres⟩ | ⟨_, s, k, _, hlt, hres⟩
    · exact ⟨b0, hres, rfl, hlt⟩
    · exact ⟨_, hres, rfl, hlt⟩

/-- C6 at a u8, a pascal string and a C string written to a fresh buffer, and at
`buffer_reserve` of 100 bytes. -/
theorem C6_capacity_witness :
    (([write_op.u8 1, write_op.pascal_string [0x61], write_op.cstring [0x62, 0]] : List write_op)
        ≠ [] ∧
      (∀ op ∈ [write_op.u8 1, write_op.pascal_string [0x61], write_op.cstring [0x62, 0]],
        op.valid) ∧
      (([write_op.u8 1, write_op.pascal_string [0x61], write_op.cstring [0x62, 0]].map
        write_op.width).sum < 2 ^ 63) ∧
      buffer_fresh.index + 100 < 2 ^ 63) ∧
    ((∃ b, write_ops buffer_fresh
        [write_op.u8 1, write_op.pascal_string [0x61], write_op.cstring [0x62, 0]] = .ok b ∧
      (∃ k, b.size = 64 * 2 ^ k) ∧ b.index ≤ b.size ∧
      b.index = ([write_op.u8 1, write_op.pascal_string [0x61], write_op.cstring [0x62, 0]].map
        write_op.width).sum) ∧
    (∃ b1, buffer_reserve buffer_fresh 100 = .ok b1 ∧ b1.index = buffer_fresh.index ∧
      buffer_fresh.index + 100 < b1.size)) :=
  have hvalid : ∀ op ∈ [write_op.u8 1, write_op.pascal_string [0x61], write_op.cstring [0x62, 0]],
      op.valid := by
    intro op h
    simp only [List.mem_cons, List.mem_singleton, List.not_mem_nil, or_false] at h
    rcases h with rfl | rfl | rfl
    · trivial
    · trivial
    · simp [write_op.valid, strlen]
  ⟨⟨by decide, hvalid, by decide, by decide⟩,
    C6_capacity _ buffer_fresh 100 (by decide) hvalid (by decide) (by decide)⟩

/-- C7: for a growable buffer (storage as long as the capacity, cursor `c`
within it, `c + width` below 2^63), each of `buffer_write_u8`,
`buffer_write_u16`, `buffer_write_u32` of `v` and `buffer_write_bytes` of `n`
bytes returns a buffer whose cursor is `c + width`, whose bytes before `c` are
those of the old storage and whose bytes from `c` on are the little-endian
encoding of `v` (the `n` given bytes), whether or not the storage was grown. -/
theorem C7_write_frame (b : buffer) (v : Nat) (src : List uint8_t) (n : Nat)
    (hstore : b.buf.length = b.size) (hc : b.index ≤ b.size)
    (h4 : b.index + 4 < 2 ^ 63) (hn : b.index + n < 2 ^ 63) (hsrc : n ≤ src.length) :
    (∃ b1, buffer_write_u8 b v = .ok b1 ∧ b1.index = b.index + 1 ∧
      b1.buf.take b.index = b.buf.take b.index ∧
      (b1.buf.drop b.index).take 1 = le_bytes v 1) ∧
    (∃ b1, buffer_write_u16 b v = .ok b1 ∧ b1.index = b.index + 2 ∧
      b1.buf.take b.index = b.buf.take b.index ∧
      (b1.buf.drop b.index).take 2 = le_bytes v 2) ∧
    (∃ b1, buffer_write_u32 b v = .ok b1 ∧ b1.index = b.index + 4 ∧
      b1.buf.take b.index = b.buf.take b.index ∧
      (b1.buf.drop b.index).take 4 = le_bytes v 4) ∧
    (∃ b1, buffer_write_bytes b src n = .ok b1 ∧ b1.index = b.index + n ∧
      b1.buf.take b.index = b.buf.take b.index ∧
      (b1.buf.drop b.index).take n = src.take n) := by
  refine ⟨?_, ?_, ?_, ?_⟩
  · obtain ⟨b1, hrun, hi, _, _, hpre, hw, _⟩ := buffer_write_u8_spec b v hstore hc (by omega)
    rw [le_bytes_length] at hi hw
    exact ⟨b1, hrun, hi, hpre, hw⟩
  · obtain ⟨b1, hrun, hi, _, _, hpre, hw, _⟩ := buffer_write_u16_spec b v hstore hc (by omega)
    rw [le_bytes_length] at hi hw
    exact ⟨b1, hrun, hi, hpre, hw⟩
  · obtain ⟨b1, hrun, hi, _, _, hpre, hw, _⟩ := buffer_write_u32_spec b v hstore hc h4
    rw [le_bytes_length] at hi hw
    exact ⟨b1, hrun, hi, hpre, hw⟩
  · obtain ⟨b1, hrun, hi, _, _, hpre, hw, _⟩ := buffer_write_bytes_spec b src n hstore hc hn hsrc
    have hl : (src.take n).length = n := by simp [hsrc]
    rw [hl] at hi hw
    exact ⟨b1, hrun, hi, hpre, hw⟩

/-- C7 at a full 2-byte buffer, where the write of 0x12345678 grows the storage. -/
theorem C7_write_frame_witness :
    (([0x11, 0x22] : List uint8_t).length = 2 ∧ (2 : Nat) ≤ 2 ∧ (2 : Nat) + 4 < 2 ^ 63 ∧
      (2 : Nat) + 3 < 2 ^ 63 ∧ 3 ≤ ([7, 8, 9] : List uint8_t).length) ∧
    ∃ b1, buffer_write_u32 { buf := [0x11, 0x22], size := 2, index := 2 } 0x12345678 = .ok b1 ∧
      b1.index = 2 + 4 ∧ b1.buf.take 2 = [0x11, 0x22] ∧
      (b1.buf.drop 2).take 4 = [0x78, 0x56, 0x34, 0x12] :=
  ⟨by decide,
    (C7_write_frame { buf := [0x11, 0x22], size := 2, index := 2 } 0x12345678 [7, 8, 9] 3
      (by decide) (by decide) (by decide) (by decide) (by decide)).2.2.1⟩

/-- Peeks and reads where the sum does not wrap: for a buffer whose storage
holds `size` bytes, with cursor + 4 representable as `size_t`, and each width
`w` of 1, 2, 4: `buffer_peek_u8/u16/u32` raises the out-of-bounds fault exactly
when `cursor + w > size`; otherwise it returns the little-endian value of the
`w` bytes at the cursor, and `buffer_read_u8/u16/u32` returns the same value
with the cursor at `cursor + w`, storage and size unchanged. -/
theorem buffer_peek_read_spec (b : buffer) (hstore : b.size ≤ b.buf.length)
    (hidx : b.index + 4 < 2 ^ 64) :
    ((buffer_peek_u8 b = .error .out_of_bounds ↔ b.index + 1 > b.size) ∧
      (b.index + 1 ≤ b.size →
        buffer_peek_u8 b = .ok (le_value b.buf b.index 1) ∧
        buffer_read_u8 b = .ok (le_value b.buf b.index 1, { b with index := b.index + 1 }))) ∧
    ((buffer_peek_u16 b = .error .out_of_bounds ↔ b.index + 2 > b.size) ∧
      (b.index + 2 ≤ b.size →
        buffer_peek_u16 b = .ok (le_value b.buf b.index 2) ∧
        buffer_read_u16 b = .ok (le_value b.buf b.index 2, { b with index := b.index + 2 }))) ∧
    ((buffer_peek_u32 b = .error .out_of_bounds ↔ b.index + 4 > b.size) ∧
      (b.index + 4 ≤ b.size →
        buffer_peek_u32 b = .ok (le_value b.buf b.index 4) ∧
        buffer_read_u32 b = .ok (le_value b.buf b.index 4, { b with index := b.index + 4 }))) := by
  have e8 := peek_u8_eq b hstore (by omega)
  have e16 := peek_u16_eq b hstore (by omega)
  have e32 := peek_u32_eq b hstore hidx
  refine ⟨⟨?_, ?_⟩, ⟨?_, ?_⟩, ⟨?_, ?_⟩⟩
  · rw [e8]; split <;> simp_all
  · intro h
    have hn : ¬ b.index + 1 > b.size := by omega
    rw [buffer_read_u8, e8, if_neg hn, Nat.mod_eq_of_lt (by omega)]
    exact ⟨rfl, rfl⟩
  · rw [e16]; split <;> simp_all
  · intro h
    have hn : ¬ b.index + 2 > b.size := by omega
    rw [buffer_read_u16, e16, if_neg hn, Nat.mod_eq_of_lt (by omega)]
    exact ⟨rfl, rfl⟩
  · rw [e32]; split <;> simp_all
  · intro h
    have hn : ¬ b.index + 4 > b.size := by omega
    rw [buffer_read_u32, e32, if_neg hn, Nat.mod_eq_of_lt (by omega)]
    exact ⟨rfl, rfl⟩

/-- The 4 bytes `78 56 34 12` are read as 0x12345678. -/
theorem buffer_peek_read_spec_example :
    ((4 : Nat) ≤ ([0x78, 0x56, 0x34, 0x12] : List uint8_t).length ∧ (0 : Nat) + 4 < 2 ^ 64) ∧
    buffer_peek_u32 { buf := [0x78, 0x56, 0x34, 0x12], size := 4, index := 0 }
      = .ok 0x12345678 ∧
    buffer_read_u32 { buf := [0x78, 0x56, 0x34, 0x12], size := 4, index := 0 }
      = .ok (0x12345678, { buf := [0x78, 0x56, 0x34, 0x12], size := 4, index := 4 }) :=
  ⟨by decide,
    (buffer_peek_read_spec { buf := [0x78, 0x56, 0x34, 0x12], size := 4, index := 0 }
      (by decide) (by decide)).2.2.2 (by decide)⟩

/-- A load either returns or is an access outside the storage. -/
theorem load_cases (b : List uint8_t) (i : Nat) :
    (∃ v, load b i = .ok v) ∨ load b i = .error .bad_access := by
  unfold load
  split
  · exact Or.inl ⟨_, rfl⟩
  · exact Or.inr rfl

/-- The unchecked 16-bit load raises no out-of-bounds fault. -/
theorem le_get16_no_fault (b : List uint8_t) (i : Nat) :
    le_get16 b i ≠ .error .out_of_bounds := by
  rcases load_cases b i with ⟨v0, h0⟩ | h0 <;>
    rcases load_cases b (i + 1) with ⟨v1, h1⟩ | h1 <;>
    simp [le_get16, h0, h1, bind, Except.bind, pure, Except.pure]

/-- The unchecked 32-bit load raises no out-of-bounds fault. -/
theorem le_get32_no_fault (b : List uint8_t) (i : Nat) :
    le_get32 b i ≠ .error .out_of_bounds := by
  rcases load_cases b i with ⟨v0, h0⟩ | h0 <;>
    rcases load_cases b (i + 1) with ⟨v1, h1⟩ | h1 <;>
    rcases load_cases b (i + 2) with ⟨v2, h2⟩ | h2 <;>
    rcases load_cases b (i + 3) with ⟨v3, h3⟩ | h3 <;>
    simp [le_get32, h0, h1, h2, h3, bind, Except.bind, pure, Except.pure]

/-- C8 (code defect): the test `r->index + w > r->size` of
`buffer_peek_u8/u16/u32` is computed in `size_t` and wraps.  With the cursor at
`2^64 - 1` (set by `buffer_seek`) on the 4 bytes `01 02 03 04`, `cursor + w`
exceeds the size for each width, the wrapped sums 0, 1 and 3 do not, so no
out-of-bounds fault is raised and the byte at the cursor, outside the storage,
is read, by the peeks and by `buffer_read_u8/u16/u32`.  For every buffer
`buffer_peek_u8` raises no out-of-bounds fault at that cursor, and
`buffer_peek_u16`, `buffer_peek_u32` none at the cursors `2^64 - 2`, `2^64 - 4`.
`buffer_read_bytes`, which tests `buffer_remaining(r) < n`, raises the fault at
the same cursor. -/
theorem C8_peek_bounds_test_wraps :
    ((buffer_seek { buf := [1, 2, 3, 4], size := 4, index := 0 } (2 ^ 64 - 1)).index + 1 >
        (buffer_seek { buf := [1, 2, 3, 4], size := 4, index := 0 } (2 ^ 64 - 1)).size ∧
      buffer_peek_u8 (buffer_seek { buf := [1, 2, 3, 4], size := 4, index := 0 } (2 ^ 64 - 1))
        = .error .bad_access ∧
      buffer_peek_u16 (buffer_seek { buf := [1, 2, 3, 4], size := 4, index := 0 } (2 ^ 64 - 1))
        = .error .bad_access ∧
      buffer_peek_u32 (buffer_seek { buf := [1, 2, 3, 4], size := 4, index := 0 } (2 ^ 64 - 1))
        = .error .bad_access ∧
      buffer_read_u8 (buffer_seek { buf := [1, 2, 3, 4], size := 4, index := 0 } (2 ^ 64 - 1))
        = .error .bad_access ∧
      buffer_read_u16 (buffer_seek { buf := [1, 2, 3, 4], size := 4, index := 0 } (2 ^ 64 - 1))
        = .error .bad_access ∧
      buffer_read_u32 (buffer_seek { buf := [1, 2, 3, 4], size := 4, index := 0 } (2 ^ 64 - 1))
        = .error .bad_access ∧
      buffer_read_bytes
          (buffer_seek { buf := [1, 2, 3, 4], size := 4, index := 0 } (2 ^ 64 - 1)) 1
        = .error .out_of_bounds) ∧
    (∀ b : buffer, buffer_peek_u8 (buffer_seek b (2 ^ 64 - 1)) ≠ .error .out_of_bounds) ∧
    (∀ b : buffer, buffer_peek_u16 (buffer_seek b (2 ^ 64 - 2)) ≠ .error .out_of_bounds) ∧
    (∀ b : buffer, buffer_peek_u32 (buffer_seek b (2 ^ 64 - 4)) ≠ .error .out_of_bounds) := by
  refine ⟨by decide, ?_, ?_, ?_⟩
  · intro b
    have h : ¬ (2 ^ 64 - 1 + 1) % 2 ^ 64 > b.size := by omega
    simp only [buffer_peek_u8, buffer_seek, if_neg h, buffer_peek_u8_uc]
    rcases load_cases b.buf (2 ^ 64 - 1) with ⟨v, hv⟩ | hv <;> rw [hv] <;> simp
  · intro b
    have h : ¬ (2 ^ 64 - 2 + 2) % 2 ^ 64 > b.size := by omega
    simp only [buffer_peek_u16, buffer_seek, if_neg h, buffer_peek_u16_uc]
    exact le_get16_no_fault _ _
  · intro b
    have h : ¬ (2 ^ 64 - 4 + 4) % 2 ^ 64 > b.size := by omega
    simp only [buffer_peek_u32, buffer_seek, if_neg h, buffer_peek_u32_uc]
    exact le_get32_no_fault _ _

/-- C9, as stated, fails for `buffer_align`, which rounds the cursor up without
a bound: with size 5 and cursor 5, `buffer_align(r, 4)` leaves the cursor at 8. -/
theorem C9_counterexample :
    (5 : Nat) ≤ 5 ∧
    (buffer_align { buf := [1, 2, 3, 4, 5], size := 5, index := 5 } 4).index = 8 ∧
    (buffer_align { buf := [1, 2, 3, 4, 5], size := 5, index := 5 } 4).size = 5 ∧
    ¬ (8 : Nat) ≤ 5 := by
  refine ⟨?_, ?_, ?_, ?_⟩ <;> decide

/-- C9 (amended): for a buffer with `cursor ≤ size` (`size` a `size_t`), each of
`buffer_read_u8/u16/u32`, `buffer_read_bytes` and `buffer_check_bytes` that
returns, and every `buffer_skip`, leaves `cursor ≤ size` (the peeks return no
buffer: they change nothing); `buffer_align` with `p = 2^k` leaves the cursor at
the next multiple of `p`, which is within `size` when `size` is a multiple of
`p`.  Nothing is said of `buffer_read_pascal_string`. -/
theorem C9_cursor_invariant (r : buffer) (hc : r.index ≤ r.size) (hsize : r.size < 2 ^ 64) :
    (∀ v r1, buffer_read_u8 r = .ok (v, r1) → r1.index ≤ r1.size) ∧
    (∀ v r1, buffer_read_u16 r = .ok (v, r1) → r1.index ≤ r1.size) ∧
    (∀ v r1, buffer_read_u32 r = .ok (v, r1) → r1.index ≤ r1.size) ∧
    (∀ n dst r1, buffer_read_bytes r n = .ok (dst, r1) → r1.index ≤ r1.size) ∧
    (∀ off, (buffer_skip r off).index ≤ (buffer_skip r off).size) ∧
    (∀ data n eq r1, buffer_check_bytes r data n = .ok (eq, r1) → r1.index ≤ r1.size) ∧
    (∀ k, k ≤ 30 → 2 ^ k ∣ r.size →
      (buffer_align r ((2 : Int) ^ k)).index = (r.index + (2 ^ k - 1)) / 2 ^ k * 2 ^ k ∧
      (buffer_align r ((2 : Int) ^ k)).index ≤ (buffer_align r ((2 : Int) ^ k)).size) := by
  have hskip : ∀ off, (buffer_skip r off).index ≤ (buffer_skip r off).size := by
    intro off
    simp only [buffer_skip]
    exact Nat.min_le_right _ _
  refine ⟨?_, ?_, ?_, ?_, hskip, ?_, ?_⟩
  · intro v r1 h
    unfold buffer_read_u8 buffer_peek_u8 at h
    split at h
    · simp [bind, Except.bind] at h
    · cases hp : buffer_peek_u8_uc r with
      | error e => simp [hp, bind, Except.bind] at h
      | ok x =>
        simp only [hp, bind, Except.bind, pure, Except.pure, Except.ok.injEq, Prod.mk.injEq] at h
        rw [← h.2]
        simp only
        omega
  · intro v r1 h
    unfold buffer_read_u16 buffer_peek_u16 at h
    split at h
    · simp [bind, Except.bind] at h
    · cases hp : buffer_peek_u16_uc r with
      | error e => simp [hp, bind, Except.bind] at h
      | ok x =>
        simp only [hp, bind, Except.bind, pure, Except.pure, Except.ok.injEq, Prod.mk.injEq] at h
        rw [← h.2]
        simp only
        omega
  · intro v r1 h
    unfold buffer_read_u32 buffer_peek_u32 at h
    split at h
    · simp [bind, Except.bind] at h
    · cases hp : buffer_peek_u32_uc r with
      | error e => simp [hp, bind, Except.bind] at h
      | ok x =>
        simp only [hp, bind, Except.bind, pure, Except.pure, Except.ok.injEq, Prod.mk.injEq] at h
        rw [← h.2]
        simp only
        omega
  · intro n dst r1 h
    unfold buffer_read_bytes at h
    split at h
    · simp at h
    · rename_i hrem
      split at h
      · simp at h
      · simp only [Except.ok.injEq, Prod.mk.injEq] at h
        rw [← h.2]
        simp only [buffer_remaining, buffer_end] at hrem
        simp only
        split at hrem <;> omega
  · intro data n eq r1 h
    unfold buffer_check_bytes at h
    split at h
    · split at h
      · simp at h
      · simp only [Except.ok.injEq, Prod.mk.injEq] at h
        rw [← h.2]; exact hskip n
    · simp only [Except.ok.injEq, Prod.mk.injEq] at h
      rw [← h.2]; exact hskip n
  · intro k hk hdvd
    have hle := buffer_align_le_size r k hk hsize hc hdvd
    refine ⟨?_, hle⟩
    apply buffer_align_index r k hk
    obtain ⟨m, hm⟩ := hdvd
    have hpos : 0 < 2 ^ k := by positivity
    have h64 : (2:Nat) ^ 64 = 2 ^ k * 2 ^ (64 - k) := by
      rw [← pow_add]; congr 1; omega
    have hmlt : m < 2 ^ (64 - k) := by
      by_contra hcon
      have : 2 ^ k * 2 ^ (64 - k) ≤ 2 ^ k * m := Nat.mul_le_mul_left _ (by omega)
      omega
    have : 2 ^ k * (m + 1) ≤ 2 ^ k * 2 ^ (64 - k) := Nat.mul_le_mul_left _ (by omega)
    rw [Nat.mul_add, Nat.mul_one] at this
    omega

/-- C9 (amended) at size 8, cursor 1 and `p = 4`. -/
theorem C9_cursor_invariant_witness :
    ((1 : Nat) ≤ 8 ∧ (8 : Nat) < 2 ^ 64) ∧
    (buffer_align { buf := [1, 2, 3, 4, 5, 6, 7, 8], size := 8, index := 1 } ((2 : Int) ^ 2)).index
      = (1 + (2 ^ 2 - 1)) / 2 ^ 2 * 2 ^ 2 ∧
    (buffer_align { buf := [1, 2, 3, 4, 5, 6, 7, 8], size := 8, index := 1 } ((2 : Int) ^ 2)).index
      ≤ (buffer_align { buf := [1, 2, 3, 4, 5, 6, 7, 8], size := 8, index := 1 }
          ((2 : Int) ^ 2)).size :=
  ⟨by decide,
    (C9_cursor_invariant { buf := [1, 2, 3, 4, 5, 6, 7, 8], size := 8, index := 1 }
      (by decide) (by decide)).2.2.2.2.2.2 2 (by decide) (by decide)⟩

/-- C10 (code defect): `buffer_read_string` hands the function `buffer_strdata`
itself to `string_new_len` instead of the pointer `buffer_strdata(r)`, so the
string returned is made of the bytes at the address of that function: it is the
same for the buffers `"A\0"` and `"B\0"`, and with `55 48 89 e5` at that address
the string read from `"A\0"` is the byte `55`.  `buffer_skip_string` on the same
buffer returns the view at the old cursor and the same final cursor 2. -/
theorem C10_read_string_ignores_buffer (fn_image : List uint8_t) :
    (buffer_read_string fn_image { buf := [0x41, 0], size := 2, index := 0 }).map Prod.fst =
      (buffer_read_string fn_image { buf := [0x42, 0], size := 2, index := 0 }).map Prod.fst ∧
    buffer_read_string [0x55, 0x48, 0x89, 0xe5] { buf := [0x41, 0], size := 2, index := 0 } =
      .ok ([0x55], { buf := [0x41, 0], size := 2, index := 2 }) ∧
    buffer_skip_string { buf := [0x41, 0], size := 2, index := 0 } =
      .ok ([0x41, 0], { buf := [0x41, 0], size := 2, index := 2 }) := by
  refine ⟨?_, by decide, by decide⟩
  have hA : strlen (buffer_strdata { buf := [0x41, 0], size := 2, index := 0 }) = some 1 := by
    decide
  have hB : strlen (buffer_strdata { buf := [0x42, 0], size := 2, index := 0 }) = some 1 := by
    decide
  simp only [buffer_read_string, hA, hB]
  cases string_new_len fn_image (size_of_int (int_of_size 1)) <;> rfl

/-! ## Lemmas for the bit buffer and the transcoder -/

theorem and_mask_bit (c j : Nat) (hj : j < 8) :
    decide (c &&& (0x80 >>> j) ≠ 0) = c.testBit (7 - j) := by
  have hm : 0x80 >>> j = 2 ^ (7 - j) := by
    interval_cases j <;> rfl
  rw [hm, Nat.and_two_pow]
  have hpos : 0 < 2 ^ (7 - j) := by positivity
  cases h : c.testBit (7 - j)
  · simp
  · simp

theorem bitbuffer_at_zero (data : List uint8_t) :
    bitbuffer_at data 0 = bitbuffer_init data data.length := by
  simp [bitbuffer_at, bitbuffer_init]

theorem bitbuffer_read_bit_at (data : List uint8_t) (k : Nat) (hlen : data.length < 2 ^ 31)
    (hk : k < 8 * data.length) :
    bitbuffer_read_bit (bitbuffer_at data k) = .ok (data_bit data k, bitbuffer_at data (k + 1)) := by
  by_cases h0 : k % 8 = 0
  · have hidx : (k + 7) / 8 = k / 8 := by omega
    have hsz : ¬ size_of_int (((k / 8 : Nat)) : Int) ≥ data.length := by
      unfold size_of_int; omega
    have hneg : ¬ (((k / 8 : Nat)) : Int) < 0 := by omega
    have hnext : int32_of_bits ((((k / 8 : Nat) : Int) + 1) % 2 ^ 32).toNat
        = (((k + 1 + 7) / 8 : Nat) : Int) := by
      unfold int32_of_bits
      split <;> omega
    have hk1 : (k + 1) % 8 = 1 := by omega
    have hcur : (k + 1 - 1) / 8 = k / 8 := by omega
    have hb := and_mask_bit (data.getD (k / 8) 0).val 0 (by decide)
    simp only [Nat.shiftRight_zero] at hb
    simp only [bitbuffer_read_bit, bitbuffer_fetch, bitbuffer_at, h0, if_true, hidx, hsz, hneg,
      if_false, Int.toNat_ofNat, load_eq data (k / 8) (by omega), hnext, hk1, hcur, data_bit, hb]
    simp
  · have hj : k % 8 < 8 := Nat.mod_lt _ (by decide)
    have hk0 : ¬ k = 0 := by omega
    have hmask : ¬ (0x80 >>> (k % 8) = 0) := by
      have : k % 8 = 1 ∨ k % 8 = 2 ∨ k % 8 = 3 ∨ k % 8 = 4 ∨ k % 8 = 5 ∨ k % 8 = 6 ∨ k % 8 = 7 := by
        omega
      rcases this with h | h | h | h | h | h | h <;> rw [h] <;> decide
    have hidx : (k + 1 + 7) / 8 = (k + 7) / 8 := by omega
    have hcur : (k + 1 - 1) / 8 = (k - 1) / 8 := by omega
    have hcur2 : (k - 1) / 8 = k / 8 := by omega
    have hb := and_mask_bit (data.getD (k / 8) 0).val (k % 8) hj
    simp only [bitbuffer_read_bit, bitbuffer_fetch, bitbuffer_at, h0, if_false, hk0, hmask, hidx,
      hcur, hcur2, hb, data_bit]
    congr 2
    by_cases h7 : k % 8 = 7
    · have : (k + 1) % 8 = 0 := by omega
      simp [this, h7]
    · have h1 : ¬ (k + 1) % 8 = 0 := by omega
      have h2 : (k + 1) % 8 = k % 8 + 1 := by omega
      simp only [h1, if_false, h2, Nat.add_one_ne_zero]
      rw [Nat.shiftRight_add]

theorem bitbuffer_read_bit_at_end (data : List uint8_t) (hlen : data.length < 2 ^ 31) :
    bitbuffer_read_bit (bitbuffer_at data (8 * data.length)) = .error .bitbuffer_overflow := by
  have h0 : (8 * data.length) % 8 = 0 := by omega
  have hidx : (8 * data.length + 7) / 8 = data.length := by omega
  have hsz : size_of_int ((data.length : Nat) : Int) ≥ data.length := by
    unfold size_of_int
    omega
  simp only [bitbuffer_read_bit, bitbuffer_fetch, bitbuffer_at, h0, if_true, hidx, hsz]

theorem bitbuffer_read_bits_at (data : List uint8_t) (hlen : data.length < 2 ^ 31) :
    ∀ (n p : Nat), p + n ≤ 8 * data.length →
    bitbuffer_read_bits n (bitbuffer_at data p) =
      .ok ((List.range n).map (fun i => data_bit data (p + i)), bitbuffer_at data (p + n)) := by
  intro n
  induction n with
  | zero => intro p _; rfl
  | succ n ih =>
    intro p hp
    rw [bitbuffer_read_bits, bitbuffer_read_bit_at data p hlen (by omega)]
    simp only
    rw [ih (p + 1) (by omega)]
    simp only [List.range_succ_eq_map, List.map_cons, List.map_map, Nat.add_zero]
    congr 3
    · apply List.map_congr_left
      intro i _
      simp only [Function.comp, Nat.succ_eq_add_one]
      congr 1; omega
    · omega

theorem bits_number_lt (data : List uint8_t) (p m : Nat) : bits_number data p m < 2 ^ m := by
  induction m with
  | zero => simp [bits_number]
  | succ m ihm =>
    simp only [bits_number, pow_succ]
    have : (data_bit data (p + m)).toNat ≤ 1 := Bool.toNat_le _
    omega

theorem bitbuffer_read_number_loop_at (data : List uint8_t) (hlen : data.length < 2 ^ 31) :
    ∀ (n p m : Nat), p + m + n ≤ 8 * data.length → m + n ≤ 32 →
    bitbuffer_read_number_loop n (bitbuffer_at data (p + m)) (bits_number data p m) =
      .ok (bits_number data p (m + n), bitbuffer_at data (p + m + n)) := by
  intro n
  induction n with
  | zero => intro p m _ _; rfl
  | succ n ih =>
    intro p m hp hm
    rw [bitbuffer_read_number_loop, bitbuffer_read_bit_at data (p + m) hlen (by omega)]
    simp only
    have hlt := bits_number_lt data p m
    have hpow : 2 ^ m * 2 ≤ 2 ^ 32 := by
      rw [← pow_succ]; exact Nat.pow_le_pow_right (by decide) (by omega)
    have hbit : (data_bit data (p + m)).toNat < 2 ^ 1 := by
      have : (data_bit data (p + m)).toNat ≤ 1 := Bool.toNat_le _
      omega
    have hacc : ((bits_number data p m <<< 1) % 2 ^ 32) ||| (data_bit data (p + m)).toNat
        = bits_number data p (m + 1) := by
      rw [Nat.shiftLeft_eq, Nat.mod_eq_of_lt (by omega), Nat.mul_comm,
        ← Nat.mul_add_lt_is_or hbit]
      simp [bits_number]
    rw [hacc]
    have := ih p (m + 1) (by omega) (by omega)
    rw [show p + (m + 1) = p + m + 1 by omega] at this
    rw [this, show m + 1 + n = m + (n + 1) by omega,
      show p + m + 1 + n = p + m + (n + 1) by omega]

theorem bitbuffer_read_zeros_loop_at (data : List uint8_t) (hlen : data.length < 2 ^ 31) :
    ∀ (n p acc : Nat), p ≤ 8 * data.length →
    p + min n (zero_run data p (8 * data.length - p) + 1) ≤ 8 * data.length →
    acc + n < 2 ^ 32 →
    bitbuffer_read_zeros_loop n (bitbuffer_at data p) acc =
      .ok (acc + min n (zero_run data p (8 * data.length - p)),
        bitbuffer_at data (p +
          (if zero_run data p (8 * data.length - p) < n
            then zero_run data p (8 * data.length - p) + 1 else n))) := by
  intro n
  induction n with
  | zero =>
    intro p acc _ _ _
    simp [bitbuffer_read_zeros_loop]
  | succ n ih =>
    intro p acc hp hbits hacc
    have hplt : p < 8 * data.length := by omega
    have hr : 8 * data.length - p = (8 * data.length - (p + 1)) + 1 := by omega
    rw [bitbuffer_read_zeros_loop, bitbuffer_read_bit_at data p hlen hplt]
    cases hb : data_bit data p with
    | true =>
      have hz : zero_run data p (8 * data.length - p) = 0 := by
        rw [hr, zero_run, if_pos hb]
      simp [hz]
    | false =>
      have hz : zero_run data p (8 * data.length - p)
          = zero_run data (p + 1) (8 * data.length - (p + 1)) + 1 := by
        rw [hr, zero_run]
        simp [hb]
      simp only
      rw [hz] at hbits ⊢
      rw [Nat.mod_eq_of_lt (by omega), ih (p + 1) (acc + 1) (by omega) (by omega) (by omega)]
      congr 2
      · omega
      · congr 1
        split <;> split <;> omega

/-- The function `bitbuffer_read_zeros` on the state at bit offset `p`. -/
theorem bitbuffer_read_zeros_at (data : List uint8_t) (hlen : data.length < 2 ^ 31)
    (p limit : Nat) (hlimit : limit < 2 ^ 31) (hp : p ≤ 8 * data.length)
    (hbits : p + min limit (zero_run data p (8 * data.length - p) + 1) ≤ 8 * data.length) :
    bitbuffer_read_zeros (bitbuffer_at data p) (limit : Int) =
      .ok (min limit (zero_run data p (8 * data.length - p)),
        bitbuffer_at data (p +
          (if zero_run data p (8 * data.length - p) < limit
            then zero_run data p (8 * data.length - p) + 1 else limit))) := by
  have := bitbuffer_read_zeros_loop_at data hlen limit p 0 hp hbits (by omega)
  simpa [bitbuffer_read_zeros] using this

/-- The number `zero_run data p n` is at most `n`, the bits it counts are zero,
and the bit after them is a one when the run ends within the `n` bits. -/
theorem zero_run_spec (data : List uint8_t) : ∀ (n p : Nat),
    zero_run data p n ≤ n ∧
    (∀ i, i < zero_run data p n → data_bit data (p + i) = false) ∧
    (zero_run data p n < n → data_bit data (p + zero_run data p n) = true) := by
  intro n
  induction n with
  | zero => intro p; simp [zero_run]
  | succ n ih =>
    intro p
    cases hb : data_bit data p with
    | true => simp [zero_run, hb]
    | false =>
      obtain ⟨h1, h2, h3⟩ := ih (p + 1)
      simp only [zero_run, hb, Bool.false_eq_true, if_false]
      refine ⟨by omega, ?_, ?_⟩
      · intro i hi
        cases i with
        | zero => simpa using hb
        | succ i =>
          have := h2 i (by omega)
          rw [show p + (i + 1) = p + 1 + i by omega]
          exact this
      · intro hlt
        have := h3 (by omega)
        rw [show p + (zero_run data (p + 1) n + 1) = p + 1 + zero_run data (p + 1) n by omega]
        exact this

theorem load_cons_zero (b : uint8_t) (rest : List uint8_t) : load (b :: rest) 0 = .ok b.val := by
  simp [load]

theorem load_cons_one (a b : uint8_t) (rest : List uint8_t) :
    load (a :: b :: rest) 1 = .ok b.val := by
  simp [load]

theorem s2u_at_eq (s2u : Nat → Nat → Nat) (b c : Nat) (hb1 : 0x80 ≤ b) (hb2 : b ≤ 0xff)
    (hc1 : 0x40 ≤ c) (hc2 : c ≤ 0xff) :
    s2u_at s2u ((b : Int) - 0x80) ((c : Int) - 0x40) = .ok (s2u (b - 0x80) (c - 0x40)) := by
  have hcond : 0 ≤ (b : Int) - 0x80 ∧ (b : Int) - 0x80 < 0x80 ∧ 0 ≤ (c : Int) - 0x40 ∧
      (c : Int) - 0x40 < 0xc0 := by omega
  have hr : ((b : Int) - 0x80).toNat = b - 0x80 := by omega
  have hcl : ((c : Int) - 0x40).toNat = c - 0x40 := by omega
  simp only [s2u_at, if_pos hcond, hr, hcl]

/-- The four cases of `sjis_char2unicode` on a lead and a trail byte. -/
theorem sjis_char2unicode_cases (s2u : Nat → Nat → Nat) (lead trail : uint8_t)
    (rest : List uint8_t) :
    (lead.val ≤ 0x7f →
      sjis_char2unicode s2u (lead :: trail :: rest) = .ok (lead.val, trail :: rest)) ∧
    (0xa0 ≤ lead.val ∧ lead.val ≤ 0xdf →
      sjis_char2unicode s2u (lead :: trail :: rest)
        = .ok (0xff60 + (lead.val - 0xa0), trail :: rest)) ∧
    (¬ lead.val ≤ 0x7f ∧ ¬ (0xa0 ≤ lead.val ∧ lead.val ≤ 0xdf) →
      (trail.val < 0x40 ∨ trail.val = 0x7f ∨ trail.val > 0xfc →
        sjis_char2unicode s2u (lead :: trail :: rest) = .ok (0x3f, trail :: rest)) ∧
      (¬ (trail.val < 0x40 ∨ trail.val = 0x7f ∨ trail.val > 0xfc) →
        sjis_char2unicode s2u (lead :: trail :: rest)
          = .ok (s2u (lead.val - 0x80) (trail.val - 0x40), rest))) := by
  have hl := lead.isLt
  have ht := trail.isLt
  refine ⟨?_, ?_, ?_⟩
  · intro h
    simp only [sjis_char2unicode, load_cons_zero, if_pos h, List.drop_succ_cons, List.drop_zero]
  · intro h
    have h1 : ¬ lead.val ≤ 0x7f := by omega
    have h2 : lead.val ≥ 0xa0 ∧ lead.val ≤ 0xdf := ⟨h.1, h.2⟩
    have h3 : 0xff60 + lead.val - 0xa0 = 0xff60 + (lead.val - 0xa0) := by omega
    simp only [sjis_char2unicode, load_cons_zero, if_neg h1, if_pos h2, List.drop_succ_cons,
      List.drop_zero, h3]
  · intro ⟨h1, h2⟩
    have h2' : ¬ (lead.val ≥ 0xa0 ∧ lead.val ≤ 0xdf) := h2
    constructor
    · intro h
      simp only [sjis_char2unicode, load_cons_zero, load_cons_one, if_neg h1, if_neg h2',
        if_pos h, List.drop_succ_cons, List.drop_zero]
    · intro h
      simp only [sjis_char2unicode, load_cons_zero, load_cons_one, if_neg h1, if_neg h2',
        if_neg h, s2u_at_eq s2u lead.val trail.val (by omega) (by omega) (by omega) (by omega),
        List.drop_succ_cons, List.drop_zero]

theorem unicode_to_sjis_row_spec (s2u : Nat → Nat → Nat) (u b1 : Nat) (hb1 : 0x80 ≤ b1)
    (hb2 : b1 ≤ 0xff) : ∀ n, n ≤ 0xc0 →
    (∃ r, unicode_to_sjis_row s2u u b1 n = .ok r) ∧
    ((∀ b2, 0x100 - n ≤ b2 → b2 ≤ 0xff → s2u (b1 - 0x80) (b2 - 0x40) ≠ u) →
      unicode_to_sjis_row s2u u b1 n = .ok none) ∧
    (∀ b2, 0x100 - n ≤ b2 → b2 ≤ 0xff → s2u (b1 - 0x80) (b2 - 0x40) = u →
      (∀ b, 0x100 - n ≤ b → b < b2 → s2u (b1 - 0x80) (b - 0x40) ≠ u) →
      unicode_to_sjis_row s2u u b1 n = .ok (some ((b1 <<< 8) ||| b2))) := by
  intro n
  induction n with
  | zero =>
    intro _
    refine ⟨⟨none, rfl⟩, fun _ => rfl, ?_⟩
    intro b2 h1 h2
    omega
  | succ n ih =>
    intro hn
    obtain ⟨⟨r, hr⟩, hnone, hsome⟩ := ih (by omega)
    have hat := s2u_at_eq s2u b1 (0x100 - (n + 1)) hb1 hb2 (by omega) (by omega)
    have hcast : (((0x100 - (n + 1) : Nat)) : Int) = ((0x100 - (n + 1) : Nat) : Int) := rfl
    refine ⟨?_, ?_, ?_⟩
    · rw [unicode_to_sjis_row, hat]
      by_cases hu : u = s2u (b1 - 0x80) (0x100 - (n + 1) - 0x40)
      · exact ⟨some ((b1 <<< 8) ||| (0x100 - (n + 1))), by simp only [if_pos hu]⟩
      · exact ⟨r, by simp only [if_neg hu, hr]⟩
    · intro hall
      have hu : ¬ u = s2u (b1 - 0x80) (0x100 - (n + 1) - 0x40) := by
        intro h
        exact hall (0x100 - (n + 1)) (Nat.le_refl _) (by omega) h.symm
      rw [unicode_to_sjis_row, hat]
      simp only [if_neg hu]
      exact hnone (fun b2 h1 h2 => hall b2 (by omega) h2)
    · intro b2 h1 h2 heq hfirst
      rw [unicode_to_sjis_row, hat]
      by_cases hb : b2 = 0x100 - (n + 1)
      · subst hb
        simp only [if_pos heq.symm]
      · have hu : ¬ u = s2u (b1 - 0x80) (0x100 - (n + 1) - 0x40) := by
          intro h
          exact hfirst (0x100 - (n + 1)) (Nat.le_refl _) (by omega) h.symm
        simp only [if_neg hu]
        exact hsome b2 (by omega) h2 heq (fun b hb1 hb2 => hfirst b (by omega) hb2)

/-- The pairs `(b1, b2)` the reverse scan of `unicode_to_sjis` visits. -/
theorem unicode_to_sjis_rows_spec (s2u : Nat → Nat → Nat) (u : Nat) : ∀ n, n ≤ 0x7f →
    (∃ c, unicode_to_sjis_rows s2u u n = .ok c) ∧
    ((∀ b1 b2, 0x100 - n ≤ b1 → b1 ≤ 0xff → ¬ (0xa0 ≤ b1 ∧ b1 ≤ 0xdf) → 0x40 ≤ b2 → b2 ≤ 0xff →
        s2u (b1 - 0x80) (b2 - 0x40) ≠ u) →
      unicode_to_sjis_rows s2u u n = .ok 0) := by
  intro n
  induction n with
  | zero => intro _; exact ⟨⟨0, rfl⟩, fun _ => rfl⟩
  | succ n ih =>
    intro hn
    obtain ⟨⟨c, hc⟩, hzero⟩ := ih (by omega)
    by_cases hk : 0x100 - (n + 1) ≥ 0xa0 ∧ 0x100 - (n + 1) ≤ 0xdf
    · refine ⟨⟨c, by rw [unicode_to_sjis_rows, if_pos hk, hc]⟩, ?_⟩
      intro hall
      rw [unicode_to_sjis_rows, if_pos hk]
      exact hzero (fun b1 b2 h1 h2 h3 h4 h5 => hall b1 b2 (by omega) h2 h3 h4 h5)
    · obtain ⟨⟨r, hr⟩, hnone, _⟩ :=
        unicode_to_sjis_row_spec s2u u (0x100 - (n + 1)) (by omega) (by omega) 0xc0 (Nat.le_refl _)
      have hr' : unicode_to_sjis_row s2u u (0x100 - (n + 1)) (0x100 - 0x40) = .ok r := hr
      refine ⟨?_, ?_⟩
      · rw [unicode_to_sjis_rows, if_neg hk, hr']
        cases r with
        | none => exact ⟨c, hc⟩
        | some v => exact ⟨v, rfl⟩
      · intro hall
        have hn' : unicode_to_sjis_row s2u u (0x100 - (n + 1)) (0x100 - 0x40) = .ok none :=
          hnone (fun b2 h1 h2 =>
            hall (0x100 - (n + 1)) b2 (Nat.le_refl _) (by omega) (by omega) (by omega) h2)
        rw [unicode_to_sjis_rows, if_neg hk, hn']
        exact hzero (fun b1 b2 h1 h2 h3 h4 h5 => hall b1 b2 (by omega) h2 h3 h4 h5)

theorem unicode_to_sjis_returns (s2u : Nat → Nat → Nat) (u : Nat) :
    ∃ c, unicode_to_sjis s2u u = .ok c :=
  (unicode_to_sjis_rows_spec s2u u 0x7f (Nat.le_refl _)).1

theorem unicode_to_sjis_no_match (s2u : Nat → Nat → Nat) (u : Nat)
    (hall : ∀ b1 b2, 0x81 ≤ b1 → b1 ≤ 0xff → ¬ (0xa0 ≤ b1 ∧ b1 ≤ 0xdf) → 0x40 ≤ b2 → b2 ≤ 0xff →
      s2u (b1 - 0x80) (b2 - 0x40) ≠ u) :
    unicode_to_sjis s2u u = .ok 0 :=
  (unicode_to_sjis_rows_spec s2u u 0x7f (Nat.le_refl _)).2
    (fun b1 b2 h1 h2 h3 h4 h5 => hall b1 b2 (by omega) h2 h3 h4 h5)

theorem sjis_char2unicode_returns (s2u : Nat → Nat → Nat) (lead trail : uint8_t)
    (rest : List uint8_t) : ∃ r, sjis_char2unicode s2u (lead :: trail :: rest) = .ok r := by
  obtain ⟨h1, h2, h3⟩ := sjis_char2unicode_cases s2u lead trail rest
  by_cases ha : lead.val ≤ 0x7f
  · exact ⟨_, h1 ha⟩
  · by_cases hb : 0xa0 ≤ lead.val ∧ lead.val ≤ 0xdf
    · exact ⟨_, h2 hb⟩
    · by_cases hc : trail.val < 0x40 ∨ trail.val = 0x7f ∨ trail.val > 0xfc
      · exact ⟨_, (h3 ⟨ha, hb⟩).1 hc⟩
      · exact ⟨_, (h3 ⟨ha, hb⟩).2 hc⟩

/-- The reverse scan returns the first pair, in its scan order, whose entry is
`u`. -/
theorem unicode_to_sjis_rows_first (s2u : Nat → Nat → Nat) (u : Nat) : ∀ n, n ≤ 0x7f →
    ∀ b1 b2, 0x100 - n ≤ b1 → b1 ≤ 0xff → ¬ (0xa0 ≤ b1 ∧ b1 ≤ 0xdf) → 0x40 ≤ b2 → b2 ≤ 0xff →
    s2u (b1 - 0x80) (b2 - 0x40) = u →
    (∀ a1 a2, 0x100 - n ≤ a1 → a1 ≤ 0xff → ¬ (0xa0 ≤ a1 ∧ a1 ≤ 0xdf) → 0x40 ≤ a2 → a2 ≤ 0xff →
      (a1 < b1 ∨ (a1 = b1 ∧ a2 < b2)) → s2u (a1 - 0x80) (a2 - 0x40) ≠ u) →
    unicode_to_sjis_rows s2u u n = .ok ((b1 <<< 8) ||| b2) := by
  intro n
  induction n with
  | zero => intro _ b1 b2 h1 h2; omega
  | succ n ih =>
    intro hn b1 b2 h1 h2 h3 h4 h5 heq hfirst
    by_cases hk : 0x100 - (n + 1) ≥ 0xa0 ∧ 0x100 - (n + 1) ≤ 0xdf
    · rw [unicode_to_sjis_rows, if_pos hk]
      exact ih (by omega) b1 b2 (by omega) h2 h3 h4 h5 heq
        (fun a1 a2 g1 g2 g3 g4 g5 g6 => hfirst a1 a2 (by omega) g2 g3 g4 g5 g6)
    · obtain ⟨_, hnone, hsome⟩ :=
        unicode_to_sjis_row_spec s2u u (0x100 - (n + 1)) (by omega) (by omega) 0xc0 (Nat.le_refl _)
      rw [unicode_to_sjis_rows, if_neg hk]
      by_cases hb : b1 = 0x100 - (n + 1)
      · have hrow : unicode_to_sjis_row s2u u (0x100 - (n + 1)) (0x100 - 0x40)
            = .ok (some (((0x100 - (n + 1)) <<< 8) ||| b2)) :=
          hsome b2 (by omega) h5 (by rw [← hb]; exact heq)
            (fun b g1 g2 => by
              have := hfirst b1 b (by omega) h2 h3 (by omega) (by omega) (Or.inr ⟨rfl, g2⟩)
              rw [hb] at this
              exact this)
        rw [hrow, hb]
      · have hrow : unicode_to_sjis_row s2u u (0x100 - (n + 1)) (0x100 - 0x40) = .ok none :=
          hnone (fun a2 g1 g2 =>
            hfirst (0x100 - (n + 1)) a2 (Nat.le_refl _) (by omega) (by omega) (by omega) g2
              (Or.inl (by omega)))
        rw [hrow]
        exact ih (by omega) b1 b2 (by omega) h2 h3 h4 h5 heq
          (fun a1 a2 g1 g2 g3 g4 g5 g6 => hfirst a1 a2 (by omega) g2 g3 g4 g5 g6)

theorem unicode_to_sjis_first_match (s2u : Nat → Nat → Nat) (u b1 b2 : Nat)
    (h1 : 0x81 ≤ b1) (h2 : b1 ≤ 0xff) (h3 : ¬ (0xa0 ≤ b1 ∧ b1 ≤ 0xdf)) (h4 : 0x40 ≤ b2)
    (h5 : b2 ≤ 0xff) (heq : s2u (b1 - 0x80) (b2 - 0x40) = u)
    (hfirst : ∀ a1 a2, 0x81 ≤ a1 → a1 ≤ 0xff → ¬ (0xa0 ≤ a1 ∧ a1 ≤ 0xdf) → 0x40 ≤ a2 →
      a2 ≤ 0xff → (a1 < b1 ∨ (a1 = b1 ∧ a2 < b2)) → s2u (a1 - 0x80) (a2 - 0x40) ≠ u) :
    unicode_to_sjis s2u u = .ok ((b1 <<< 8) ||| b2) :=
  unicode_to_sjis_rows_first s2u u 0x7f (Nat.le_refl _) b1 b2 (by omega) h2 h3 h4 h5 heq
    (fun a1 a2 g1 g2 g3 g4 g5 g6 => hfirst a1 a2 (by omega) g2 g3 g4 g5 g6)

theorem unicode_to_sjis_example : unicode_to_sjis s2u_example 0x3042 = .ok 0x82a0 := by
  have := unicode_to_sjis_first_match s2u_example 0x3042 0x82 0xa0 (by decide) (by decide)
    (by decide) (by decide) (by decide) (by decide)
    (fun a1 a2 g1 g2 g3 g4 g5 g6 => by
      unfold s2u_example
      have : ¬ (a1 - 0x80 = 0x02 ∧ a2 - 0x40 = 0x60) := by omega
      rw [if_neg this]
      decide)
  exact this

theorem load_at_append (pre : List uint8_t) (x : uint8_t) (rest : List uint8_t) :
    load_at (pre ++ x :: rest) (pre.length : Int) = .ok x.val := by
  have h : ¬ ((pre.length : Int) < 0) := by omega
  simp only [load_at, if_neg h, load, Int.toNat_ofNat]
  rw [List.getElem?_append_right (Nat.le_refl _)]
  simp

theorem int_succ_eq (n : Nat) (h : n + 1 < 2 ^ 31) : int_succ (n : Int) = ((n + 1 : Nat) : Int) := by
  unfold int_succ int32_of_bits
  split <;> omega

theorem sjis_index_result_append (pre : List uint8_t) (x : uint8_t) (rest : List uint8_t) :
    sjis_index_result (pre ++ x :: rest) (pre.length : Int)
      = .ok (if x.val ≠ 0 then (pre.length : Int) else -1) := by
  simp only [sjis_index_result, load_at_append]

theorem sjis_index_loop_spec (SJIS_2BYTE : Nat → Bool) : ∀ (n : Nat) (cs : List sjis_char)
    (pre : List uint8_t), (∀ c ∈ cs, c.wf SJIS_2BYTE) →
    pre.length + sjis_width cs + 1 < 2 ^ 31 →
    sjis_index_loop SJIS_2BYTE (pre ++ (sjis_bytes cs ++ [0])) n (pre.length : Int) =
      .ok (if n < cs.length then ((pre.length + sjis_width (cs.take n) : Nat) : Int) else -1) := by
  intro n
  induction n with
  | zero =>
    intro cs pre hwf hlen
    cases cs with
    | nil =>
      simp only [sjis_index_loop, sjis_bytes, List.nil_append, sjis_index_result_append]
      simp
    | cons c cs =>
      cases c with
      | single b =>
        have hb : b.val ≠ 0 := by
          have := (hwf (.single b) (List.mem_cons_self _ _)).1
          intro h; exact this (Fin.ext h)
        simp only [sjis_index_loop, sjis_bytes, sjis_char.bytes, List.cons_append,
          List.nil_append, sjis_index_result_append, if_pos hb]
        simp [sjis_width]
      | double l t =>
        have hl : l.val ≠ 0 := by
          have := (hwf (.double l t) (List.mem_cons_self _ _)).1
          intro h; exact this (Fin.ext h)
        simp only [sjis_index_loop, sjis_bytes, sjis_char.bytes, List.cons_append,
          List.nil_append, sjis_index_result_append, if_pos hl]
        simp [sjis_width]
  | succ n ih =>
    intro cs pre hwf hlen
    cases cs with
    | nil =>
      simp only [sjis_index_loop, sjis_bytes, List.nil_append, load_at_append,
        sjis_index_result_append]
      simp
    | cons c cs =>
      have hwf' : ∀ c ∈ cs, c.wf SJIS_2BYTE := fun c hc => hwf c (List.mem_cons_of_mem _ hc)
      cases c with
      | single b =>
        obtain ⟨hb0, hbm⟩ := hwf (.single b) (List.mem_cons_self _ _)
        have hb : ¬ b.val = 0 := fun h => hb0 (Fin.ext h)
        simp only [sjis_width, sjis_char.width] at hlen
        have hlen1 : (pre ++ [b]).length + sjis_width cs + 1 < 2 ^ 31 := by
          simp only [List.length_append, List.length_singleton]; omega
        have hrec := ih cs (pre ++ [b]) hwf' hlen1
        simp only [List.append_assoc, List.singleton_append, List.length_append,
          List.length_singleton] at hrec
        simp only [sjis_index_loop, sjis_bytes, sjis_char.bytes, List.cons_append,
          List.nil_append, load_at_append, if_neg hb, hbm, Bool.false_eq_true, if_false,
          int_succ_eq pre.length (by omega), hrec, List.length_cons, List.take_succ_cons,
          sjis_width, sjis_char.width]
        by_cases hn : n < cs.length
        · simp only [hn, if_true, Nat.add_lt_add_iff_right]
          congr 2; omega
        · simp only [hn, if_false, Nat.add_lt_add_iff_right]
      | double l t =>
        obtain ⟨hl0, hlm, ht0⟩ := hwf (.double l t) (List.mem_cons_self _ _)
        have hl : ¬ l.val = 0 := fun h => hl0 (Fin.ext h)
        have ht : ¬ t.val = 0 := fun h => ht0 (Fin.ext h)
        simp only [sjis_width, sjis_char.width] at hlen
        have hlen1 : (pre ++ [l, t]).length + sjis_width cs + 1 < 2 ^ 31 := by
          simp only [List.length_append, List.length_cons, List.length_nil]; omega
        have hrec := ih cs (pre ++ [l, t]) hwf' hlen1
        simp only [List.append_assoc, List.cons_append, List.nil_append, List.length_append,
          List.length_cons, List.length_nil] at hrec
        have hload2 : load_at (pre ++ l :: t :: (sjis_bytes cs ++ [0]))
            (((pre.length + 1 : Nat)) : Int) = .ok t.val := by
          have := load_at_append (pre ++ [l]) t (sjis_bytes cs ++ [0])
          simpa using this
        have hsucc2 : int_succ (((pre.length + 1 : Nat)) : Int)
            = ((pre.length + (0 + 1 + 1) : Nat) : Int) := by
          rw [int_succ_eq _ (by omega)]
        simp only [sjis_index_loop, sjis_bytes, sjis_char.bytes, List.cons_append,
          List.nil_append, load_at_append, if_neg hl, hlm, if_true,
          int_succ_eq pre.length (by omega), hload2, if_neg ht, hsucc2, hrec, List.length_cons,
          List.take_succ_cons, sjis_width, sjis_char.width]
        by_cases hn : n < cs.length
        · simp only [hn, if_true, Nat.add_lt_add_iff_right]
          congr 2; omega
        · simp only [hn, if_false, Nat.add_lt_add_iff_right]

theorem or_c0 (q : Nat) (h : q < 32) : 0xc0 ||| q = 0xc0 + q := by
  have := Nat.mul_add_lt_is_or (i := 5) (b := q) (by simpa using h) 6
  simpa using this.symm

theorem or_80 (r : Nat) (h : r < 64) : 0x80 ||| r = 0x80 + r := by
  have := Nat.mul_add_lt_is_or (i := 6) (b := r) (by simpa using h) 2
  simpa using this.symm

theorem or_e0 (q : Nat) (h : q < 16) : 0xe0 ||| q = 0xe0 + q := by
  have := Nat.mul_add_lt_is_or (i := 4) (b := q) (by simpa using h) 14
  simpa using this.symm

theorem and_3f (x : Nat) : x &&& 0x3f = x % 64 := by
  have := Nat.and_pow_two_sub_one_eq_mod x 6
  simpa using this

theorem and_1f (x : Nat) : x &&& 0x1f = x % 32 := by
  have := Nat.and_pow_two_sub_one_eq_mod x 5
  simpa using this

theorem and_0f (x : Nat) : x &&& 0xf = x % 16 := by
  have := Nat.and_pow_two_sub_one_eq_mod x 4
  simpa using this

theorem and_ff (x : Nat) : x &&& 0xff = x % 256 := by
  have := Nat.and_pow_two_sub_one_eq_mod x 8
  simpa using this

/-- The bytes stored by `sjis_to_utf8_internal` for a codepoint up to U+FFFF
are its UTF-8 encoding. -/
theorem utf8_put_eq_encode (c : Nat) (h : c ≤ 0xffff) : utf8_put c = utf8_encode c := by
  unfold utf8_put utf8_encode
  by_cases h1 : c ≤ 0x7f
  · have : c < 0x80 := by omega
    rw [if_pos h1, if_pos this]
  · have h1' : ¬ c < 0x80 := by omega
    rw [if_neg h1, if_neg h1']
    by_cases h2 : c ≤ 0x7ff
    · have : c < 0x800 := by omega
      rw [if_pos h2, if_pos this, Nat.shiftRight_eq_div_pow, and_3f,
        or_c0 _ (by omega), or_80 _ (by omega)]
    · have h2' : ¬ c < 0x800 := by omega
      rw [if_neg h2, if_neg h2', Nat.shiftRight_eq_div_pow, Nat.shiftRight_eq_div_pow, and_3f,
        and_3f, or_e0 _ (by omega), or_80 _ (by omega), or_80 _ (by omega)]

theorem utf8_put_length (c : Nat) : 1 ≤ (utf8_put c).length ∧ (utf8_put c).length ≤ 3 := by
  unfold utf8_put
  split
  · simp
  · split <;> simp

theorem strlen_cons (b : uint8_t) (rest : List uint8_t) (n : Nat) (hb : b ≠ 0)
    (h : strlen (b :: rest) = some n) : ∃ m, strlen rest = some m ∧ n = m + 1 := by
  unfold strlen at h
  rw [if_neg hb] at h
  cases hr : strlen rest with
  | none => simp [hr] at h
  | some m => exact ⟨m, rfl, by simpa [hr] using h.symm⟩

theorem strlen_append_nul : ∀ (s junk : List uint8_t),
    ∃ n, n ≤ s.length ∧ strlen (s ++ 0 :: junk) = some n := by
  intro s junk
  induction s with
  | nil => exact ⟨0, Nat.le_refl _, by simp [strlen]⟩
  | cons b s ih =>
    obtain ⟨n, hn, hs⟩ := ih
    by_cases hb : b = 0
    · exact ⟨0, Nat.zero_le _, by simp [strlen, hb]⟩
    · refine ⟨n + 1, by simpa using hn, ?_⟩
      rw [List.cons_append, strlen, if_neg hb, hs]
      rfl

theorem sjis_to_utf8_loop_spec (s2u : Nat → Nat → Nat) (cap : Nat) :
    ∀ (fuel : Nat) (src dst : List uint8_t) (n : Nat), strlen src = some n → n < fuel →
    dst.length + 3 * n ≤ cap →
    ∃ cps, sjis_codepoints s2u fuel src = .ok cps ∧
      sjis_to_utf8_loop s2u cap fuel src dst = .ok (dst ++ (cps.map utf8_put).flatten) ∧
      ((cps.map utf8_put).flatten).length ≤ 3 * n ∧
      ((∀ r c, s2u r c ≤ 0xffff) → ∀ c ∈ cps, c ≤ 0xffff) := by
  intro fuel
  induction fuel with
  | zero => intro src dst n _ h; omega
  | succ fuel ih =>
    intro src dst n hs hf hcap
    cases src with
    | nil => simp [strlen] at hs
    | cons b rest =>
      by_cases hb : b = 0
      · subst hb
        refine ⟨[], ?_, ?_, by simp, by simp⟩
        · simp [sjis_codepoints, load_cons_zero]
        · simp [sjis_to_utf8_loop, load_cons_zero]
      · obtain ⟨m, hm, hnm⟩ := strlen_cons b rest n hb hs
        have hbv : ¬ b.val = 0 := fun h => hb (Fin.ext h)
        cases rest with
        | nil => simp [strlen] at hm
        | cons t rest2 =>
          obtain ⟨h1, h2, h3⟩ := sjis_char2unicode_cases s2u b t rest2
          -- the three shapes of the result of `sjis_char2unicode`
          have hstep : ∃ c src1 k, sjis_char2unicode s2u (b :: t :: rest2) = .ok (c, src1) ∧
              strlen src1 = some k ∧ k < n ∧ 3 + 3 * k ≤ 3 * n ∧
              ((∀ r c, s2u r c ≤ 0xffff) → c ≤ 0xffff) := by
            have hbl := b.isLt
            by_cases ha : b.val ≤ 0x7f
            · exact ⟨_, _, m, h1 ha, hm, by omega, by omega, fun _ => by omega⟩
            · by_cases hk : 0xa0 ≤ b.val ∧ b.val ≤ 0xdf
              · exact ⟨_, _, m, h2 hk, hm, by omega, by omega, fun _ => by omega⟩
              · by_cases hc : t.val < 0x40 ∨ t.val = 0x7f ∨ t.val > 0xfc
                · exact ⟨_, _, m, (h3 ⟨ha, hk⟩).1 hc, hm, by omega, by omega, fun _ => by omega⟩
                · have ht : t ≠ 0 := by
                    intro h
                    apply hc
                    left
                    rw [h]
                    decide
                  obtain ⟨m2, hm2, hmm⟩ := strlen_cons t rest2 m ht hm
                  exact ⟨_, _, m2, (h3 ⟨ha, hk⟩).2 hc, hm2, by omega, by omega,
                    fun htbl => htbl _ _⟩
          obtain ⟨c, src1, k, hchar, hk, hkn, h3k, hcle⟩ := hstep
          have hput := utf8_put_length c
          have hcap1 : ¬ (dst ++ utf8_put c).length > cap := by
            simp only [List.length_append]; omega
          obtain ⟨cps, hcps, hloop, hlen, hbmp⟩ := ih src1 (dst ++ utf8_put c) k hk (by omega)
            (by simp only [List.length_append]; omega)
          refine ⟨c :: cps, ?_, ?_, ?_, ?_⟩
          · simp only [sjis_codepoints, load_cons_zero, if_neg hbv, hchar, hcps]
          · simp only [sjis_to_utf8_loop, load_cons_zero, if_neg hbv, hchar, if_neg hcap1, hloop,
              List.map_cons, List.flatten_cons, List.append_assoc]
          · simp only [List.map_cons, List.flatten_cons, List.length_append]
            omega
          · intro htbl x hx
            rcases List.mem_cons.mp hx with rfl | hx
            · exact hcle htbl
            · exact hbmp htbl x hx

theorem utf8_decode2 (b0 b1 : Nat) :
    ((b0 &&& 0x1f) <<< 6) ||| (b1 &&& 0x3f) = b0 % 32 * 64 + b1 % 64 := by
  rw [and_1f, and_3f, Nat.shiftLeft_eq]
  have h := Nat.mul_add_lt_is_or (i := 6) (b := b1 % 64) (by omega) (b0 % 32)
  rw [← Nat.mul_comm] at h
  simpa using h.symm

theorem utf8_decode3 (b0 b1 b2 : Nat) :
    ((b0 &&& 0xf) <<< 12) ||| ((b1 &&& 0x3f) <<< 6) ||| (b2 &&& 0x3f)
      = b0 % 16 * 4096 + b1 % 64 * 64 + b2 % 64 := by
  rw [and_0f, and_3f, and_3f, Nat.shiftLeft_eq, Nat.shiftLeft_eq]
  have h1 := Nat.mul_add_lt_is_or (i := 12) (b := b1 % 64 * 2 ^ 6) (by omega) (b0 % 16)
  have h2 := Nat.mul_add_lt_is_or (i := 6) (b := b2 % 64) (by omega) (b0 % 16 * 64 + b1 % 64)
  have e1 : b0 % 16 * 2 ^ 12 = 2 ^ 12 * (b0 % 16) := Nat.mul_comm _ _
  have e2 : 2 ^ 12 * (b0 % 16) + b1 % 64 * 2 ^ 6 = 2 ^ 6 * (b0 % 16 * 64 + b1 % 64) := by omega
  rw [e1, ← h1, e2, ← h2]
  omega

set_option maxRecDepth 100000 in
theorem utf8_continuation_iff (x : uint8_t) :
    (x.val &&& 0xc0) = 0x80 ↔ utf8_continuation x := by
  unfold utf8_continuation
  revert x
  decide

theorem utf8_char_to_sjis_tail_spec (s2u : Nat → Nat → Nat) (u : Nat) :
    ∃ n bs, bs.length = n ∧ 1 ≤ n ∧ n ≤ 2 ∧
      ∀ out, utf8_char_to_sjis_tail s2u u out = .ok (n, bs, out) := by
  by_cases hk : u > 0xff60 ∧ u ≤ 0xff9f
  · exact ⟨1, [to_u8 (u - 0xff60 + 0xa0)], rfl, by omega, by omega,
      fun out => by simp only [utf8_char_to_sjis_tail, if_pos hk]⟩
  · obtain ⟨c, hc⟩ := unicode_to_sjis_returns s2u u
    by_cases h0 : c ≠ 0
    · exact ⟨2, [to_u8 (c >>> 8), to_u8 (c &&& 0xff)], rfl, by omega, by omega,
        fun out => by simp only [utf8_char_to_sjis_tail, if_neg hk, hc, if_pos h0]⟩
    · exact ⟨1, [0x3f], rfl, by omega, by omega,
        fun out => by simp only [utf8_char_to_sjis_tail, if_neg hk, hc, if_neg h0]⟩

theorem load_cons_two (a b c : uint8_t) (rest : List uint8_t) :
    load (a :: b :: c :: rest) 2 = .ok c.val := by
  simp [load]

theorem utf8_skip_continuation_three (b1 b2 b3 x : uint8_t) (tl : List uint8_t)
    (h1 : utf8_continuation b1) (h2 : utf8_continuation b2) (h3 : utf8_continuation b3)
    (hx : ¬ utf8_continuation x) :
    utf8_skip_continuation (b1 :: b2 :: b3 :: x :: tl) = .ok (x :: tl) := by
  have e1 := (utf8_continuation_iff b1).mpr h1
  have e2 := (utf8_continuation_iff b2).mpr h2
  have e3 := (utf8_continuation_iff b3).mpr h3
  have ex : ¬ (x.val &&& 0xc0) = 0x80 := fun h => hx ((utf8_continuation_iff x).mp h)
  simp only [utf8_skip_continuation, e1, e2, e3, if_true, if_neg ex]

/-- The function `utf8_char_to_sjis` on a well-formed character followed by a
byte that is not a continuation byte: it returns 1 or 2, stores that many
bytes, and sets `*out` to the end of the character. -/
theorem utf8_char_to_sjis_wf (s2u : Nat → Nat → Nat) (c : utf8_char) (hwf : c.wf) :
    ∃ n bs, bs.length = n ∧ 1 ≤ n ∧ n ≤ c.bytes.length ∧
      ∀ x tl, ¬ utf8_continuation x →
        utf8_char_to_sjis s2u (c.bytes ++ x :: tl) = .ok (n, bs, x :: tl) := by
  cases c with
  | one b0 =>
    obtain ⟨_, h2⟩ := hwf
    exact ⟨1, [to_u8 b0.val], rfl, by omega, by simp [utf8_char.bytes],
      fun x tl _ => by
        simp only [utf8_char.bytes, List.singleton_append, utf8_char_to_sjis, load_cons_zero,
          if_pos h2, List.drop_succ_cons, List.drop_zero]⟩
  | two b0 b1 =>
    obtain ⟨h1, h2, _⟩ := hwf
    have ha : ¬ b0.val ≤ 0x7f := by omega
    obtain ⟨n, bs, hl, hn1, hn2, htail⟩ := utf8_char_to_sjis_tail_spec s2u
      (((b0.val &&& 0x1f) <<< 6) ||| (b1.val &&& 0x3f))
    exact ⟨n, bs, hl, hn1, by simpa [utf8_char.bytes] using hn2,
      fun x tl _ => by
        simp only [utf8_char.bytes, List.cons_append, List.nil_append, utf8_char_to_sjis,
          load_cons_zero, load_cons_one, if_neg ha, if_pos h2, List.drop_succ_cons,
          List.drop_zero, htail]⟩
  | three b0 b1 b2 =>
    obtain ⟨h1, h2, _, _⟩ := hwf
    have ha : ¬ b0.val ≤ 0x7f := by omega
    have hb : ¬ b0.val ≤ 0xdf := by omega
    obtain ⟨n, bs, hl, hn1, hn2, htail⟩ := utf8_char_to_sjis_tail_spec s2u
      (((b0.val &&& 0xf) <<< 12) ||| ((b1.val &&& 0x3f) <<< 6) ||| (b2.val &&& 0x3f))
    exact ⟨n, bs, hl, hn1, by simp only [utf8_char.bytes, List.length_cons, List.length_nil]; omega,
      fun x tl _ => by
        simp only [utf8_char.bytes, List.cons_append, List.nil_append, utf8_char_to_sjis,
          load_cons_zero, load_cons_one, load_cons_two, if_neg ha, if_neg hb, if_pos h2,
          List.drop_succ_cons, List.drop_zero, htail]⟩
  | four b0 b1 b2 b3 =>
    obtain ⟨h1, c1, c2, c3⟩ := hwf
    have ha : ¬ b0.val ≤ 0x7f := by omega
    have hb : ¬ b0.val ≤ 0xdf := by omega
    have hc : ¬ b0.val ≤ 0xef := by omega
    exact ⟨1, [0x3f], rfl, by omega, by simp [utf8_char.bytes],
      fun x tl hx => by
        simp only [utf8_char.bytes, List.cons_append, List.nil_append, utf8_char_to_sjis,
          load_cons_zero, if_neg ha, if_neg hb, if_neg hc, List.drop_succ_cons, List.drop_zero,
          utf8_skip_continuation_three b1 b2 b3 x tl c1 c2 c3 hx]⟩

theorem utf8_char_first (c : utf8_char) (hwf : c.wf) :
    ∃ b tl, c.bytes = b :: tl ∧ b.val ≠ 0 ∧ ¬ utf8_continuation b := by
  unfold utf8_continuation
  cases c with
  | one b0 => exact ⟨b0, [], rfl, by have := hwf.1; omega, by have := hwf.2; omega⟩
  | two b0 b1 => exact ⟨b0, _, rfl, by have := hwf.1; omega, by have := hwf.1; omega⟩
  | three b0 b1 b2 => exact ⟨b0, _, rfl, by have := hwf.1; omega, by have := hwf.1; omega⟩
  | four b0 b1 b2 b3 => exact ⟨b0, _, rfl, by have := hwf.1; omega, by have := hwf.1; omega⟩

/-- The string of well-formed characters followed by a NUL starts with a byte
that is not a continuation byte. -/
theorem utf8_string_first (cs : List utf8_char) (hwf : ∀ c ∈ cs, c.wf) :
    ∃ x tl, utf8_bytes cs ++ [0] = x :: tl ∧ ¬ utf8_continuation x := by
  cases cs with
  | nil => exact ⟨0, [], rfl, by unfold utf8_continuation; decide⟩
  | cons c cs =>
    obtain ⟨b, tl, hb, _, hnc⟩ := utf8_char_first c (hwf c (List.mem_cons_self _ _))
    exact ⟨b, tl ++ (utf8_bytes cs ++ [0]), by simp [utf8_bytes, hb], hnc⟩

theorem utf8_loops_spec (s2u : Nat → Nat → Nat) (cap : Nat) : ∀ (cs : List utf8_char)
    (fuel : Nat) (dst : List uint8_t) (len : Nat), (∀ c ∈ cs, c.wf) → cs.length < fuel →
    dst.length + (utf8_bytes cs).length ≤ cap → len + (utf8_bytes cs).length < 2 ^ 64 →
    ∃ out, utf8_to_sjis_loop s2u cap fuel (utf8_bytes cs ++ [0]) dst = .ok (dst ++ out) ∧
      utf8_sjis_length_loop s2u fuel (utf8_bytes cs ++ [0]) len = .ok (len + out.length) ∧
      out.length ≤ (utf8_bytes cs).length ∧
      out.length = (cs.map (utf8_char_sjis_width s2u)).sum := by
  intro cs
  induction cs with
  | nil =>
    intro fuel dst len _ hf _ _
    cases fuel with
    | zero => omega
    | succ fuel =>
      refine ⟨[], ?_, ?_, by simp, by simp⟩
      · simp [utf8_to_sjis_loop, utf8_bytes, load_cons_zero]
      · simp [utf8_sjis_length_loop, utf8_bytes, load_cons_zero]
  | cons c cs ih =>
    intro fuel dst len hwf hf hcap hlen
    cases fuel with
    | zero => omega
    | succ fuel =>
      have hwfc := hwf c (List.mem_cons_self _ _)
      have hwf' : ∀ c ∈ cs, c.wf := fun c hc => hwf c (List.mem_cons_of_mem _ hc)
      obtain ⟨b, tl, hb, hb0, _⟩ := utf8_char_first c hwfc
      obtain ⟨x, xtl, hx, hxc⟩ := utf8_string_first cs hwf'
      obtain ⟨n, bs, hl, hn1, hn2, hchar⟩ := utf8_char_to_sjis_wf s2u c hwfc
      have hstep := hchar x xtl hxc
      rw [← hx] at hstep
      have hwidth : utf8_char_sjis_width s2u c = n := by
        have := hchar 0 [] (by unfold utf8_continuation; decide)
        simp only [utf8_char_sjis_width, this]
      simp only [utf8_bytes, List.length_append] at hcap hlen
      have hsrc : utf8_bytes (c :: cs) ++ [0] = c.bytes ++ (utf8_bytes cs ++ [0]) := by
        simp [utf8_bytes]
      have hload : load (c.bytes ++ (utf8_bytes cs ++ [0])) 0 = .ok b.val := by
        rw [hb]; exact load_cons_zero _ _
      have hcap1 : ¬ (dst ++ bs).length > cap := by
        simp only [List.length_append]; omega
      obtain ⟨out, hto, hlenl, hout, hsum⟩ := ih fuel (dst ++ bs) (len + n) hwf' (by
        simp only [List.length_cons] at hf; omega) (by simp only [List.length_append]; omega)
        (by omega)
      refine ⟨bs ++ out, ?_, ?_, ?_, ?_⟩
      · rw [hsrc, utf8_to_sjis_loop, hload]
        simp only [if_neg hb0, hstep, if_neg hcap1, hto, List.append_assoc]
      · rw [hsrc, utf8_sjis_length_loop, hload]
        simp only [if_neg hb0, utf8_sjis_char_length, hstep, Nat.mod_eq_of_lt (show len + n < 2 ^ 64 by omega),
          hlenl, List.length_append, hl]
        congr 1; omega
      · simp only [List.length_append, utf8_bytes]; omega
      · simp only [List.length_append, List.map_cons, List.sum_cons, hwidth, hsum, hl]

theorem utf8_bytes_length (cs : List utf8_char) : cs.length ≤ (utf8_bytes cs).length := by
  induction cs with
  | nil => simp
  | cons c cs ih =>
    have : 1 ≤ c.bytes.length := by cases c <;> simp [utf8_char.bytes]
    simp only [utf8_bytes, List.length_append, List.length_cons]
    omega

theorem utf8_char_to_sjis_tail_unmapped (s2u : Nat → Nat → Nat) (u : Nat) (out : List uint8_t)
    (hk : ¬ (0xff60 < u ∧ u ≤ 0xff9f)) (hu : s2u_unmapped s2u u) :
    utf8_char_to_sjis_tail s2u u out = .ok (1, [0x3f], out) := by
  have hk' : ¬ (u > 0xff60 ∧ u ≤ 0xff9f) := hk
  have h0 : ¬ ((0 : Nat) ≠ 0) := by simp
  simp only [utf8_char_to_sjis_tail, if_neg hk', unicode_to_sjis_no_match s2u u hu, if_neg h0]

theorem to_u8_val (b : uint8_t) : to_u8 b.val = b := by
  apply Fin.ext
  simp only [to_u8]
  exact Nat.mod_eq_of_lt b.isLt

theorem to_u8_of_lt (x : Nat) (h : x < 256) : (to_u8 x).val = x := by
  simp only [to_u8]
  exact Nat.mod_eq_of_lt h

/-- The function `utf8_char_to_sjis` decodes the bytes `sjis_to_utf8_internal`
stores for a codepoint from U+0080 to U+FFFF back to that codepoint. -/
theorem utf8_char_to_sjis_put (s2u : Nat → Nat → Nat) (u : Nat) (rest : List uint8_t)
    (h1 : 0x80 ≤ u) (h2 : u ≤ 0xffff) :
    utf8_char_to_sjis s2u (utf8_put u ++ rest) = utf8_char_to_sjis_tail s2u u rest := by
  rw [utf8_put_eq_encode u h2]
  unfold utf8_encode
  have hn : ¬ u < 0x80 := by omega
  rw [if_neg hn]
  by_cases h3 : u < 0x800
  · rw [if_pos h3]
    have v0 := to_u8_of_lt (0xc0 + u / 64) (by omega)
    have v1 := to_u8_of_lt (0x80 + u % 64) (by omega)
    have ha : ¬ (0xc0 + u / 64) ≤ 0x7f := by omega
    have hb : (0xc0 + u / 64) ≤ 0xdf := by omega
    have hdec : (0xc0 + u / 64) % 32 * 64 + (0x80 + u % 64) % 64 = u := by omega
    simp only [List.cons_append, List.nil_append, utf8_char_to_sjis, load_cons_zero,
      load_cons_one, v0, v1, if_neg ha, if_pos hb, utf8_decode2, hdec, List.drop_succ_cons,
      List.drop_zero]
  · rw [if_neg h3]
    have v0 := to_u8_of_lt (0xe0 + u / 4096) (by omega)
    have v1 := to_u8_of_lt (0x80 + u / 64 % 64) (by omega)
    have v2 := to_u8_of_lt (0x80 + u % 64) (by omega)
    have ha : ¬ (0xe0 + u / 4096) ≤ 0x7f := by omega
    have hb : ¬ (0xe0 + u / 4096) ≤ 0xdf := by omega
    have hc : (0xe0 + u / 4096) ≤ 0xef := by omega
    have hdec : (0xe0 + u / 4096) % 16 * 4096 + (0x80 + u / 64 % 64) % 64 * 64
        + (0x80 + u % 64) % 64 = u := by omega
    simp only [List.cons_append, List.nil_append, utf8_char_to_sjis, load_cons_zero,
      load_cons_one, load_cons_two, v0, v1, v2, if_neg ha, if_neg hb, if_pos hc, utf8_decode3,
      hdec, List.drop_succ_cons, List.drop_zero]

theorem sjis_pair_bytes (lead trail : uint8_t) :
    to_u8 (((lead.val <<< 8) ||| trail.val) >>> 8) = lead ∧
    to_u8 (((lead.val <<< 8) ||| trail.val) &&& 0xff) = trail ∧
    ((lead.val <<< 8) ||| trail.val) = lead.val * 256 + trail.val := by
  have hl := lead.isLt
  have ht := trail.isLt
  have h := Nat.mul_add_lt_is_or (i := 8) (b := trail.val) (by omega) lead.val
  have hc : (lead.val <<< 8) ||| trail.val = lead.val * 256 + trail.val := by
    rw [Nat.shiftLeft_eq, Nat.mul_comm, ← h]
  refine ⟨?_, ?_, hc⟩
  · rw [hc, Nat.shiftRight_eq_div_pow]
    apply Fin.ext
    simp only [to_u8]
    omega
  · rw [hc, and_ff]
    apply Fin.ext
    simp only [to_u8]
    omega

/-- The function `utf8_char_to_sjis` maps the UTF-8 bytes of the codepoint of a
round-trip character back to the bytes of the character. -/
theorem utf8_char_to_sjis_roundtrip (s2u : Nat → Nat → Nat) (c : sjis_char)
    (hrt : c.roundtrips s2u) (rest : List uint8_t) :
    utf8_char_to_sjis s2u (utf8_put (c.codepoint s2u) ++ rest)
      = .ok (c.bytes.length, c.bytes, rest) := by
  cases c with
  | single b =>
    have hb := b.isLt
    rcases hrt with ⟨h1, h2⟩ | ⟨h1, h2⟩
    · simp only [sjis_char.codepoint, if_pos h2, utf8_put, List.singleton_append, to_u8_val,
        utf8_char_to_sjis, load_cons_zero, List.drop_succ_cons, List.drop_zero, sjis_char.bytes,
        List.length_singleton]
    · have hna : ¬ b.val ≤ 0x7f := by omega
      have hk : 0xff60 + (b.val - 0xa0) > 0xff60 ∧ 0xff60 + (b.val - 0xa0) ≤ 0xff9f := by omega
      have hback : 0xff60 + (b.val - 0xa0) - 0xff60 + 0xa0 = b.val := by omega
      simp only [sjis_char.codepoint, if_neg hna]
      rw [utf8_char_to_sjis_put s2u _ rest (by omega) (by omega)]
      simp only [utf8_char_to_sjis_tail, if_pos hk, hback, to_u8_val, sjis_char.bytes,
        List.length_singleton]
  | double lead trail =>
    obtain ⟨_, _, _, _, _, hu1, hu2, hk, hscan⟩ := hrt
    have hl := lead.isLt
    obtain ⟨p1, p2, p3⟩ := sjis_pair_bytes lead trail
    have hk' : ¬ (s2u (lead.val - 0x80) (trail.val - 0x40) > 0xff60 ∧
        s2u (lead.val - 0x80) (trail.val - 0x40) ≤ 0xff9f) := hk
    have hne : ((lead.val <<< 8) ||| trail.val) ≠ 0 := by
      rw [p3]; omega
    simp only [sjis_char.codepoint]
    rw [utf8_char_to_sjis_put s2u _ rest hu1 hu2]
    simp only [utf8_char_to_sjis_tail, if_neg hk', hscan, if_pos hne, p1, p2, sjis_char.bytes,
      List.length_cons, List.length_nil]

theorem sjis_char2unicode_roundtrip (s2u : Nat → Nat → Nat) (c : sjis_char)
    (hrt : c.roundtrips s2u) (x : uint8_t) (tl : List uint8_t) :
    sjis_char2unicode s2u (c.bytes ++ x :: tl) = .ok (c.codepoint s2u, x :: tl) := by
  cases c with
  | single b =>
    obtain ⟨h1, h2, _⟩ := sjis_char2unicode_cases s2u b x tl
    rcases hrt with ⟨_, ha⟩ | ⟨hk1, hk2⟩
    · simp only [sjis_char.bytes, List.singleton_append, h1 ha, sjis_char.codepoint, if_pos ha]
    · have hna : ¬ b.val ≤ 0x7f := by omega
      simp only [sjis_char.bytes, List.singleton_append, h2 ⟨by omega, hk2⟩, sjis_char.codepoint,
        if_neg hna]
  | double lead trail =>
    obtain ⟨ha, hk, t1, t2, t3, _⟩ := hrt
    obtain ⟨_, _, h3⟩ := sjis_char2unicode_cases s2u lead trail (x :: tl)
    have ht : ¬ (trail.val < 0x40 ∨ trail.val = 0x7f ∨ trail.val > 0xfc) := by omega
    simp only [sjis_char.bytes, List.cons_append, List.nil_append, (h3 ⟨ha, hk⟩).2 ht,
      sjis_char.codepoint]

theorem sjis_char_first (s2u : Nat → Nat → Nat) (c : sjis_char) (hrt : c.roundtrips s2u) :
    ∃ b tl, c.bytes = b :: tl ∧ b.val ≠ 0 ∧ 1 ≤ c.bytes.length ∧
      c.bytes.length ≤ (utf8_put (c.codepoint s2u)).length := by
  cases c with
  | single b =>
    refine ⟨b, [], rfl, ?_, by simp [sjis_char.bytes], ?_⟩
    · rcases hrt with ⟨h, _⟩ | ⟨h, _⟩ <;> omega
    · simp only [sjis_char.bytes, List.length_singleton]
      exact (utf8_put_length _).1
  | double lead trail =>
    obtain ⟨ha, _, _, _, _, hu1, _⟩ := hrt
    refine ⟨lead, [trail], rfl, by omega, by simp [sjis_char.bytes], ?_⟩
    have hn : ¬ s2u (lead.val - 0x80) (trail.val - 0x40) ≤ 0x7f := by omega
    simp only [sjis_char.bytes, sjis_char.codepoint, utf8_put, if_neg hn, List.length_cons,
      List.length_nil]
    split <;> simp

theorem utf8_put_first (u : Nat) (h1 : 1 ≤ u) (h2 : u ≤ 0xffff) :
    ∃ b tl, utf8_put u = b :: tl ∧ b.val ≠ 0 := by
  rw [utf8_put_eq_encode u h2]
  unfold utf8_encode
  split
  · exact ⟨_, [], rfl, by rw [to_u8_of_lt u (by omega)]; omega⟩
  · split
    · exact ⟨_, _, rfl, by rw [to_u8_of_lt _ (by omega)]; omega⟩
    · exact ⟨_, _, rfl, by rw [to_u8_of_lt _ (by omega)]; omega⟩

theorem sjis_char_codepoint_range (s2u : Nat → Nat → Nat) (c : sjis_char)
    (hrt : c.roundtrips s2u) : 1 ≤ c.codepoint s2u ∧ c.codepoint s2u ≤ 0xffff := by
  cases c with
  | single b =>
    have hb := b.isLt
    simp only [sjis_char.codepoint]
    rcases hrt with ⟨h1, h2⟩ | ⟨h1, h2⟩
    · rw [if_pos h2]; omega
    · rw [if_neg (by omega)]; omega
  | double lead trail =>
    obtain ⟨_, _, _, _, _, hu1, hu2, _⟩ := hrt
    simp only [sjis_char.codepoint]
    omega

theorem sjis_string_first (s2u : Nat → Nat → Nat) (cs : List sjis_char)
    (hrt : ∀ c ∈ cs, c.roundtrips s2u) : ∃ x tl, sjis_bytes cs ++ [0] = x :: tl := by
  cases cs with
  | nil => exact ⟨0, [], rfl⟩
  | cons c cs =>
    obtain ⟨b, tl, hb, _⟩ := sjis_char_first s2u c (hrt c (List.mem_cons_self _ _))
    exact ⟨b, tl ++ (sjis_bytes cs ++ [0]), by simp [sjis_bytes, hb]⟩

theorem sjis_to_utf8_loop_roundtrip (s2u : Nat → Nat → Nat) (cap : Nat) :
    ∀ (cs : List sjis_char) (fuel : Nat) (dst : List uint8_t),
    (∀ c ∈ cs, c.roundtrips s2u) → cs.length < fuel →
    dst.length + 3 * (sjis_bytes cs).length ≤ cap →
    sjis_to_utf8_loop s2u cap fuel (sjis_bytes cs ++ [0]) dst
      = .ok (dst ++ sjis_chars_utf8 s2u cs) := by
  intro cs
  induction cs with
  | nil =>
    intro fuel dst _ hf _
    cases fuel with
    | zero => omega
    | succ fuel => simp [sjis_to_utf8_loop, sjis_bytes, sjis_chars_utf8, load_cons_zero]
  | cons c cs ih =>
    intro fuel dst hrt hf hcap
    cases fuel with
    | zero => omega
    | succ fuel =>
      have hc := hrt c (List.mem_cons_self _ _)
      have hrt' : ∀ c ∈ cs, c.roundtrips s2u := fun c h => hrt c (List.mem_cons_of_mem _ h)
      obtain ⟨b, tl, hb, hb0, hlen1, _⟩ := sjis_char_first s2u c hc
      obtain ⟨x, xtl, hx⟩ := sjis_string_first s2u cs hrt'
      have hstep := sjis_char2unicode_roundtrip s2u c hc x xtl
      rw [← hx] at hstep
      have hput := utf8_put_length (c.codepoint s2u)
      simp only [sjis_bytes, List.length_append] at hcap
      have hsrc : sjis_bytes (c :: cs) ++ [0] = c.bytes ++ (sjis_bytes cs ++ [0]) := by
        simp [sjis_bytes]
      have hload : load (c.bytes ++ (sjis_bytes cs ++ [0])) 0 = .ok b.val := by
        rw [hb]; exact load_cons_zero _ _
      have hcap1 : ¬ (dst ++ utf8_put (c.codepoint s2u)).length > cap := by
        simp only [List.length_append]; omega
      have hrec := ih fuel (dst ++ utf8_put (c.codepoint s2u)) hrt'
        (by simp only [List.length_cons] at hf; omega)
        (by simp only [List.length_append]; omega)
      rw [hsrc, sjis_to_utf8_loop, hload]
      simp only [if_neg hb0, hstep, if_neg hcap1, hrec, sjis_chars_utf8, List.append_assoc]

theorem utf8_to_sjis_loop_roundtrip (s2u : Nat → Nat → Nat) (cap : Nat) :
    ∀ (cs : List sjis_char) (fuel : Nat) (dst : List uint8_t),
    (∀ c ∈ cs, c.roundtrips s2u) → cs.length < fuel →
    dst.length + (sjis_bytes cs).length ≤ cap →
    utf8_to_sjis_loop s2u cap fuel (sjis_chars_utf8 s2u cs ++ [0]) dst
      = .ok (dst ++ sjis_bytes cs) := by
  intro cs
  induction cs with
  | nil =>
    intro fuel dst _ hf _
    cases fuel with
    | zero => omega
    | succ fuel => simp [utf8_to_sjis_loop, sjis_bytes, sjis_chars_utf8, load_cons_zero]
  | cons c cs ih =>
    intro fuel dst hrt hf hcap
    cases fuel with
    | zero => omega
    | succ fuel =>
      have hc := hrt c (List.mem_cons_self _ _)
      have hrt' : ∀ c ∈ cs, c.roundtrips s2u := fun c h => hrt c (List.mem_cons_of_mem _ h)
      obtain ⟨hcp1, hcp2⟩ := sjis_char_codepoint_range s2u c hc
      obtain ⟨b, tl, hb, hb0⟩ := utf8_put_first (c.codepoint s2u) hcp1 hcp2
      have hstep := utf8_char_to_sjis_roundtrip s2u c hc (sjis_chars_utf8 s2u cs ++ [0])
      simp only [sjis_bytes, List.length_append] at hcap
      have hsrc : sjis_chars_utf8 s2u (c :: cs) ++ [0]
          = utf8_put (c.codepoint s2u) ++ (sjis_chars_utf8 s2u cs ++ [0]) := by
        simp [sjis_chars_utf8]
      have hload : load (utf8_put (c.codepoint s2u) ++ (sjis_chars_utf8 s2u cs ++ [0])) 0
          = .ok b.val := by
        rw [hb]; exact load_cons_zero _ _
      have hcap1 : ¬ (dst ++ c.bytes).length > cap := by
        simp only [List.length_append]; omega
      have hrec := ih fuel (dst ++ c.bytes) hrt'
        (by simp only [List.length_cons] at hf; omega)
        (by simp only [List.length_append]; omega)
      rw [hsrc, utf8_to_sjis_loop, hload]
      simp only [if_neg hb0, hstep, if_neg hcap1, hrec, sjis_bytes, List.append_assoc]

theorem sjis_chars_utf8_length (s2u : Nat → Nat → Nat) (cs : List sjis_char)
    (hrt : ∀ c ∈ cs, c.roundtrips s2u) :
    cs.length ≤ (sjis_bytes cs).length ∧
    (sjis_bytes cs).length ≤ (sjis_chars_utf8 s2u cs).length := by
  induction cs with
  | nil => simp [sjis_bytes, sjis_chars_utf8]
  | cons c cs ih =>
    obtain ⟨h1, h2⟩ := ih (fun c h => hrt c (List.mem_cons_of_mem _ h))
    obtain ⟨_, _, _, _, hl1, hl2⟩ := sjis_char_first s2u c (hrt c (List.mem_cons_self _ _))
    simp only [sjis_bytes, sjis_chars_utf8, List.length_append, List.length_cons]
    omega

theorem s2u_example_unmapped (u : Nat) (h : u ≠ 0x3042) (h2 : u ≠ 0xfffd) :
    s2u_unmapped s2u_example u := by
  intro b1 b2 _ _ _ _ _
  unfold s2u_example
  split
  · exact fun e => h e.symm
  · exact fun e => h2 e.symm

/-! ## The claims on the bit buffer and the transcoder -/

/-- C11: on a bit buffer freshly initialised over `data` (fewer than 2^31 bytes,
the index being an `int`), the call of `bitbuffer_read_bit` after `k` earlier
calls returns bit `7 - k mod 8` of `data[k div 8]` for every `k < 8 * |data|`,
and the call after `8 * |data|` calls raises the overflow fault; for every
`n ≤ min(32, 8 * |data|)`, `bitbuffer_read_number(b, n)` returns the number whose
`n` binary digits are the first `n` bits of `data`, most significant first.  For
`data = [0b10110000]` four calls give true, false, true, true and
`bitbuffer_read_number(b, 4)` gives 11. -/
theorem C11_read_bit_msb_first (data : List uint8_t) (hlen : data.length < 2 ^ 31) :
    (∀ k, k < 8 * data.length →
      ∃ bits b1 b2,
        bitbuffer_read_bits k (bitbuffer_init data data.length) = .ok (bits, b1) ∧
        bitbuffer_read_bit b1 = .ok (data_bit data k, b2)) ∧
    (∃ bits b1,
        bitbuffer_read_bits (8 * data.length) (bitbuffer_init data data.length) = .ok (bits, b1) ∧
        bitbuffer_read_bit b1 = .error .bitbuffer_overflow) ∧
    (∀ n, n ≤ min 32 (8 * data.length) →
      ∃ b1, bitbuffer_read_number (bitbuffer_init data data.length) (n : Int)
        = .ok (bits_number data 0 n, b1)) ∧
    (∃ b1, bitbuffer_read_bits 4 (bitbuffer_init [0b10110000] 1)
        = .ok ([true, false, true, true], b1)) ∧
    (∃ b1, bitbuffer_read_number (bitbuffer_init [0b10110000] 1) 4 = .ok (11, b1)) := by
  refine ⟨?_, ?_, ?_,
    ⟨{ buf := [0b10110000], buf_size := 1, index := 1, current := 0b10110000, mask := 8 },
      by decide⟩,
    ⟨{ buf := [0b10110000], buf_size := 1, index := 1, current := 0b10110000, mask := 8 },
      by decide⟩⟩
  · intro k hk
    have := bitbuffer_read_bits_at data hlen k 0 (by omega)
    rw [bitbuffer_at_zero, Nat.zero_add] at this
    exact ⟨_, _, _, this, bitbuffer_read_bit_at data k hlen hk⟩
  · have := bitbuffer_read_bits_at data hlen (8 * data.length) 0 (by omega)
    rw [bitbuffer_at_zero, Nat.zero_add] at this
    exact ⟨_, _, this, bitbuffer_read_bit_at_end data hlen⟩
  · intro n hn
    have h32 : n ≤ 32 := le_trans hn (Nat.min_le_left _ _)
    have h8 : n ≤ 8 * data.length := le_trans hn (Nat.min_le_right _ _)
    have := bitbuffer_read_number_loop_at data hlen n 0 0 (by omega) (by omega)
    simp only [Nat.add_zero, Nat.zero_add, bitbuffer_at_zero, bits_number] at this
    exact ⟨_, by simpa [bitbuffer_read_number] using this⟩

/-- C11 at the two bytes `b0 12`. -/
theorem C11_read_bit_msb_first_witness :
    ([0xb0, 0x12] : List uint8_t).length < 2 ^ 31 ∧
    (∃ bits b1 b2,
        bitbuffer_read_bits 11 (bitbuffer_init [0xb0, 0x12] 2) = .ok (bits, b1) ∧
        bitbuffer_read_bit b1 = .ok (data_bit [0xb0, 0x12] 11, b2)) ∧
    data_bit [0xb0, 0x12] 11 = true :=
  ⟨by decide, (C11_read_bit_msb_first [0xb0, 0x12] (by decide)).1 11 (by decide), by decide⟩

/-- C12, as stated, fails for the byte `0xa0`: for every table `sjis_to_utf8`
turns it into the UTF-8 bytes of U+FF60, and for no table does `utf8_to_sjis`
turn these back into `0xa0`, because `utf8_char_to_sjis` takes the halfwidth
range to start after `0xff60`. -/
theorem C12_counterexample :
    (¬ ∃ s2u : Nat → Nat → Nat, sjis_to_utf8 s2u [0xa0] ≠ .ok [0xef, 0xbd, 0xa0]) ∧
    (¬ ∃ s2u : Nat → Nat → Nat, utf8_to_sjis s2u [0xef, 0xbd, 0xa0] = .ok [0xa0]) := by
  constructor
  · rintro ⟨s2u, h⟩
    apply h
    have hchar : sjis_char2unicode s2u [0xa0, 0] = .ok (0xff60, [0]) :=
      (sjis_char2unicode_cases s2u 0xa0 0 []).2.1 (by decide)
    have hput : utf8_put 0xff60 = [0xef, 0xbd, 0xa0] := by decide
    have h0 : ¬ (0xa0 : uint8_t).val = 0 := by decide
    simp only [sjis_to_utf8, sjis_to_utf8_internal, List.cons_append, List.nil_append,
      List.length_cons, List.length_nil, sjis_to_utf8_loop, load_cons_zero, if_neg h0, hchar]
    rw [hput]
    simp
  · rintro ⟨s2u, h⟩
    obtain ⟨c, hc⟩ := unicode_to_sjis_returns s2u 0xff60
    have hk : ¬ ((0xff60 : Nat) > 0xff60 ∧ (0xff60 : Nat) ≤ 0xff9f) := by omega
    have hdec : ((0xef : uint8_t).val &&& 0xf) <<< 12 ||| ((0xbd : uint8_t).val &&& 0x3f) <<< 6
        ||| ((0xa0 : uint8_t).val &&& 0x3f) = 0xff60 := by decide
    have ha : ¬ (0xef : uint8_t).val ≤ 0x7f := by decide
    have hb : ¬ (0xef : uint8_t).val ≤ 0xdf := by decide
    have hcc : (0xef : uint8_t).val ≤ 0xef := by decide
    have h0 : ¬ (0xef : uint8_t).val = 0 := by decide
    have hchar : utf8_char_to_sjis s2u [0xef, 0xbd, 0xa0, 0]
        = utf8_char_to_sjis_tail s2u 0xff60 [0] := by
      simp only [utf8_char_to_sjis, load_cons_zero, load_cons_one, load_cons_two, if_neg ha,
        if_neg hb, if_pos hcc, hdec, List.drop_succ_cons, List.drop_zero]
    by_cases hz : c ≠ 0
    · have e : utf8_to_sjis s2u [0xef, 0xbd, 0xa0]
          = .ok [to_u8 (c >>> 8), to_u8 (c &&& 0xff)] := by
        simp [utf8_to_sjis, utf8_to_sjis_internal, utf8_to_sjis_loop, load_cons_zero, h0, hchar,
          utf8_char_to_sjis_tail, hk, hc, hz]
      rw [e] at h
      simp at h
    · have e : utf8_to_sjis s2u [0xef, 0xbd, 0xa0] = .ok [0x3f] := by
        simp [utf8_to_sjis, utf8_to_sjis_internal, utf8_to_sjis_loop, load_cons_zero, h0, hchar,
          utf8_char_to_sjis_tail, hk, hc, hz]
      rw [e] at h
      revert h
      decide

/-- C12 (amended): for every table and every string of non-NUL ASCII bytes
(`0x01..0x7f`), halfwidth katakana bytes `0xa1..0xdf` and double-byte
characters whose table entry `u` lies in `[0x80, 0xffff]` outside
`(0xff60, 0xff9f]` and is mapped back to the pair by the reverse scan
`unicode_to_sjis`, both conversions return and
`utf8_to_sjis(sjis_to_utf8(s))` is byte-for-byte equal to `s`. -/
theorem C12_roundtrip (s2u : Nat → Nat → Nat) (cs : List sjis_char)
    (hrt : ∀ c ∈ cs, c.roundtrips s2u) (hlen : (sjis_bytes cs).length * 3 < 2 ^ 64) :
    ∃ u8, sjis_to_utf8 s2u (sjis_bytes cs) = .ok u8 ∧
      utf8_to_sjis s2u u8 = .ok (sjis_bytes cs) := by
  obtain ⟨h1, h2⟩ := sjis_chars_utf8_length s2u cs hrt
  refine ⟨sjis_chars_utf8 s2u cs, ?_, ?_⟩
  · have := sjis_to_utf8_loop_roundtrip s2u ((sjis_bytes cs).length * 3) cs
      ((sjis_bytes cs ++ [0]).length + 1) [] hrt
      (by simp only [List.length_append, List.length_singleton]; omega)
      (by simp only [List.length_nil]; omega)
    unfold sjis_to_utf8 sjis_to_utf8_internal
    rw [Nat.mod_eq_of_lt hlen]
    exact this
  · have := utf8_to_sjis_loop_roundtrip s2u (sjis_chars_utf8 s2u cs).length cs
      ((sjis_chars_utf8 s2u cs ++ [0]).length + 1) [] hrt
      (by simp only [List.length_append, List.length_singleton]; omega)
      (by simp only [List.length_nil]; omega)
    unfold utf8_to_sjis utf8_to_sjis_internal
    exact this

/-- C12 (amended) at the string `82 a0 41 b1` and the example table. -/
theorem C12_roundtrip_witness :
    ((∀ c ∈ [sjis_char.double 0x82 0xa0, sjis_char.single 0x41, sjis_char.single 0xb1],
        c.roundtrips s2u_example) ∧
      (sjis_bytes [sjis_char.double 0x82 0xa0, sjis_char.single 0x41,
        sjis_char.single 0xb1]).length * 3 < 2 ^ 64) ∧
    sjis_bytes [sjis_char.double 0x82 0xa0, sjis_char.single 0x41, sjis_char.single 0xb1]
      = [0x82, 0xa0, 0x41, 0xb1] ∧
    ∃ u8, sjis_to_utf8 s2u_example
        (sjis_bytes [sjis_char.double 0x82 0xa0, sjis_char.single 0x41, sjis_char.single 0xb1])
        = .ok u8 ∧
      utf8_to_sjis s2u_example u8
        = .ok (sjis_bytes [sjis_char.double 0x82 0xa0, sjis_char.single 0x41,
            sjis_char.single 0xb1]) :=
  have hrt : ∀ c ∈ [sjis_char.double 0x82 0xa0, sjis_char.single 0x41, sjis_char.single 0xb1],
      c.roundtrips s2u_example := by
    intro c hc
    simp only [List.mem_cons, List.mem_singleton, List.not_mem_nil, or_false] at hc
    rcases hc with rfl | rfl | rfl
    · exact ⟨by decide, by decide, by decide, by decide, by decide, by decide, by decide,
        by decide, unicode_to_sjis_example⟩
    · exact Or.inl (by decide)
    · exact Or.inr (by decide)
  ⟨⟨hrt, by decide⟩, by decide, C12_roundtrip s2u_example _ hrt (by decide)⟩

/-- C13, as stated, fails: after the lead byte `0x81` the trail byte `0x7f` is
rejected by the guard of `sjis_char2unicode`, which yields `?` and consumes one
byte, not two. -/
theorem C13_counterexample :
    sjis_char2unicode s2u_example [0x81, 0x7f, 0x41, 0] = .ok (0x3f, [0x7f, 0x41, 0]) ∧
    ([0x7f, 0x41, 0] : List uint8_t) ≠ ([0x81, 0x7f, 0x41, 0] : List uint8_t).drop 2 := by
  constructor <;> decide

/-- C13 (amended): for every table, lead byte and trail byte,
`sjis_char2unicode` yields the codepoint `lead` and consumes 1 byte when
`lead ≤ 0x7f`; yields `0xff60 + (lead - 0xa0)` and consumes 1 byte when `lead`
is in `[0xa0, 0xdf]`; for every other lead byte it yields `?` and consumes 1
byte when the trail byte is below `0x40`, equal to `0x7f` or above `0xfc`, and
otherwise yields the table entry `s2u[lead - 0x80][trail - 0x40]` and consumes
2 bytes. -/
theorem C13_char2unicode (s2u : Nat → Nat → Nat) (lead trail : uint8_t)
    (rest : List uint8_t) :
    (lead.val ≤ 0x7f →
      sjis_char2unicode s2u (lead :: trail :: rest) = .ok (lead.val, trail :: rest)) ∧
    (0xa0 ≤ lead.val ∧ lead.val ≤ 0xdf →
      sjis_char2unicode s2u (lead :: trail :: rest)
        = .ok (0xff60 + (lead.val - 0xa0), trail :: rest)) ∧
    (¬ lead.val ≤ 0x7f ∧ ¬ (0xa0 ≤ lead.val ∧ lead.val ≤ 0xdf) →
      (trail.val < 0x40 ∨ trail.val = 0x7f ∨ trail.val > 0xfc →
        sjis_char2unicode s2u (lead :: trail :: rest) = .ok (0x3f, trail :: rest)) ∧
      (¬ (trail.val < 0x40 ∨ trail.val = 0x7f ∨ trail.val > 0xfc) →
        sjis_char2unicode s2u (lead :: trail :: rest)
          = .ok (s2u (lead.val - 0x80) (trail.val - 0x40), rest))) :=
  sjis_char2unicode_cases s2u lead trail rest

/-- C13 (amended) at the pair `(0x82, 0xa0)` of the example table. -/
theorem C13_char2unicode_witness :
    (¬ (0x82 : uint8_t).val ≤ 0x7f ∧ ¬ (0xa0 ≤ (0x82 : uint8_t).val ∧ (0x82 : uint8_t).val ≤ 0xdf)) ∧
    ¬ ((0xa0 : uint8_t).val < 0x40 ∨ (0xa0 : uint8_t).val = 0x7f ∨ (0xa0 : uint8_t).val > 0xfc) ∧
    sjis_char2unicode s2u_example [0x82, 0xa0, 0x41, 0] = .ok (0x3042, [0x41, 0]) :=
  ⟨by decide, by decide,
    ((C13_char2unicode s2u_example 0x82 0xa0 [0x41, 0]).2.2 (by decide)).2 (by decide)⟩

/-- C14 (code defect): `sjis_char_is_valid` tests `b1 < 0x7f` where the ASCII
range ends at `0x7f` (`sjis_char2unicode` tests `<= 0x7f`): for the lead byte
`0x7f` followed by a NUL it returns false, whatever the table.  Below `0x7f` it
returns true. -/
theorem C14_is_valid_rejects_7f (s2u : Nat → Nat → Nat) (BAD_CH : Nat) :
    sjis_char_is_valid s2u BAD_CH [0x7f, 0x00] = .ok false ∧
    (∀ (lead trail : uint8_t) (rest : List uint8_t), lead.val < 0x7f →
      sjis_char_is_valid s2u BAD_CH (lead :: trail :: rest) = .ok true) := by
  constructor
  · rfl
  · intro lead trail rest h
    simp only [sjis_char_is_valid, load_cons_zero, if_pos h]

/-- C15: for every macro `SJIS_2BYTE`, every string of `m` well-formed
characters followed by a NUL (shorter than 2^31 bytes, positions being `int`s)
and every index `n ≥ 0`, `sjis_index(s, n)` returns the sum of the byte widths
of the first `n` characters when `n < m` and -1 when `n ≥ m`. -/
theorem C15_sjis_index (SJIS_2BYTE : Nat → Bool) (cs : List sjis_char) (n : Nat)
    (hwf : ∀ c ∈ cs, c.wf SJIS_2BYTE) (hlen : sjis_width cs + 1 < 2 ^ 31) :
    sjis_index SJIS_2BYTE (sjis_bytes cs ++ [0]) (n : Int) =
      .ok (if n < cs.length then ((sjis_width (cs.take n) : Nat) : Int) else -1) := by
  have := sjis_index_loop_spec SJIS_2BYTE n cs [] hwf (by simpa using hlen)
  simpa [sjis_index] using this

/-- C15 at the macro of the spec: `"AB"` with index 1 gives 1, and a
double-byte character followed by `"A"` with index 1 gives 2. -/
theorem C15_sjis_index_witness :
    ((∀ c ∈ [sjis_char.double 0x82 0xa0, sjis_char.single 0x41], c.wf SJIS_2BYTE_spec) ∧
      sjis_width [sjis_char.double 0x82 0xa0, sjis_char.single 0x41] + 1 < 2 ^ 31) ∧
    sjis_index SJIS_2BYTE_spec
        (sjis_bytes [sjis_char.double 0x82 0xa0, sjis_char.single 0x41] ++ [0]) ((1 : Nat) : Int)
      = .ok (if 1 < [sjis_char.double 0x82 0xa0, sjis_char.single 0x41].length
          then ((sjis_width ([sjis_char.double 0x82 0xa0, sjis_char.single 0x41].take 1) : Nat)
            : Int)
          else -1) ∧
    sjis_index SJIS_2BYTE_spec [0x82, 0xa0, 0x41, 0] 1 = .ok 2 ∧
    sjis_index SJIS_2BYTE_spec [0x41, 0x42, 0] 1 = .ok 1 ∧
    sjis_index SJIS_2BYTE_spec [0x41, 0x42, 0] 2 = .ok (-1) :=
  have hwf : ∀ c ∈ [sjis_char.double 0x82 0xa0, sjis_char.single 0x41],
      c.wf SJIS_2BYTE_spec := by
    intro c hc
    simp only [List.mem_cons, List.mem_singleton, List.not_mem_nil, or_false] at hc
    rcases hc with rfl | rfl
    · exact ⟨by decide, by decide, by decide⟩
    · exact ⟨by decide, by decide⟩
  ⟨⟨hwf, by decide⟩, C15_sjis_index SJIS_2BYTE_spec _ 1 hwf (by decide), by decide, by decide,
    by decide⟩

/-- C16: for every table, a well-formed 2-byte or 3-byte UTF-8 sequence whose
codepoint `u` is outside `(0xff60, 0xff9f]` and equals no table entry visited
by the reverse scan makes `utf8_char_to_sjis` store the single byte `?` and
return 1; and for every string of well-formed UTF-8 characters followed by a
NUL, `utf8_to_sjis` and `utf8_sjis_length` return, the length computed by
`utf8_sjis_length` is the number of bytes of the output of `utf8_to_sjis`, and
it is the sum of the values `utf8_char_to_sjis` returns for the characters. -/
theorem C16_unmapped_substitution (s2u : Nat → Nat → Nat) (cs : List utf8_char)
    (hwf : ∀ c ∈ cs, c.wf) (hlen : (utf8_bytes cs).length < 2 ^ 64) :
    (∀ (b0 b1 : uint8_t) (rest : List uint8_t), 0xc0 ≤ b0.val → b0.val ≤ 0xdf →
      utf8_continuation b1 →
      s2u_unmapped s2u ((b0.val - 0xc0) * 64 + (b1.val - 0x80)) →
      utf8_char_to_sjis s2u (b0 :: b1 :: rest) = .ok (1, [0x3f], rest)) ∧
    (∀ (b0 b1 b2 : uint8_t) (rest : List uint8_t), 0xe0 ≤ b0.val → b0.val ≤ 0xef →
      utf8_continuation b1 → utf8_continuation b2 →
      ¬ (0xff60 < (b0.val - 0xe0) * 4096 + (b1.val - 0x80) * 64 + (b2.val - 0x80) ∧
        (b0.val - 0xe0) * 4096 + (b1.val - 0x80) * 64 + (b2.val - 0x80) ≤ 0xff9f) →
      s2u_unmapped s2u ((b0.val - 0xe0) * 4096 + (b1.val - 0x80) * 64 + (b2.val - 0x80)) →
      utf8_char_to_sjis s2u (b0 :: b1 :: b2 :: rest) = .ok (1, [0x3f], rest)) ∧
    (∃ out, utf8_to_sjis s2u (utf8_bytes cs) = .ok out ∧
      utf8_sjis_length s2u (utf8_bytes cs ++ [0]) = .ok out.length ∧
      out.length = (cs.map (utf8_char_sjis_width s2u)).sum) := by
  refine ⟨?_, ?_, ?_⟩
  · intro b0 b1 rest h1 h2 hc hu
    unfold utf8_continuation at hc
    have ha : ¬ b0.val ≤ 0x7f := by omega
    have hdec : b0.val % 32 * 64 + b1.val % 64 = (b0.val - 0xc0) * 64 + (b1.val - 0x80) := by
      omega
    simp only [utf8_char_to_sjis, load_cons_zero, load_cons_one, if_neg ha, if_pos h2,
      utf8_decode2, hdec, List.drop_succ_cons, List.drop_zero]
    exact utf8_char_to_sjis_tail_unmapped s2u _ rest (by omega) hu
  · intro b0 b1 b2 rest h1 h2 hc1 hc2 hk hu
    unfold utf8_continuation at hc1 hc2
    have ha : ¬ b0.val ≤ 0x7f := by omega
    have hb : ¬ b0.val ≤ 0xdf := by omega
    have hdec : b0.val % 16 * 4096 + b1.val % 64 * 64 + b2.val % 64
        = (b0.val - 0xe0) * 4096 + (b1.val - 0x80) * 64 + (b2.val - 0x80) := by omega
    simp only [utf8_char_to_sjis, load_cons_zero, load_cons_one, load_cons_two, if_neg ha,
      if_neg hb, if_pos h2, utf8_decode3, hdec, List.drop_succ_cons, List.drop_zero]
    exact utf8_char_to_sjis_tail_unmapped s2u _ rest hk hu
  · have hfuel : cs.length < (utf8_bytes cs ++ [0]).length + 1 := by
      have := utf8_bytes_length cs
      simp only [List.length_append, List.length_singleton]; omega
    obtain ⟨out, hto, hl, _, hsum⟩ := utf8_loops_spec s2u (utf8_bytes cs).length cs
      ((utf8_bytes cs ++ [0]).length + 1) [] 0 hwf hfuel (by simp) (by omega)
    refine ⟨out, ?_, ?_, hsum⟩
    · simpa [utf8_to_sjis, utf8_to_sjis_internal] using hto
    · simpa [utf8_sjis_length] using hl

/-- C16 at the UTF-8 string of U+3042, U+00E9 and `A` with the example table,
which has an entry for U+3042 only. -/
theorem C16_unmapped_substitution_witness :
    ((∀ c ∈ [utf8_char.three 0xe3 0x81 0x82, utf8_char.two 0xc3 0xa9, utf8_char.one 0x41],
        c.wf) ∧
      (utf8_bytes [utf8_char.three 0xe3 0x81 0x82, utf8_char.two 0xc3 0xa9,
        utf8_char.one 0x41]).length < 2 ^ 64) ∧
    utf8_char_to_sjis s2u_example [0xc3, 0xa9, 0x41, 0] = .ok (1, [0x3f], [0x41, 0]) ∧
    (∃ out, utf8_to_sjis s2u_example
        (utf8_bytes [utf8_char.three 0xe3 0x81 0x82, utf8_char.two 0xc3 0xa9,
          utf8_char.one 0x41]) = .ok out ∧
      utf8_sjis_length s2u_example
        (utf8_bytes [utf8_char.three 0xe3 0x81 0x82, utf8_char.two 0xc3 0xa9,
          utf8_char.one 0x41] ++ [0]) = .ok out.length ∧
      out.length = ([utf8_char.three 0xe3 0x81 0x82, utf8_char.two 0xc3 0xa9,
          utf8_char.one 0x41].map (utf8_char_sjis_width s2u_example)).sum) :=
  have hwf : ∀ c ∈ [utf8_char.three 0xe3 0x81 0x82, utf8_char.two 0xc3 0xa9,
      utf8_char.one 0x41], c.wf := by
    intro c hc
    simp only [List.mem_cons, List.mem_singleton, List.not_mem_nil, or_false] at hc
    rcases hc with rfl | rfl | rfl
    · exact ⟨by decide, by decide, by unfold utf8_continuation; decide,
        by unfold utf8_continuation; decide⟩
    · exact ⟨by decide, by decide, by unfold utf8_continuation; decide⟩
    · exact ⟨by decide, by decide⟩
  ⟨⟨hwf, by decide⟩,
    (C16_unmapped_substitution s2u_example _ hwf (by decide)).1 0xc3 0xa9 [0x41, 0]
      (by decide) (by decide) (by unfold utf8_continuation; decide)
      (s2u_example_unmapped _ (by decide) (by decide)),
    (C16_unmapped_substitution s2u_example _ hwf (by decide)).2.2⟩

/-- C17 (code defect): `sjis_toupper` tests `*src >= 0x60` where the lowercase
letters start at `0x61`: the single-byte character `0x60` (a backquote, not a
letter) is replaced by `0x40`.  A double-byte character followed by `a` is
handled as the claim says. -/
theorem C17_toupper_changes_backquote :
    sjis_toupper SJIS_2BYTE_spec [0x60, 0] = .ok [0x40, 0] ∧
    SJIS_2BYTE_spec 0x60 = false ∧
    sjis_toupper SJIS_2BYTE_spec [0x82, 0x61, 0x61, 0] = .ok [0x82, 0x61, 0x41, 0] := by
  refine ⟨?_, ?_, ?_⟩ <;> decide

/-- C18: for a bit buffer over `data` (fewer than 2^31 bytes) positioned at bit
offset `p` by `p` calls of `bitbuffer_read_bit`, and a limit below 2^31, with
`z` the number of consecutive zero bits from `p` on: when at least
`min(limit, z + 1)` bits remain, `bitbuffer_read_zeros(b, limit)` returns
`min(limit, z)` (at most `limit`) and leaves the buffer in the state reached by
`p + z + 1` calls of `bitbuffer_read_bit` when `z < limit`, by `p + limit`
calls otherwise. -/
theorem C18_read_zeros (data : List uint8_t) (p limit : Nat) (hlen : data.length < 2 ^ 31)
    (hlimit : limit < 2 ^ 31) (hp : p ≤ 8 * data.length)
    (hbits : p + min limit (zero_run data p (8 * data.length - p) + 1) ≤ 8 * data.length) :
    ∃ bits b b1 bits1,
      bitbuffer_read_bits p (bitbuffer_init data data.length) = .ok (bits, b) ∧
      bitbuffer_read_zeros b (limit : Int)
        = .ok (min limit (zero_run data p (8 * data.length - p)), b1) ∧
      min limit (zero_run data p (8 * data.length - p)) ≤ limit ∧
      bitbuffer_read_bits
          (p + (if zero_run data p (8 * data.length - p) < limit
            then zero_run data p (8 * data.length - p) + 1 else limit))
          (bitbuffer_init data data.length) = .ok (bits1, b1) := by
  have h1 := bitbuffer_read_bits_at data hlen p 0 (by omega)
  rw [bitbuffer_at_zero, Nat.zero_add] at h1
  have hc : p + (if zero_run data p (8 * data.length - p) < limit
      then zero_run data p (8 * data.length - p) + 1 else limit) ≤ 8 * data.length := by
    split
    · rw [Nat.min_eq_right (by omega)] at hbits; exact hbits
    · rw [Nat.min_eq_left (by omega)] at hbits; exact hbits
  have h2 := bitbuffer_read_bits_at data hlen
    (p + (if zero_run data p (8 * data.length - p) < limit
      then zero_run data p (8 * data.length - p) + 1 else limit)) 0
    (by rw [Nat.zero_add]; exact hc)
  rw [bitbuffer_at_zero, Nat.zero_add] at h2
  exact ⟨_, _, _, _, h1, bitbuffer_read_zeros_at data hlen p limit hlimit hp hbits,
    Nat.min_le_left _ _, h2⟩

/-- C18 at the bytes `10 ff` from bit offset 1 with limit 10: two zero bits and
the one-bit are consumed. -/
theorem C18_read_zeros_witness :
    (([0x10, 0xff] : List uint8_t).length < 2 ^ 31 ∧ (10 : Nat) < 2 ^ 31 ∧
      1 ≤ 8 * ([0x10, 0xff] : List uint8_t).length ∧
      1 + min 10 (zero_run [0x10, 0xff] 1 (8 * ([0x10, 0xff] : List uint8_t).length - 1) + 1)
        ≤ 8 * ([0x10, 0xff] : List uint8_t).length) ∧
    zero_run [0x10, 0xff] 1 (8 * ([0x10, 0xff] : List uint8_t).length - 1) = 2 ∧
    ∃ bits b b1 bits1,
      bitbuffer_read_bits 1 (bitbuffer_init [0x10, 0xff] ([0x10, 0xff] : List uint8_t).length)
        = .ok (bits, b) ∧
      bitbuffer_read_zeros b ((10 : Nat) : Int)
        = .ok (min 10 (zero_run [0x10, 0xff] 1 (8 * ([0x10, 0xff] : List uint8_t).length - 1)),
            b1) ∧
      min 10 (zero_run [0x10, 0xff] 1 (8 * ([0x10, 0xff] : List uint8_t).length - 1)) ≤ 10 ∧
      bitbuffer_read_bits
          (1 + (if zero_run [0x10, 0xff] 1 (8 * ([0x10, 0xff] : List uint8_t).length - 1) < 10
            then zero_run [0x10, 0xff] 1 (8 * ([0x10, 0xff] : List uint8_t).length - 1) + 1
            else 10))
          (bitbuffer_init [0x10, 0xff] ([0x10, 0xff] : List uint8_t).length) = .ok (bits1, b1) :=
  ⟨by decide, by decide,
    C18_read_zeros [0x10, 0xff] 1 10 (by decide) (by decide) (by decide) (by decide)⟩

/-- C19: for every byte string `s` (of `len` bytes, `3 * len` representable as
`size_t`) stored with a terminating NUL and nothing after it, and every table
whose entries are codepoints up to U+FFFF, `sjis_to_utf8` returns (so it reads
nothing past the NUL and stays within the capacity `3 * len`); its output is
the concatenation of the UTF-8 encodings of the codepoints returned by the
successive calls of `sjis_char2unicode`, and is at most `3 * len` bytes long. -/
theorem C19_sjis_to_utf8 (s2u : Nat → Nat → Nat) (s : List uint8_t)
    (hlen : s.length * 3 < 2 ^ 64) (htbl : ∀ r c, s2u r c ≤ 0xffff) :
    ∃ out cps,
      sjis_to_utf8 s2u s = .ok out ∧
      sjis_codepoints s2u ((s ++ [0]).length + 1) (s ++ [0]) = .ok cps ∧
      out = (cps.map utf8_encode).flatten ∧
      out.length ≤ 3 * s.length := by
  obtain ⟨n, hn, hstr⟩ := strlen_append_nul s []
  have hcap : s.length * 3 % 2 ^ 64 = s.length * 3 := Nat.mod_eq_of_lt hlen
  obtain ⟨cps, hcps, hloop, hlen2, hbmp⟩ :=
    sjis_to_utf8_loop_spec s2u (s.length * 3) ((s ++ [0]).length + 1) (s ++ [0]) [] n hstr
      (by simp only [List.length_append, List.length_singleton]; omega)
      (by simp only [List.length_nil]; omega)
  have hmap : cps.map utf8_put = cps.map utf8_encode :=
    List.map_congr_left (fun c hc => utf8_put_eq_encode c (hbmp htbl c hc))
  refine ⟨(cps.map utf8_put).flatten, cps, ?_, hcps, by rw [hmap], by omega⟩
  simp only [sjis_to_utf8, sjis_to_utf8_internal, hcap, hloop, List.nil_append]

/-- C19 at the string `82 a0 41 b1` and the example table. -/
theorem C19_sjis_to_utf8_witness :
    (([0x82, 0xa0, 0x41, 0xb1] : List uint8_t).length * 3 < 2 ^ 64 ∧
      ∀ r c, s2u_example r c ≤ 0xffff) ∧
    sjis_to_utf8 s2u_example [0x82, 0xa0, 0x41, 0xb1]
      = .ok [0xe3, 0x81, 0x82, 0x41, 0xef, 0xbd, 0xb1] ∧
    ∃ out cps,
      sjis_to_utf8 s2u_example [0x82, 0xa0, 0x41, 0xb1] = .ok out ∧
      sjis_codepoints s2u_example (([0x82, 0xa0, 0x41, 0xb1] ++ [0] : List uint8_t).length + 1)
        ([0x82, 0xa0, 0x41, 0xb1] ++ [0]) = .ok cps ∧
      out = (cps.map utf8_encode).flatten ∧
      out.length ≤ 3 * ([0x82, 0xa0, 0x41, 0xb1] : List uint8_t).length :=
  have htbl : ∀ r c, s2u_example r c ≤ 0xffff := by
    intro r c
    unfold s2u_example
    split <;> decide
  ⟨⟨by decide, htbl⟩, by decide,
    C19_sjis_to_utf8 s2u_example [0x82, 0xa0, 0x41, 0xb1] (by decide) htbl⟩

/-- C20 (code defect): for the lead byte `0x7f` and a trail byte from `0x40` on,
`sjis_char_is_valid` (which lets `0x7f` through its test `b1 < 0x7f`) looks up
row `0x7f - 0x80 = -1` of the table, outside it.  For lead bytes from `0x80` on
its lookup is within the table, and `sjis_char2unicode` and `unicode_to_sjis`
never leave the table: they return for every input. -/
theorem C20_is_valid_negative_row (s2u : Nat → Nat → Nat) (BAD_CH : Nat) :
    sjis_char_is_valid s2u BAD_CH [0x7f, 0x40] = .error .bad_access ∧
    s2u_at s2u (((0x7f : Nat) : Int) - 0x80) (((0x40 : Nat) : Int) - 0x40) = .error .bad_access ∧
    (((0x7f : Nat) : Int) - 0x80 = -1) ∧
    (∀ (lead trail : uint8_t) (rest : List uint8_t), 0x80 ≤ lead.val →
      ∃ r, sjis_char_is_valid s2u BAD_CH (lead :: trail :: rest) = .ok r) ∧
    (∀ (lead trail : uint8_t) (rest : List uint8_t),
      ∃ r, sjis_char2unicode s2u (lead :: trail :: rest) = .ok r) ∧
    (∀ u, ∃ c, unicode_to_sjis s2u u = .ok c) := by
  have hat : s2u_at s2u (((0x7f : Nat) : Int) - 0x80) (((0x40 : Nat) : Int) - 0x40)
      = .error .bad_access := by
    have hcond : ¬ (0 ≤ ((0x7f : Nat) : Int) - 0x80 ∧ ((0x7f : Nat) : Int) - 0x80 < 0x80 ∧
        0 ≤ ((0x40 : Nat) : Int) - 0x40 ∧ ((0x40 : Nat) : Int) - 0x40 < 0xc0) := by omega
    simp only [s2u_at, if_neg hcond]
  have hvalid : sjis_char_is_valid s2u BAD_CH [0x7f, 0x40] = .error .bad_access := by
    have h1 : ¬ ((0x7f : uint8_t).val < 0x7f) := by decide
    have h2 : ¬ ((0x40 : uint8_t).val < 0x40) := by decide
    have e1 : ((0x7f : uint8_t).val : Int) = ((0x7f : Nat) : Int) := rfl
    have e2 : ((0x40 : uint8_t).val : Int) = ((0x40 : Nat) : Int) := rfl
    simp only [sjis_char_is_valid, load_cons_zero, load_cons_one, if_neg h1, if_neg h2, e1, e2,
      hat]
  refine ⟨hvalid, hat, by decide, ?_, sjis_char2unicode_returns s2u,
    unicode_to_sjis_returns s2u⟩
  intro lead trail rest hlead
  have hl := lead.isLt
  have ht := trail.isLt
  have h1 : ¬ lead.val < 0x7f := by omega
  by_cases h2 : trail.val < 0x40
  · exact ⟨false, by simp only [sjis_char_is_valid, load_cons_zero, load_cons_one, if_neg h1,
      if_pos h2]⟩
  · simp only [sjis_char_is_valid, load_cons_zero, load_cons_one, if_neg h1, if_neg h2,
      s2u_at_eq s2u lead.val trail.val hlead (by omega) (by omega) (by omega)]
    split
    · exact ⟨_, rfl⟩
    · exact ⟨_, rfl⟩

/-- The loop of the branch of `utf8_char_to_sjis` for lead bytes from `0xf0` on
stops at or before the first NUL. -/
theorem utf8_skip_continuation_stops : ∀ (src : List uint8_t) (n : Nat), strlen src = some n →
    ∃ k, k ≤ n ∧ utf8_skip_continuation src = .ok (src.drop k) := by
  intro src
  induction src with
  | nil => intro n h; simp [strlen] at h
  | cons b rest ih =>
    intro n h
    by_cases hc : (b.val &&& 0xc0) = 0x80
    · have hb : b ≠ 0 := by
        intro h0
        rw [h0] at hc
        revert hc
        decide
      obtain ⟨m, hm, hnm⟩ := strlen_cons b rest n hb h
      obtain ⟨k, hk, hskip⟩ := ih m hm
      exact ⟨k + 1, by omega, by
        simp only [utf8_skip_continuation, if_pos hc, hskip, List.drop_succ_cons]⟩
    · exact ⟨0, Nat.zero_le _, by simp only [utf8_skip_continuation, if_neg hc, List.drop_zero]⟩

/-- The step of `utf8_char_to_sjis` on the lead byte `0xc3` followed by a NUL:
the codepoint decoded is `0xc0` and `*out` is `src + 2`. -/
theorem utf8_char_to_sjis_c3_nul (s2u : Nat → Nat → Nat) (rest : List uint8_t) :
    utf8_char_to_sjis s2u (0xc3 :: 0 :: rest) = utf8_char_to_sjis_tail s2u 0xc0 rest := by
  have ha : ¬ (0xc3 : uint8_t).val ≤ 0x7f := by decide
  have hb : (0xc3 : uint8_t).val ≤ 0xdf := by decide
  have hdec : (0xc3 : uint8_t).val % 32 * 64 + (0 : uint8_t).val % 64 = 0xc0 := by decide
  simp only [utf8_char_to_sjis, load_cons_zero, load_cons_one, if_neg ha, if_pos hb,
    utf8_decode2, hdec, List.drop_succ_cons, List.drop_zero]

theorem utf8_char_to_sjis_ascii (s2u : Nat → Nat → Nat) (b : uint8_t) (rest : List uint8_t)
    (h : b.val ≤ 0x7f) : utf8_char_to_sjis s2u (b :: rest) = .ok (1, [b], rest) := by
  simp only [utf8_char_to_sjis, load_cons_zero, if_pos h, to_u8_val, List.drop_succ_cons,
    List.drop_zero]

/-- C21 (code defect): the branches of `utf8_char_to_sjis` for lead bytes
`0x80..0xdf` and `0xe0..0xef` set `*out` to `src + 2` and `src + 3` without
looking at the bytes they step over.  For the string `c3` (one byte, then the
NUL) the step started at the byte before the terminator ends after it, at the
end of the storage, and for every table both loops then read outside the
storage.  With the bytes `41 42 00` after the terminator, and the example
table, `utf8_sjis_length` returns 3 for this string of length 1 and the loop of
`utf8_to_sjis` stores the 3 bytes `3f 41 42`.  The branch for lead bytes from
`0xf0` on tests every byte and stops at or before the NUL. -/
theorem C21_step_passes_terminator (s2u : Nat → Nat → Nat) :
    (∃ n bs, utf8_char_to_sjis s2u [0xc3, 0] = .ok (n, bs, [])) ∧
    utf8_to_sjis s2u [0xc3] = .error .bad_access ∧
    utf8_sjis_length s2u [0xc3, 0] = .error .bad_access ∧
    utf8_sjis_length s2u_example [0xc3, 0, 0x41, 0x42, 0] = .ok 3 ∧
    utf8_to_sjis_internal s2u_example [0xc3, 0, 0x41, 0x42, 0] 3 = .ok [0x3f, 0x41, 0x42] ∧
    (∀ (src : List uint8_t) (n : Nat), strlen src = some n →
      ∃ k, k ≤ n ∧ utf8_skip_continuation src = .ok (src.drop k)) := by
  obtain ⟨n, bs, hl, hn1, hn2, htail⟩ := utf8_char_to_sjis_tail_spec s2u 0xc0
  have hstep : utf8_char_to_sjis s2u [0xc3, 0] = .ok (n, bs, []) := by
    rw [utf8_char_to_sjis_c3_nul, htail]
  have h0 : ¬ (0xc3 : uint8_t).val = 0 := by decide
  have hnil : load ([] : List uint8_t) 0 = .error .bad_access := load_error [] 0 (Nat.le_refl _)
  have hex : utf8_char_to_sjis_tail s2u_example 0xc0 = fun out => .ok (1, [0x3f], out) := by
    funext out
    exact utf8_char_to_sjis_tail_unmapped s2u_example 0xc0 out (by omega)
      (s2u_example_unmapped 0xc0 (by decide) (by decide))
  have hA : ¬ (0x41 : uint8_t).val = 0 := by decide
  have hB : ¬ (0x42 : uint8_t).val = 0 := by decide
  refine ⟨⟨n, bs, hstep⟩, ?_, ?_, ?_, ?_, utf8_skip_continuation_stops⟩
  · simp only [utf8_to_sjis, utf8_to_sjis_internal, List.cons_append, List.nil_append,
      List.length_cons, List.length_nil, utf8_to_sjis_loop, load_cons_zero, if_neg h0, hstep,
      hnil]
    split <;> rfl
  · simp only [utf8_sjis_length, List.length_cons, List.length_nil, utf8_sjis_length_loop,
      load_cons_zero, if_neg h0, utf8_sjis_char_length, hstep, hnil]
  · set_option maxRecDepth 10000 in
    simp only [utf8_sjis_length, List.length_cons, List.length_nil, utf8_sjis_length_loop,
      load_cons_zero, if_neg h0, utf8_sjis_char_length, utf8_char_to_sjis_c3_nul, hex,
      if_neg hA, if_neg hB, utf8_char_to_sjis_ascii s2u_example 0x41 _ (by decide),
      utf8_char_to_sjis_ascii s2u_example 0x42 _ (by decide)]
    decide
  · set_option maxRecDepth 10000 in
    simp only [utf8_to_sjis_internal, List.length_cons, List.length_nil, utf8_to_sjis_loop,
      load_cons_zero, if_neg h0, utf8_char_to_sjis_c3_nul, hex, if_neg hA, if_neg hB,
      utf8_char_to_sjis_ascii s2u_example 0x41 _ (by decide),
      utf8_char_to_sjis_ascii s2u_example 0x42 _ (by decide)]
    decide

end Nulib
